import Mathlib

/-!
# html-strip: protect / strip / restore pipeline

A shallow embedding of `main.go`: the placeholder codec (lines 64-72 and 97-106),
the span protector (lines 55-73), the document step (lines 75-93, over the library
`goquery` as a parameter), the span restorer (lines 96-119) and the
tag-list validation (lines 47-62), over byte strings, together with the parts of the
Go standard library the program calls (`encoding/base64`, `html.EscapeString`,
`regexp.QuoteMeta`, `regexp` compilation and leftmost-first matching,
`ReplaceAllFunc`, `strings.Split`, `strings.TrimSpace`, `fmt.Sprintf`).
-/

namespace HtmlStrip

/-! ## Bytes -/

/-- A byte. Go strings and `[]byte` values are sequences of these. -/
abbrev Byte := Fin 256

/-- A Go string or byte slice. -/
abbrev Bytes := List Byte

/-- The byte of a character (its code point, reduced to eight bits; exact for ASCII). -/
def byteOfChar (c : Char) : Byte := Fin.ofNat c.toNat

/-- The bytes of an ASCII string literal. -/
def str (s : String) : Bytes := s.toList.map byteOfChar

/-! ## encoding/base64, StdEncoding -/

/-- The standard base64 alphabet: the character of a six-bit value. -/
def b64char (n : Nat) : Byte :=
  if n < 26 then Fin.ofNat (65 + n)
  else if n < 52 then Fin.ofNat (97 + (n - 26))
  else if n < 62 then Fin.ofNat (48 + (n - 52))
  else if n = 62 then 43
  else 47

/-- The decode map of the standard alphabet: the six-bit value of a character, if any. -/
def b64val (c : Byte) : Option Nat :=
  if 65 ≤ c.val ∧ c.val ≤ 90 then some (c.val - 65)
  else if 97 ≤ c.val ∧ c.val ≤ 122 then some (c.val - 97 + 26)
  else if 48 ≤ c.val ∧ c.val ≤ 57 then some (c.val - 48 + 52)
  else if c.val = 43 then some 62
  else if c.val = 47 then some 63
  else none

/-- The padding character `=`. -/
def b64pad : Byte := 61

/-- The function `base64.StdEncoding.EncodeToString`: three bytes become four characters,
a final group of one or two bytes is padded with `=`. -/
def b64encode : Bytes → Bytes
  | [] => []
  | [a] => [b64char (a.val / 4), b64char (a.val % 4 * 16), b64pad, b64pad]
  | [a, b] =>
    [b64char (a.val / 4), b64char (a.val % 4 * 16 + b.val / 16),
     b64char (b.val % 16 * 4), b64pad]
  | a :: b :: c :: rest =>
    b64char (a.val / 4) :: b64char (a.val % 4 * 16 + b.val / 16) ::
    b64char (b.val % 16 * 4 + c.val / 64) :: b64char (c.val % 64) :: b64encode rest

/-- Decoding of the quanta of a base64 text from which `\r` and `\n` are already removed:
full groups of four alphabet characters, the last group possibly `xx==` or `xxx=`;
anything else is a `CorruptInputError`. The decoder is not strict: the unused low bits
of a padded group are not checked. -/
def b64decodeQuanta : Bytes → Option Bytes
  | [] => some []
  | [c0, c1, c2, c3] =>
    match b64val c0, b64val c1 with
    | some v0, some v1 =>
      match b64val c2, b64val c3 with
      | some v2, some v3 =>
        some [Fin.ofNat (v0 * 4 + v1 / 16), Fin.ofNat (v1 % 16 * 16 + v2 / 4),
              Fin.ofNat (v2 % 4 * 64 + v3)]
      | some v2, none =>
        if c3 = b64pad then
          some [Fin.ofNat (v0 * 4 + v1 / 16), Fin.ofNat (v1 % 16 * 16 + v2 / 4)]
        else none
      | none, _ =>
        if c2 = b64pad ∧ c3 = b64pad then some [Fin.ofNat (v0 * 4 + v1 / 16)] else none
    | _, _ => none
  | c0 :: c1 :: c2 :: c3 :: rest =>
    match b64val c0, b64val c1, b64val c2, b64val c3 with
    | some v0, some v1, some v2, some v3 =>
      match b64decodeQuanta rest with
      | some out =>
        some (Fin.ofNat (v0 * 4 + v1 / 16) :: Fin.ofNat (v1 % 16 * 16 + v2 / 4) ::
              Fin.ofNat (v2 % 4 * 64 + v3) :: out)
      | none => none
    | _, _, _, _ => none
  | _ => none

/-- The function `base64.StdEncoding.DecodeString`: carriage returns and newlines are
skipped, the rest is decoded quantum by quantum; `none` stands for a decoding error. -/
def b64decode (s : Bytes) : Option Bytes :=
  b64decodeQuanta (s.filter (fun c => !(c = 10 ∨ c = 13)))

/-! ## unicode/utf8 -/

/-- The rune `utf8.RuneError`, U+FFFD. -/
def runeError : Nat := 0xFFFD

/-- Whether a byte is a UTF-8 continuation byte, `0x80..0xBF`. -/
def isCont (b : Byte) : Bool := 0x80 ≤ b.val && b.val ≤ 0xBF

/-- The accept range of the second byte of a three-byte encoding: `A0..BF` after `E0`
(no overlong forms), `80..9F` after `ED` (no surrogates), `80..BF` otherwise. -/
def accept3 (b0 b1 : Byte) : Bool :=
  (if b0.val = 0xE0 then 0xA0 else 0x80) ≤ b1.val && b1.val ≤ (if b0.val = 0xED then 0x9F else 0xBF)

/-- The accept range of the second byte of a four-byte encoding: `90..BF` after `F0`,
`80..8F` after `F4`, `80..BF` otherwise. -/
def accept4 (b0 b1 : Byte) : Bool :=
  (if b0.val = 0xF0 then 0x90 else 0x80) ≤ b1.val && b1.val ≤ (if b0.val = 0xF4 then 0x8F else 0xBF)

/-- The function `utf8.DecodeRune`: the first rune of the bytes and its width. An empty
input gives `(RuneError, 0)`, an invalid or incomplete encoding `(RuneError, 1)`. -/
def decodeRune : Bytes → Nat × Nat
  | [] => (runeError, 0)
  | b0 :: rest =>
    if b0.val < 0x80 then (b0.val, 1)
    else if b0.val < 0xC2 then (runeError, 1)
    else if b0.val < 0xE0 then
      match rest with
      | b1 :: _ => if isCont b1 then ((b0.val % 32) * 64 + b1.val % 64, 2) else (runeError, 1)
      | _ => (runeError, 1)
    else if b0.val < 0xF0 then
      match rest with
      | b1 :: b2 :: _ =>
        if accept3 b0 b1 ∧ isCont b2 then
          ((b0.val % 16) * 4096 + (b1.val % 64) * 64 + b2.val % 64, 3)
        else (runeError, 1)
      | _ => (runeError, 1)
    else if b0.val < 0xF5 then
      match rest with
      | b1 :: b2 :: b3 :: _ =>
        if accept4 b0 b1 ∧ isCont b2 ∧ isCont b3 then
          ((b0.val % 8) * 262144 + (b1.val % 64) * 4096 + (b2.val % 64) * 64 + b3.val % 64, 4)
        else (runeError, 1)
      | _ => (runeError, 1)
    else (runeError, 1)

/-- The width by which a scan advances over the first rune: at least one byte on a
non-empty input. -/
def runeWidth (s : Bytes) : Nat := (decodeRune s).2

/-- The function `utf8.Valid`, by fuel: every rune decodes, none as an encoding error.
(The three bytes `EF BF BD` are the valid encoding of U+FFFD itself.) -/
def validUTF8Aux : Nat → Bytes → Bool
  | _, [] => true
  | 0, _ :: _ => false
  | fuel + 1, b :: rest =>
    let d := decodeRune (b :: rest)
    if d.1 = runeError ∧ d.2 = 1 then false
    else validUTF8Aux fuel ((b :: rest).drop d.2)

/-- The function `utf8.Valid`. -/
def validUTF8 (s : Bytes) : Bool := validUTF8Aux s.length s

/-- The function `utf8.DecodeLastRune`: the last rune of the bytes and its width. -/
def decodeLastRune (p : Bytes) : Nat × Nat :=
  match p.getLast? with
  | none => (runeError, 0)
  | some last =>
    if last.val < 0x80 then (last.val, 1)
    else
      let lim := p.length - 4
      -- the first candidate start below `end - 1` that is a rune start, not below `lim`
      let cand := (List.range (p.length - 1 - lim)).map (fun k => p.length - 2 - k)
      let start :=
        match cand.find? (fun j => !(isCont (p.getD j 0))) with
        | some j => j
        | none => if lim = 0 then 0 else lim - 1
      let d := decodeRune (p.drop start)
      if start + d.2 ≠ p.length then (runeError, 1) else d

/-! ## strings, html -/

/-- The function `strings.Split(s, ",")`: the fields between the commas; the empty
string has the single field `""`. -/
def splitComma : Bytes → List Bytes
  | [] => [[]]
  | b :: rest =>
    if b = 44 then [] :: splitComma rest
    else
      match splitComma rest with
      | [] => [[b]]
      | f :: fs => (b :: f) :: fs

/-- The predicate `unicode.IsSpace` on a rune. -/
def isSpaceRune (r : Nat) : Bool :=
  (9 ≤ r && r ≤ 13) || r = 32 || r = 0x85 || r = 0xA0 || r = 0x1680 ||
  (0x2000 ≤ r && r ≤ 0x200A) || r = 0x2028 || r = 0x2029 || r = 0x202F ||
  r = 0x205F || r = 0x3000

/-- The function `strings.TrimLeftFunc(s, unicode.IsSpace)`: leading white-space runes
are dropped. -/
def trimLeftSpace : Nat → Bytes → Bytes
  | _, [] => []
  | 0, s => s
  | fuel + 1, b :: rest =>
    let d := decodeRune (b :: rest)
    if isSpaceRune d.1 then trimLeftSpace fuel ((b :: rest).drop d.2) else b :: rest

/-- The helper `lastIndexFunc(s, unicode.IsSpace, false)`: the index at which the last
rune that is not white space starts, scanning backwards with `DecodeLastRune`;
`none` stands for `-1`. -/
def lastIndexNotSpace : Nat → Bytes → Option Nat
  | 0, _ => none
  | fuel + 1, s =>
    if s.length = 0 then none
    else
      let d := decodeLastRune s
      let i := s.length - d.2
      if isSpaceRune d.1 then lastIndexNotSpace fuel (s.take i) else some i

/-- The function `strings.TrimRightFunc(s, unicode.IsSpace)`. -/
def trimRightSpace (s : Bytes) : Bytes :=
  match lastIndexNotSpace (s.length + 1) s with
  | none => []
  | some i =>
    if 0x80 ≤ (s.getD i 0).val then s.take (i + runeWidth (s.drop i)) else s.take (i + 1)

/-- The function `strings.TrimSpace`: its ASCII fast path agrees with the rune-wise
trimming on ASCII bytes, so it is `TrimRightFunc` after `TrimLeftFunc`. -/
def trimSpace (s : Bytes) : Bytes := trimRightSpace (trimLeftSpace s.length s)

/-- The function `html.EscapeString` on one byte. -/
def escapeByte (b : Byte) : Bytes :=
  if b = 38 then str "&amp;"
  else if b = 39 then str "&#39;"
  else if b = 60 then str "&lt;"
  else if b = 62 then str "&gt;"
  else if b = 34 then str "&#34;"
  else [b]

/-- The function `html.EscapeString`: the five characters `& ' < > "` become entities. -/
def escapeString (s : Bytes) : Bytes := s.flatMap escapeByte

/-- The metacharacters that `regexp.QuoteMeta` escapes: `\.+*?()|[]{}^$`. -/
def isMeta (b : Byte) : Bool :=
  b = 92 || b = 46 || b = 43 || b = 42 || b = 63 || b = 40 || b = 41 || b = 124 ||
  b = 91 || b = 93 || b = 123 || b = 125 || b = 94 || b = 36

/-- The function `regexp.QuoteMeta`: a backslash before every metacharacter. -/
def quoteMeta (s : Bytes) : Bytes :=
  s.flatMap (fun b => if isMeta b then [92, b] else [b])

/-! ## regexp: the pattern language

The fragment of the RE2 syntax accepted by `regexp.Compile` that is modelled: literals,
`\` before punctuation, `.`, character classes of ASCII characters and ranges, the
repetitions `*`, `+`, `?` (greedy or, with a following `?`, lazy), alternation and
capturing groups. -/

/-- Why a pattern yields no matcher. -/
inductive CompileError where
  /-- The error of `regexp.Compile`; `regexp.MustCompile` panics. -/
  | bad : CompileError
  /-- The pattern is valid or invalid RE2 outside the modelled fragment (`\d`, `(?i)`,
  `{n,m}`, `^`, `$`, non-ASCII class members, a literal U+FFFD). -/
  | unmodelled : CompileError
  deriving DecidableEq, Repr

/-- A parsed pattern. A literal rune is kept as its UTF-8 bytes: for a valid encoding
other than that of U+FFFD, the input decodes to the same rune exactly where it starts
with these bytes. -/
inductive Regex where
  | empty : Regex
  | lit (bs : Bytes) : Regex
  | any : Regex
  | cls (neg : Bool) (ranges : List (Nat × Nat)) : Regex
  | cat (a b : Regex) : Regex
  | alt (a b : Regex) : Regex
  | star (a : Regex) (greedy : Bool) : Regex
  | plus (a : Regex) (greedy : Bool) : Regex
  | quest (a : Regex) (greedy : Bool) : Regex
  | group (a : Regex) : Regex
  deriving DecidableEq, Repr

/-- The lexical items of a pattern. -/
inductive Tok where
  | lit (bs : Bytes) : Tok
  | any : Tok
  | cls (neg : Bool) (ranges : List (Nat × Nat)) : Tok
  | star (greedy : Bool) : Tok
  | plus (greedy : Bool) : Tok
  | quest (greedy : Bool) : Tok
  | bar : Tok
  | lparen : Tok
  | rparen : Tok
  deriving DecidableEq, Repr

/-- ASCII letters and digits: a backslash before one of them is not a quoted literal. -/
def isAlnum (b : Byte) : Bool :=
  (48 ≤ b.val && b.val ≤ 57) || (65 ≤ b.val && b.val ≤ 90) || (97 ≤ b.val && b.val ≤ 122)

/-- The helper `parseClassChar`: one class member, plain or escaped, and the rest. -/
def classChar : Bytes → Except CompileError (Nat × Bytes)
  | [] => .error .bad
  | [92] => .error .bad
  | 92 :: c :: rest =>
    if c.val < 0x80 ∧ !isAlnum c then .ok (c.val, rest) else .error .unmodelled
  | c :: rest => if c.val < 0x80 then .ok (c.val, rest) else .error .unmodelled

/-- The loop of `parseClass` after `[` and an optional `^`: members and ranges up to
the closing `]`, which is a member when it comes first. -/
def lexClass : Nat → Bool → Bytes → List (Nat × Nat) → Except CompileError (List (Nat × Nat) × Bytes)
  | 0, _, _, _ => .error .bad
  | _ + 1, false, 93 :: rest, acc => .ok (acc, rest)
  | fuel + 1, _, t, acc =>
    match t with
    | 91 :: 58 :: _ => .error .unmodelled
    | _ =>
      match classChar t with
      | .error e => .error e
      | .ok (lo, t1) =>
        match t1 with
        | 45 :: c :: t2 =>
          if c = 93 then lexClass fuel false t1 (acc ++ [(lo, lo)])
          else
            match classChar (c :: t2) with
            | .error e => .error e
            | .ok (hi, t3) =>
              if hi < lo then .error .bad else lexClass fuel false t3 (acc ++ [(lo, hi)])
        | _ => lexClass fuel false t1 (acc ++ [(lo, lo)])

/-- Whether a repetition operator is followed by `?`, which makes it lazy, and the rest. -/
def lazyMark : Bytes → Bool × Bytes
  | 63 :: rest => (false, rest)
  | rest => (true, rest)

/-- A token put in front of the tokens of the rest, when the rest has any. -/
def consTok (t : Tok) : Except CompileError (List Tok) → Except CompileError (List Tok)
  | .ok ts => .ok (t :: ts)
  | .error e => .error e

/-- The lexical pass over a pattern. -/
def lex : Nat → Bytes → Except CompileError (List Tok)
  | _, [] => .ok []
  | 0, _ :: _ => .error .unmodelled
  | fuel + 1, c :: rest =>
    if c = 92 then
      match rest with
      | [] => .error .bad
      | d :: rest1 =>
        if d.val < 0x80 ∧ !isAlnum d then consTok (.lit [d]) (lex fuel rest1)
        else .error .unmodelled
    else if c = 46 then consTok .any (lex fuel rest)
    else if c = 42 then consTok (.star (lazyMark rest).1) (lex fuel (lazyMark rest).2)
    else if c = 43 then consTok (.plus (lazyMark rest).1) (lex fuel (lazyMark rest).2)
    else if c = 63 then consTok (.quest (lazyMark rest).1) (lex fuel (lazyMark rest).2)
    else if c = 124 then consTok .bar (lex fuel rest)
    else if c = 40 then
      match rest with
      | 63 :: _ => .error .unmodelled
      | _ => consTok .lparen (lex fuel rest)
    else if c = 41 then consTok .rparen (lex fuel rest)
    else if c = 91 then
      let neg := rest.head? = some 94
      match lexClass (rest.length + 1) true (if neg then rest.drop 1 else rest) [] with
      | .error e => .error e
      | .ok (rs, rest1) => consTok (.cls neg rs) (lex fuel rest1)
    else if c = 123 ∨ c = 94 ∨ c = 36 then .error .unmodelled
    else if c.val < 0x80 then consTok (.lit [c]) (lex fuel rest)
    else
      let d := decodeRune (c :: rest)
      if d.1 = runeError then .error .unmodelled
      else consTok (.lit ((c :: rest).take d.2)) (lex fuel ((c :: rest).drop d.2))

/-- The concatenation of the items of one alternative. -/
def concatOf : List Regex → Regex
  | [] => .empty
  | [a] => a
  | a :: rest => .cat a (concatOf rest)

/-- The alternation of the alternatives of one group, the first preferred. -/
def altOf : List Regex → Regex
  | [] => .empty
  | [a] => a
  | a :: rest => .alt a (altOf rest)

/-- One open group of the parser: the alternatives already closed by `|` and the items
of the current alternative. -/
structure Frame where
  alts : List Regex
  cur : List Regex
  deriving DecidableEq, Repr

/-- The regular expression of a frame that is being closed. -/
def Frame.close (f : Frame) : Regex := altOf (f.alts ++ [concatOf f.cur])

/-- The parser over the tokens, with the stack of open groups (innermost first) and
whether the previous token was a repetition operator (a second one is refused). -/
def parseToks : List Tok → Frame → List Frame → Bool → Except CompileError Regex
  | [], f, [], _ => .ok f.close
  | [], _, _ :: _, _ => .error .bad
  | .lit bs :: ts, f, st, _ => parseToks ts { f with cur := f.cur ++ [.lit bs] } st false
  | .any :: ts, f, st, _ => parseToks ts { f with cur := f.cur ++ [.any] } st false
  | .cls n rs :: ts, f, st, _ => parseToks ts { f with cur := f.cur ++ [.cls n rs] } st false
  | .star g :: ts, f, st, rep =>
    match f.cur.getLast?, rep with
    | some a, false => parseToks ts { f with cur := f.cur.dropLast ++ [.star a g] } st true
    | _, _ => .error .bad
  | .plus g :: ts, f, st, rep =>
    match f.cur.getLast?, rep with
    | some a, false => parseToks ts { f with cur := f.cur.dropLast ++ [.plus a g] } st true
    | _, _ => .error .bad
  | .quest g :: ts, f, st, rep =>
    match f.cur.getLast?, rep with
    | some a, false => parseToks ts { f with cur := f.cur.dropLast ++ [.quest a g] } st true
    | _, _ => .error .bad
  | .bar :: ts, f, st, _ =>
    parseToks ts { alts := f.alts ++ [concatOf f.cur], cur := [] } st false
  | .lparen :: ts, f, st, _ => parseToks ts { alts := [], cur := [] } (f :: st) false
  | .rparen :: ts, f, st, _ =>
    match st with
    | [] => .error .bad
    | g :: st1 => parseToks ts { g with cur := g.cur ++ [.group f.close] } st1 false

/-- The function `regexp.Compile`: a pattern that is not valid UTF-8 is an error, then
the pattern is parsed. -/
def compile (pat : Bytes) : Except CompileError Regex :=
  if validUTF8 pat then
    match lex pat.length pat with
    | .ok ts => parseToks ts { alts := [], cur := [] } [] false
    | .error e => .error e
  else .error .bad

/-! ## regexp: leftmost-first matching -/

/-- The function `bytes.HasPrefix`. -/
def hasPrefix : Bytes → Bytes → Bool
  | _, [] => true
  | [], _ :: _ => false
  | b :: s, c :: p => b = c && hasPrefix s p

/-- The iterations of a repetition: every way to repeat `f` from `inp`, each iteration
consuming input, in the order of preference (greedy: more iterations first). -/
def iter (f : Bytes → List Bytes) (greedy : Bool) : Nat → Bytes → List Bytes
  | 0, inp => [inp]
  | fuel + 1, inp =>
    let more := ((f inp).filter (fun r => r.length < inp.length)).flatMap (iter f greedy fuel)
    if greedy then more ++ [inp] else inp :: more

/-- The matches of a pattern at the start of the input: the input left after each
match, in the order in which a backtracking (leftmost-first) matcher prefers them. -/
def Regex.ends : Regex → Bytes → List Bytes
  | .empty, inp => [inp]
  | .lit bs, inp => if hasPrefix inp bs then [inp.drop bs.length] else []
  | .any, inp =>
    let d := decodeRune inp
    if d.2 = 0 ∨ d.1 = 10 then [] else [inp.drop d.2]
  | .cls neg rs, inp =>
    let d := decodeRune inp
    if d.2 = 0 then []
    else if (rs.any (fun r => r.1 ≤ d.1 && d.1 ≤ r.2)) != neg then [inp.drop d.2]
    else []
  | .cat a b, inp => (a.ends inp).flatMap b.ends
  | .alt a b, inp => a.ends inp ++ b.ends inp
  | .star a g, inp => iter a.ends g inp.length inp
  | .plus a g, inp => (a.ends inp).flatMap (fun r => iter a.ends g r.length r)
  | .quest a g, inp => if g then a.ends inp ++ [inp] else inp :: a.ends inp
  | .group a, inp => a.ends inp

/-- The preferred match at the start of the input: the matched bytes and the rest. -/
def Regex.matchAt (re : Regex) (inp : Bytes) : Option (Bytes × Bytes) :=
  match re.ends inp with
  | [] => none
  | r :: _ => some (inp.take (inp.length - r.length), r)

/-- The unanchored search of the matcher: the leftmost position, stepping over the input
rune by rune, at which the pattern matches; the result is the bytes skipped, the bytes
matched and the rest. -/
def Regex.find (re : Regex) : Nat → Bytes → Option (Bytes × Bytes × Bytes)
  | 0, _ => none
  | fuel + 1, inp =>
    match re.matchAt inp with
    | some (m, r) => some ([], m, r)
    | none =>
      match inp with
      | [] => none
      | b :: rest =>
        let w := runeWidth (b :: rest)
        match re.find fuel ((b :: rest).drop w) with
        | some (sk, m, r) => some ((b :: rest).take w ++ sk, m, r)
        | none => none

/-- The loop of `Regexp.replaceAll`, with a replacement function that may abort the run
(the closures of the restorer exit the process). The state is the text between the last
match end and the search position (`gap`), the text from the search position on
(`rest`) and whether the search position is the start of the text. A match of the empty
string directly after another match is not replaced; the search always advances by at
least one rune. -/
def replaceLoop {ε : Type} (re : Regex) (repl : Bytes → Except ε Bytes) :
    Nat → Bool → Bytes → Bytes → Except ε Bytes
  | 0, _, gap, rest => .ok (gap ++ rest)
  | fuel + 1, atStart, gap, rest =>
    match re.find (rest.length + 1) rest with
    | none => .ok (gap ++ rest)
    | some (sk, m, after) =>
      let doRepl : Bool :=
        decide (0 < gap.length + sk.length + m.length) || (atStart && sk.isEmpty)
      let out : Except ε Bytes := if doRepl then repl m else .ok []
      let w := runeWidth rest
      match out with
      | .error e => .error e
      | .ok o =>
        let tail : Except ε Bytes :=
          if sk.length + m.length < w then
            replaceLoop re repl fuel false ((rest.drop (sk.length + m.length)).take
              (w - (sk.length + m.length))) (rest.drop w)
          else if sk.length + m.length < 1 then .ok after
          else replaceLoop re repl fuel false [] after
        match tail with
        | .error e => .error e
        | .ok t => .ok (gap ++ sk ++ o ++ t)

/-- The methods `Regexp.ReplaceAllFunc` and `Regexp.ReplaceAllStringFunc`. -/
def replaceAllFunc {ε : Type} (re : Regex) (src : Bytes) (repl : Bytes → Except ε Bytes) :
    Except ε Bytes :=
  replaceLoop re repl (src.length + 1) true [] src

/-! ## The placeholder codec -/

/-- The decimal digits of a number, as `%d` prints them. -/
def decimal (n : Nat) : Bytes := (Nat.toDigits 10 n).map byteOfChar

/-- The constant `tagPrefix` formatted with the namespace and the pair index:
`fmt.Sprintf(tagPrefix, *flagHidden, i/2)` (lines 19, 64 and 97). -/
def prefixOf (ns : Bytes) (i : Nat) : Bytes :=
  str "<!-- ___XXX_" ++ ns ++ str "_" ++ decimal i ++ str "___ "

/-- The constant `tagSuffix` (line 20). -/
def tagSuffix : Bytes := str " -->"

/-- The default of the flag `-h` (line 24). -/
def flagHidden : Bytes := str "HTML_STRIP"

/-- The replacement closure of the protector (lines 66-72): prefix, base64 of the
matched bytes, suffix. -/
def encode (ns : Bytes) (i : Nat) (s : Bytes) : Bytes :=
  prefixOf ns i ++ b64encode s ++ tagSuffix

/-- The Go slice expression `s[lo:hi]`; it panics (`none`) unless `lo ≤ hi ≤ len(s)`. -/
def slice (s : Bytes) (lo hi : Nat) : Option Bytes :=
  if lo ≤ hi ∧ hi ≤ s.length then some ((s.take hi).drop lo) else none

/-- The body of the replacement closure of the raw-comment pass (lines 100-105): the
token without `len(prefix)` leading and `len(tagSuffix)` trailing bytes, base64-decoded.
`none` stands for the fatal exit (or a slice panic). -/
def decode (ns : Bytes) (i : Nat) (tok : Bytes) : Option Bytes :=
  match slice tok (prefixOf ns i).length (tok.length - tagSuffix.length) with
  | some payload => b64decode payload
  | none => none

/-! ## The program -/

/-- Why a run ends without output. -/
inductive Failure where
  /-- An odd number of ignore tags (line 49), exit code 1. -/
  | oddTags : Failure
  /-- A marker that is empty after trimming (line 59), exit code 1. -/
  | emptyTag : Failure
  /-- A panic: `regexp.MustCompile` on an invalid pattern, or a slice out of range. -/
  | panic : Failure
  /-- The document step failed (lines 77 and 91), exit code 1. -/
  | dom : Failure
  /-- A token did not base64-decode (lines 101 and 113), exit code 1. -/
  | decodeError : Failure
  /-- A pattern outside the modelled fragment of the pattern language. -/
  | unmodelled : Failure
  deriving DecidableEq, Repr

/-- Equality of results is decidable. -/
instance instDecidableEqExcept {ε α : Type} [DecidableEq ε] [DecidableEq α] :
    DecidableEq (Except ε α) := fun a b =>
  match a, b with
  | .ok x, .ok y => if h : x = y then isTrue (by rw [h]) else isFalse (fun e => h (by cases e; rfl))
  | .error x, .error y =>
    if h : x = y then isTrue (by rw [h]) else isFalse (fun e => h (by cases e; rfl))
  | .ok _, .error _ => isFalse (fun e => by cases e)
  | .error _, .ok _ => isFalse (fun e => by cases e)

/-- The function `regexp.MustCompile`. -/
def mustCompile (pat : Bytes) : Except Failure Regex :=
  match compile pat with
  | .ok re => .ok re
  | .error .bad => .error .panic
  | .error .unmodelled => .error .unmodelled

/-- The pattern of the protector (line 65): the quoted start marker, one or more
characters other than `et[:1]`, the quoted end marker. -/
def spanPattern (st et : Bytes) : Bytes :=
  quoteMeta st ++ str "[^" ++ quoteMeta (et.take 1) ++ str "]+" ++ quoteMeta et

/-- One protection pass (lines 64-72) for the trimmed markers of pair `k`. -/
def protectPair (ns : Bytes) (k : Nat) (st et buf : Bytes) : Except Failure Bytes :=
  match mustCompile (spanPattern st et) with
  | .error e => .error e
  | .ok re => replaceAllFunc re buf (fun s => .ok (encode ns k s))

/-- The loop `process tags` (lines 55-73) from pair `k` on: `tags` is the rest of the
flat tag list, `k` is the loop variable `i` divided by 2. -/
def protectLoop (ns : Bytes) : List Bytes → Nat → Bytes → Except Failure Bytes
  | [], _, buf => .ok buf
  | [_], _, _ => .error .panic
  | t0 :: t1 :: rest, k, buf =>
    let st := trimSpace t0
    let et := trimSpace t1
    if st = [] ∨ et = [] then .error .emptyTag
    else
      match protectPair ns k st et buf with
      | .error e => .error e
      | .ok buf1 => protectLoop ns rest (k + 1) buf1

/-- The pattern of the raw-comment pass (line 98): the prefix is used as it is. -/
def rawPattern (ns : Bytes) (k : Nat) : Bytes :=
  prefixOf ns k ++ str "([^ ]+)" ++ tagSuffix

/-- The pattern of the escaped-comment pass (lines 108-110). -/
def escPattern (ns : Bytes) (k : Nat) : Bytes :=
  quoteMeta (escapeString (prefixOf ns k)) ++ str "([^ ]+)" ++
    quoteMeta (escapeString tagSuffix)

/-- The replacement closures of the restorer (lines 100-105 and 112-117): the matched
text without `lo` leading and `hi` trailing bytes, base64-decoded. -/
def unhide (lo hi : Nat) (s : Bytes) : Except Failure Bytes :=
  match slice s lo (s.length - hi) with
  | none => .error .panic
  | some payload =>
    match b64decode payload with
    | none => .error .decodeError
    | some b => .ok b

/-- The raw-comment pass for pair `k` (lines 97-106). -/
def rawPass (ns : Bytes) (k : Nat) (text : Bytes) : Except Failure Bytes :=
  match mustCompile (rawPattern ns k) with
  | .error e => .error e
  | .ok re => replaceAllFunc re text (unhide (prefixOf ns k).length tagSuffix.length)

/-- The escaped-comment pass for pair `k` (lines 108-118). -/
def escPass (ns : Bytes) (k : Nat) (text : Bytes) : Except Failure Bytes :=
  match mustCompile (escPattern ns k) with
  | .error e => .error e
  | .ok re =>
    replaceAllFunc re text
      (unhide (escapeString (prefixOf ns k)).length (escapeString tagSuffix).length)

/-- The loop `replace tags` (lines 96-119): for the `n` pairs from `k` on, the raw pass
and then the escaped pass. -/
def restoreLoop (ns : Bytes) : Nat → Nat → Bytes → Except Failure Bytes
  | 0, _, text => .ok text
  | n + 1, k, text =>
    match rawPass ns k text with
    | .error e => .error e
    | .ok t1 =>
      match escPass ns k t1 with
      | .error e => .error e
      | .ok t2 => restoreLoop ns n (k + 1) t2

/-- The program from the tag check to the output (lines 47-121): `ns` is the flag `-h`,
`ignoreTags` the flag `-i`, `dom` the document step (goquery: parse, remove the selected
elements, serialize; lines 75-93; `none` when it fails), `buf` the bytes of the file. The
result is what is written to standard output. -/
def run (ns ignoreTags : Bytes) (dom : Bytes → Option Bytes) (buf : Bytes) :
    Except Failure Bytes :=
  let tags := splitComma ignoreTags
  if tags.length % 2 = 1 then .error .oddTags
  else
    match protectLoop ns tags 0 buf with
    | .error e => .error e
    | .ok protectedBuf =>
      match dom protectedBuf with
      | none => .error .dom
      | some htmlstr => restoreLoop ns ((tags.length + 1) / 2) 0 htmlstr

/-- The default of the flag `-i` (line 26). -/
def flagIgnoreTags : Bytes := str "\x7b%,%\x7d"

/-- The part of the library `goquery` (with `net/html` and the selector engine under it)
that the program calls. The library is not part of the repository: it is a parameter of
the document step. -/
structure Goquery where
  /-- The type `*goquery.Document`: a parsed HTML tree. -/
  Doc : Type
  /-- The function `goquery.NewDocumentFromReader` (line 76); `none` stands for its
  error. -/
  newDocument : Bytes → Option Doc
  /-- The call `doc.Find(sel).Each(func(..) { s.Remove() })` (lines 84-86): the document
  after every element that the selector matches has been taken out, with its subtree. -/
  findRemove : Bytes → Doc → Doc
  /-- The method `doc.Html()` (line 90); `none` stands for its error. -/
  html : Doc → Option Bytes
  /-- Whether `doc.Find(sel)` selects at least one element of the document. -/
  selects : Bytes → Doc → Bool

/-- The default of the flag `-s` (line 25). -/
def flagStrip : Bytes := str "script,noscript,link[rel=\x22preload\x22][as=\x22style\x22]"

/-- The selectors of the flag `-s`: `strings.Split(*flagStrip, ",")`, each field trimmed
(lines 83-84). -/
def selectors (strip : Bytes) : List Bytes := (splitComma strip).map trimSpace

/-- The loop `strip elements` (lines 83-87): for each selector in order, every element
it matches is removed from the document. -/
def stripElements (lib : Goquery) (sels : List Bytes) (doc : lib.Doc) : lib.Doc :=
  sels.foldl (fun d s => lib.findRemove s d) doc

/-- The document step of the program (lines 75-93): load the document from the protected
buffer, strip the elements, generate the text; `none` when loading or generating fails
(lines 77 and 91). -/
def documentStep (lib : Goquery) (strip : Bytes) (buf : Bytes) : Option Bytes :=
  match lib.newDocument buf with
  | none => none
  | some doc => lib.html (stripElements lib (selectors strip) doc)

/-- Whether a text, loaded as a document, has an element that the selector matches:
what it is for a text to contain an element matching the selector. -/
def textSelects (lib : Goquery) (sel text : Bytes) : Bool :=
  match lib.newDocument text with
  | none => false
  | some doc => lib.selects sel doc

/-! ## Reference definitions

The definitions that the statements below compare the program with: texts, spans, the
reference replacement and the reference restorer. -/

/-- The characters of a base64 text: the alphabet `A-Za-z0-9+/` and the padding `=`. -/
def isB64Char (c : Byte) : Bool := (b64val c).isSome || c = b64pad

/-- The class `[^c]` of the patterns of the program. -/
def notC (c : Byte) : Regex := .cls true [(c.val, c.val)]

/-- The input from its first byte equal to `c` on. -/
def afterRun (c : Byte) (inp : Bytes) : Bytes := inp.dropWhile (fun b => b ≠ c)

/-- The leading bytes of the input that are different from `c`. -/
def runOf (c : Byte) (inp : Bytes) : Bytes := inp.takeWhile (fun b => b ≠ c)

/-- Reference: the span at the start of the input, if there is one: the start marker,
then one or more bytes none of which equals the first byte of the end marker, then the
end marker. The result is the span and the input after it. -/
def spanAt (st et inp : Bytes) : Option (Bytes × Bytes) :=
  if hasPrefix inp st then
    let body := inp.drop st.length
    let run := body.takeWhile (fun b => some b ≠ et.head?)
    let tail := body.dropWhile (fun b => some b ≠ et.head?)
    if run ≠ [] ∧ hasPrefix tail et then some (st ++ run ++ et, tail.drop et.length) else none
  else none

/-- Reference: the leftmost span of the input, found byte by byte: the bytes before it,
the span and the input after it. -/
def findSpan (st et : Bytes) : Bytes → Option (Bytes × Bytes × Bytes)
  | [] => none
  | b :: rest =>
    match spanAt st et (b :: rest) with
    | some (m, after) => some ([], m, after)
    | none =>
      match findSpan st et rest with
      | some (sk, m, after) => some (b :: sk, m, after)
      | none => none

/-- Reference: the leftmost-first, non-overlapping replacement of every span of the input
by what `repl` makes of it, byte by byte; the first replacement that fails ends it. -/
def replaceSpansM {ε : Type} (st et : Bytes) (repl : Bytes → Except ε Bytes) :
    Nat → Bytes → Except ε Bytes
  | 0, inp => .ok inp
  | _ + 1, [] => .ok []
  | fuel + 1, b :: rest =>
    match spanAt st et (b :: rest) with
    | some (m, after) =>
      match repl m with
      | .error e => .error e
      | .ok o =>
        match replaceSpansM st et repl fuel after with
        | .error e => .error e
        | .ok t => .ok (o ++ t)
    | none =>
      match replaceSpansM st et repl fuel rest with
      | .error e => .error e
      | .ok t => .ok (b :: t)

/-- Whether the bytes are a text, by fuel: every rune decodes and none is U+FFFD (which
is also what an encoding error decodes to). -/
def isTextAux : Nat → Bytes → Bool
  | _, [] => true
  | 0, _ :: _ => false
  | fuel + 1, b :: rest =>
    (decodeRune (b :: rest)).1 ≠ runeError &&
      isTextAux fuel ((b :: rest).drop (runeWidth (b :: rest)))

/-- Whether the bytes are a text: valid UTF-8 in which U+FFFD does not occur. -/
def isText (s : Bytes) : Bool := isTextAux s.length s

/-- The bytes of one rune of a text. -/
def IsRune (r : Bytes) : Prop :=
  ∃ b tl, r = b :: tl ∧ isCont b = false ∧
    (∀ t, decodeRune (r ++ t) = ((decodeRune r).1, r.length)) ∧
    (decodeRune r).1 ≠ runeError ∧
    ((b.val < 128 ∧ tl = []) ∨ ∀ x ∈ r, 128 ≤ x.val)

/-- Literal tokens in front of a lexing result. -/
def consToks (cs : List Bytes) (r : Except CompileError (List Tok)) :
    Except CompileError (List Tok) :=
  cs.foldr (fun c acc => consTok (.lit c) acc) r

/-- One step of the class loop. -/
def lexClassStep (fuel : Nat) (t : Bytes) (acc : List (Nat × Nat)) :
    Except CompileError (List (Nat × Nat) × Bytes) :=
  match t with
  | 91 :: 58 :: _ => .error .unmodelled
  | _ =>
    match classChar t with
    | .error e => .error e
    | .ok (lo, t1) =>
      match t1 with
      | 45 :: c :: t2 =>
        if c = 93 then lexClass fuel false t1 (acc ++ [(lo, lo)])
        else
          match classChar (c :: t2) with
          | .error e => .error e
          | .ok (hi, t3) =>
            if hi < lo then .error .bad else lexClass fuel false t3 (acc ++ [(lo, hi)])
      | _ => lexClass fuel false t1 (acc ++ [(lo, lo)])

/-- Reference: the leftmost-first, non-overlapping replacement of every span of the
input by `f` of the span; every other byte is kept. -/
def replaceSpans (st et : Bytes) (f : Bytes → Bytes) : Nat → Bytes → Bytes
  | 0, inp => inp
  | _ + 1, [] => []
  | fuel + 1, b :: rest =>
    match spanAt st et (b :: rest) with
    | some (m, after) => f m ++ replaceSpans st et f fuel after
    | none => b :: replaceSpans st et f fuel rest

/-- Reference: one protection pass, every span replaced by its token. -/
def protectRef (ns : Bytes) (k : Nat) (st et buf : Bytes) : Bytes :=
  replaceSpans st et (encode ns k) buf.length buf

/-- Whether the bytes start with an ASCII character. -/
def asciiHead : Bytes → Bool
  | [] => false
  | c :: _ => c.val < 128

/-- Whether no byte is a metacharacter of the pattern language. -/
def noMeta (s : Bytes) : Bool := s.all (fun b => !isMeta b)

/-- Reference: the tokens that a pass matches: the leftmost-first, non-overlapping spans
of the text, in order. -/
def spansOf (st et : Bytes) : Nat → Bytes → List Bytes
  | 0, _ => []
  | _ + 1, [] => []
  | fuel + 1, b :: rest =>
    match spanAt st et (b :: rest) with
    | some (m, after) => m :: spansOf st et fuel after
    | none => spansOf st et fuel rest

/-- Reference: where the spans that a pass matches lie: the offset of the first byte and
the offset after the last byte of each leftmost-first, non-overlapping span, for an input
that starts at the offset `off` of the buffer. -/
def spanPositions (st et : Bytes) : Nat → Nat → Bytes → List (Nat × Nat)
  | 0, _, _ => []
  | _ + 1, _, [] => []
  | fuel + 1, off, b :: rest =>
    match spanAt st et (b :: rest) with
    | some (m, after) => (off, off + m.length) :: spanPositions st et fuel (off + m.length) after
    | none => spanPositions st et fuel (off + 1) rest

/-- Reference: the run of a token, between its prefix `A` and its suffix `B`. -/
def runOfToken (A B m : Bytes) : Bytes := (m.take (m.length - B.length)).drop A.length

/-- Reference: one pass of the restorer over the tokens between `A` and `B`: nothing
(the run is aborted) when the run of some token is not valid base64, otherwise the text
with every token replaced by the decoding of its run. -/
def passRef (A B text : Bytes) : Option Bytes :=
  if (spansOf A B text.length text).all (fun m => (b64decode (runOfToken A B m)).isSome) then
    some (replaceSpans A B (fun m => (b64decode (runOfToken A B m)).getD []) text.length text)
  else none

/-- Reference: the restorer for the `n` pairs from `k` on: for each pair the pass over
the raw tokens, then the pass over the HTML-escaped tokens; aborted as soon as a pass
is. -/
def restoreRef (ns : Bytes) : Nat → Nat → Bytes → Option Bytes
  | 0, _, text => some text
  | n + 1, k, text =>
    match passRef (prefixOf ns k) tagSuffix text with
    | none => none
    | some t1 =>
      match passRef (escapeString (prefixOf ns k)) (escapeString tagSuffix) t1 with
      | none => none
      | some t2 => restoreRef ns n (k + 1) t2

/-- Whether `needle` occurs somewhere in the text. -/
def occurs (needle : Bytes) : Bytes → Bool
  | [] => hasPrefix [] needle
  | b :: rest => hasPrefix (b :: rest) needle || occurs needle rest

/-- Whether the text holds no placeholder prefix, raw or HTML-escaped, of the `n` pairs
from `k` on. -/
def noTokens (ns : Bytes) : Nat → Nat → Bytes → Bool
  | 0, _, _ => true
  | n + 1, k, text =>
    !occurs (prefixOf ns k) text && !occurs (escapeString (prefixOf ns k)) text &&
      noTokens ns n (k + 1) text

/-- The trimmed pairs of the flat tag list. -/
def pairsOf : List Bytes → List (Bytes × Bytes)
  | t0 :: t1 :: rest => (trimSpace t0, trimSpace t1) :: pairsOf rest
  | _ => []

/-- Whether a pair of trimmed markers is one for which the pattern of the protector is
built as meant: both markers are texts, the start marker is not empty, the end marker
starts with an ASCII character. -/
def goodPair (p : Bytes × Bytes) : Bool :=
  isText p.1 && !p.1.isEmpty && isText p.2 && asciiHead p.2

/-- Whether some pair of the list has a marker that is empty after trimming. -/
def hasEmptyTag (tags : List Bytes) : Bool :=
  (pairsOf tags).any (fun p => p.1.isEmpty || p.2.isEmpty)

/-- A stand-in for the document step on a body fragment in which no element is selected:
parsing puts the fragment into `html`, `head` and `body`, comments are kept, and
serializing writes it back. -/
def wrapDocument (fragment : Bytes) : Option Bytes :=
  some (str "<html><head></head><body>" ++ fragment ++ str "</body></html>")

/-- Reference: the number that a string of decimal digits denotes. -/
def decimalValue (s : Bytes) : Nat := s.foldl (fun acc b => acc * 10 + (b.val - 48)) 0

/-- The pieces of a small markup language, for a library to run the examples with: the
start tag and the end tag of an element without attributes, a comment, a character of
text. -/
inductive Piece where
  | tagOpen (name : Bytes) : Piece
  | tagClose (name : Bytes) : Piece
  | comment (body : Bytes) : Piece
  | char (b : Byte) : Piece
  deriving DecidableEq, Repr

/-- The text before the first occurrence of `stop` and the text after it. -/
def cutAt (stop : Bytes) : Bytes → Option (Bytes × Bytes)
  | [] => none
  | b :: rest =>
    if hasPrefix (b :: rest) stop then some ([], (b :: rest).drop stop.length)
    else
      match cutAt stop rest with
      | some (x, r) => some (b :: x, r)
      | none => none

/-- The pieces of a text: `<!--` to `-->` is a comment, `</` to `>` an end tag, `<` to
`>` a start tag, any other byte a character. -/
def pieces : Nat → Bytes → List Piece
  | 0, _ => []
  | _ + 1, [] => []
  | fuel + 1, b :: rest =>
    if hasPrefix (b :: rest) (str "<!--") then
      match cutAt (str "-->") ((b :: rest).drop 4) with
      | some (body, r) => .comment body :: pieces fuel r
      | none => .char b :: pieces fuel rest
    else if hasPrefix (b :: rest) (str "</") then
      match cutAt (str ">") ((b :: rest).drop 2) with
      | some (n, r) => .tagClose n :: pieces fuel r
      | none => .char b :: pieces fuel rest
    else if b = 60 then
      match cutAt (str ">") rest with
      | some (n, r) => .tagOpen n :: pieces fuel r
      | none => .char b :: pieces fuel rest
    else .char b :: pieces fuel rest

/-- The text of a piece. -/
def Piece.render : Piece → Bytes
  | .tagOpen n => str "<" ++ n ++ str ">"
  | .tagClose n => str "</" ++ n ++ str ">"
  | .comment c => str "<!--" ++ c ++ str "-->"
  | .char b => [b]

/-- The pieces without the elements named `s`: from each start tag `s` to its end tag,
everything is dropped; `depth` counts the elements named `s` that are open. -/
def dropElements (s : Bytes) : Nat → List Piece → List Piece
  | _, [] => []
  | 0, p :: ps =>
    if p = .tagOpen s then dropElements s 1 ps else p :: dropElements s 0 ps
  | d + 1, p :: ps =>
    if p = .tagOpen s then dropElements s (d + 2) ps
    else if p = .tagClose s then dropElements s d ps
    else dropElements s (d + 1) ps

/-- A small library in the place of `goquery`, to run the examples with: documents are
lists of pieces, a selector is an element name, the text of a document is the text of
its pieces. On the documents of the examples, which are written out in full (`html`,
`head` and `body` present, elements without attributes, all tags closed and nested), it
gives the text that `goquery` gives. -/
def tinyQuery : Goquery where
  Doc := List Piece
  newDocument := fun buf => some (pieces buf.length buf)
  findRemove := fun s d => dropElements s 0 d
  html := fun d => some (d.flatMap Piece.render)
  selects := fun s d => d.any (fun p => p = .tagOpen s)

/-! ## The codec: base64 round trip and the shape of a token -/

theorem b64val_b64char_fin : ∀ n : Fin 64, b64val (b64char n.val) = some n.val := by decide

theorem b64val_b64char (n : Nat) (h : n < 64) : b64val (b64char n) = some n :=
  b64val_b64char_fin ⟨n, h⟩

theorem b64val_pad : b64val b64pad = none := by decide

/-- A full quantum decodes to three bytes, whatever follows. -/
theorem b64decodeQuanta_full (c0 c1 c2 c3 : Byte) (v0 v1 v2 v3 : Nat) (t : Bytes)
    (h0 : b64val c0 = some v0) (h1 : b64val c1 = some v1)
    (h2 : b64val c2 = some v2) (h3 : b64val c3 = some v3) :
    b64decodeQuanta (c0 :: c1 :: c2 :: c3 :: t) =
      (b64decodeQuanta t).map (fun out =>
        Fin.ofNat (v0 * 4 + v1 / 16) :: Fin.ofNat (v1 % 16 * 16 + v2 / 4) ::
          Fin.ofNat (v2 % 4 * 64 + v3) :: out) := by
  cases t with
  | nil => simp [b64decodeQuanta, h0, h1, h2, h3]
  | cons x t =>
    rw [b64decodeQuanta]
    · simp only [h0, h1, h2, h3]
      cases b64decodeQuanta (x :: t) <;> rfl
    · intro h; cases h

theorem byte_ofNat_val (a : Byte) (n : Nat) (h : n = a.val) : (Fin.ofNat n : Byte) = a := by
  subst h
  apply Fin.ext
  simp [Fin.ofNat]

theorem b64decodeQuanta_encode (p : Bytes) : b64decodeQuanta (b64encode p) = some p := by
  induction p using b64encode.induct with
  | case1 => rfl
  | case2 a =>
    have ha := a.isLt
    simp only [b64encode, b64decodeQuanta, b64val_b64char (a.val / 4) (by omega),
      b64val_b64char (a.val % 4 * 16) (by omega), b64val_pad]
    simp
    exact byte_ofNat_val a _ (by omega)
  | case3 a b =>
    have ha := a.isLt
    have hb := b.isLt
    simp only [b64encode, b64decodeQuanta, b64val_b64char (a.val / 4) (by omega),
      b64val_b64char (a.val % 4 * 16 + b.val / 16) (by omega),
      b64val_b64char (b.val % 16 * 4) (by omega), b64val_pad]
    simp
    exact ⟨byte_ofNat_val a _ (by omega), byte_ofNat_val b _ (by omega)⟩
  | case4 a b c rest ih =>
    have ha := a.isLt
    have hb := b.isLt
    have hc := c.isLt
    rw [b64encode, b64decodeQuanta_full _ _ _ _ _ _ _ _ _
      (b64val_b64char (a.val / 4) (by omega))
      (b64val_b64char (a.val % 4 * 16 + b.val / 16) (by omega))
      (b64val_b64char (b.val % 16 * 4 + c.val / 64) (by omega))
      (b64val_b64char (c.val % 64) (by omega)), ih]
    simp
    exact ⟨byte_ofNat_val a _ (by omega), byte_ofNat_val b _ (by omega),
      byte_ofNat_val c _ (by omega)⟩

theorem isB64Char_b64char_fin : ∀ n : Fin 64, isB64Char (b64char n.val) = true := by decide

theorem isB64Char_b64char (n : Nat) (h : n < 64) : isB64Char (b64char n) = true :=
  isB64Char_b64char_fin ⟨n, h⟩

theorem isB64Char_pad : isB64Char b64pad = true := by decide

/-- Every character of an encoding is a base64 character. -/
theorem b64encode_chars (p : Bytes) : ∀ c ∈ b64encode p, isB64Char c = true := by
  induction p using b64encode.induct with
  | case1 => intro c hc; simp [b64encode] at hc
  | case2 a =>
    have ha := a.isLt
    intro c hc
    simp only [b64encode, List.mem_cons, List.mem_singleton, List.not_mem_nil, or_false] at hc
    rcases hc with h | h | h | h <;> subst h
    · exact isB64Char_b64char _ (by omega)
    · exact isB64Char_b64char _ (by omega)
    · exact isB64Char_pad
    · exact isB64Char_pad
  | case3 a b =>
    have ha := a.isLt
    have hb := b.isLt
    intro c hc
    simp only [b64encode, List.mem_cons, List.mem_singleton, List.not_mem_nil, or_false] at hc
    rcases hc with h | h | h | h <;> subst h
    · exact isB64Char_b64char _ (by omega)
    · exact isB64Char_b64char _ (by omega)
    · exact isB64Char_b64char _ (by omega)
    · exact isB64Char_pad
  | case4 a b c rest ih =>
    have ha := a.isLt
    have hb := b.isLt
    have hc := c.isLt
    intro x hx
    simp only [b64encode, List.mem_cons] at hx
    rcases hx with h | h | h | h | h
    · subst h; exact isB64Char_b64char _ (by omega)
    · subst h; exact isB64Char_b64char _ (by omega)
    · subst h; exact isB64Char_b64char _ (by omega)
    · subst h; exact isB64Char_b64char _ (by omega)
    · exact ih x h

set_option maxRecDepth 100000 in
theorem isB64Char_not_newline : ∀ c : Byte, isB64Char c = true → ¬ (c = 10 ∨ c = 13) := by
  decide

set_option maxRecDepth 100000 in
theorem isB64Char_not_space : ∀ c : Byte, isB64Char c = true → c ≠ 32 := by decide

set_option maxRecDepth 100000 in
theorem isB64Char_ascii : ∀ c : Byte, isB64Char c = true → c.val < 128 := by decide

/-- Base64 decoding inverts base64 encoding. -/
theorem b64decode_encode (p : Bytes) : b64decode (b64encode p) = some p := by
  unfold b64decode
  rw [List.filter_eq_self.mpr, b64decodeQuanta_encode]
  intro c hc
  simpa using isB64Char_not_newline c (b64encode_chars p c hc)

theorem tagSuffix_length : tagSuffix.length = 4 := by decide

/-- C4. Decoding the token `encode ns i p` for the same namespace and pair index, by
cutting `len(prefix)` bytes from the front and `len(" -->")` bytes from the back and
base64-decoding the rest, succeeds with exactly the payload `p`. -/
theorem decode_encode (ns : Bytes) (i : Nat) (p : Bytes) :
    decode ns i (encode ns i p) = some p := by
  have hs : slice (encode ns i p) (prefixOf ns i).length
      ((encode ns i p).length - tagSuffix.length) = some (b64encode p) := by
    unfold slice encode
    rw [if_pos (by simp; omega)]
    congr 1
    have h1 : (prefixOf ns i ++ b64encode p ++ tagSuffix).length - tagSuffix.length
        = (prefixOf ns i ++ b64encode p).length := by
      simp only [List.length_append]; omega
    rw [h1, List.take_left, List.drop_left]
  unfold decode
  rw [hs]
  exact b64decode_encode p

/-! ## UTF-8 decoding -/

theorem decodeRune_ascii (b : Byte) (rest : Bytes) (h : b.val < 128) :
    decodeRune (b :: rest) = (b.val, 1) := by
  simp [decodeRune, h]

theorem isCont_ge (b : Byte) (h : isCont b = true) : 128 ≤ b.val := by
  simp [isCont] at h; omega

theorem accept3_ge (b0 b1 : Byte) (h : accept3 b0 b1 = true) :
    128 ≤ b1.val ∧ b1.val ≤ 191 ∧ (b0.val = 224 → 160 ≤ b1.val) := by
  simp only [accept3, Bool.and_eq_true, decide_eq_true_eq] at h
  refine ⟨?_, ?_, ?_⟩
  · have := h.1; split_ifs at this <;> omega
  · have := h.2; split_ifs at this <;> omega
  · intro h0; have := h.1; rw [if_pos h0] at this; exact this

theorem accept4_ge (b0 b1 : Byte) (h : accept4 b0 b1 = true) :
    128 ≤ b1.val ∧ b1.val ≤ 191 ∧ (b0.val = 240 → 144 ≤ b1.val) := by
  simp only [accept4, Bool.and_eq_true, decide_eq_true_eq] at h
  refine ⟨?_, ?_, ?_⟩
  · have := h.1; split_ifs at this <;> omega
  · have := h.2; split_ifs at this <;> omega
  · intro h0; have := h.1; rw [if_pos h0] at this; exact this

/-- What a decoded rune says of the bytes it covers: the width is between 1 and the
length, and a rune that starts with a byte above `0x7F` has a value above `0x7F` and
covers, after its first byte, only bytes above `0x7F`. -/
theorem decodeRune_spec (b : Byte) (rest : Bytes) :
    1 ≤ (decodeRune (b :: rest)).2 ∧ (decodeRune (b :: rest)).2 ≤ (b :: rest).length ∧
    (128 ≤ b.val → 128 ≤ (decodeRune (b :: rest)).1 ∧
      ∀ x ∈ rest.take ((decodeRune (b :: rest)).2 - 1), 128 ≤ x.val) := by
  unfold decodeRune
  simp only [runeError]
  split_ifs with h1 h2 h3 h4 h5
  · simp
  · simp
  · rcases rest with _ | ⟨b1, r1⟩
    · simp
    · simp only
      split_ifs with h6
      · have := isCont_ge b1 h6
        simp
        omega
      · simp
  · rcases rest with _ | ⟨b1, _ | ⟨b2, r2⟩⟩
    · simp
    · simp
    · simp only
      split_ifs with h6
      · have a1 := accept3_ge b b1 h6.1
        have a2 := isCont_ge b2 h6.2
        simp
        omega
      · simp
  · rcases rest with _ | ⟨b1, _ | ⟨b2, _ | ⟨b3, r3⟩⟩⟩
    · simp
    · simp
    · simp
    · simp only
      split_ifs with h6
      · have a1 := accept4_ge b b1 h6.1
        have a2 := isCont_ge b2 h6.2.1
        have a3 := isCont_ge b3 h6.2.2
        simp
        omega
      · simp
  · simp

/-! ## Matching: literals and concatenations -/

theorem hasPrefix_nil (s : Bytes) : hasPrefix s [] = true := by
  cases s <;> rfl

theorem hasPrefix_cons (b c : Byte) (s p : Bytes) :
    hasPrefix (b :: s) (c :: p) = (decide (b = c) && hasPrefix s p) := rfl

theorem hasPrefix_append (s p q : Bytes) :
    hasPrefix s (p ++ q) = (hasPrefix s p && hasPrefix (s.drop p.length) q) := by
  induction p generalizing s with
  | nil => simp [hasPrefix_nil]
  | cons c p ih =>
    cases s with
    | nil => simp [hasPrefix]
    | cons b s => simp [hasPrefix_cons, ih, Bool.and_assoc]

theorem hasPrefix_iff (s p : Bytes) : hasPrefix s p = true ↔ ∃ t, s = p ++ t := by
  induction p generalizing s with
  | nil => simp [hasPrefix_nil]
  | cons c p ih =>
    cases s with
    | nil => simp [hasPrefix]
    | cons b s =>
      simp only [hasPrefix_cons, Bool.and_eq_true, decide_eq_true_eq, ih, List.cons_append,
        List.cons.injEq]
      constructor
      · rintro ⟨rfl, t, rfl⟩; exact ⟨t, rfl, rfl⟩
      · rintro ⟨t, rfl, rfl⟩; exact ⟨rfl, t, rfl⟩

theorem hasPrefix_self_append (p t : Bytes) : hasPrefix (p ++ t) p = true :=
  (hasPrefix_iff _ _).mpr ⟨t, rfl⟩

theorem hasPrefix_head (s p : Bytes) (c : Byte) (h : hasPrefix s (c :: p) = true) :
    s.head? = some c := by
  obtain ⟨t, rfl⟩ := (hasPrefix_iff _ _).mp h
  rfl

/-- The matches of a concatenation: the matches of its first item, each continued by the
matches of the rest. -/
theorem ends_concatOf_cons (a : Regex) (rest : List Regex) (inp : Bytes) :
    (concatOf (a :: rest)).ends inp = (a.ends inp).flatMap (concatOf rest).ends := by
  cases rest with
  | nil =>
    simp only [concatOf]
    have : Regex.empty.ends = fun r => [r] := by funext r; rfl
    rw [this]
    induction a.ends inp with
    | nil => rfl
    | cons x xs ih => simp [List.flatMap_cons]
  | cons b rest => rfl

/-- A run of literals matches exactly where the input starts with their bytes. -/
theorem ends_lits (chunks : List Bytes) (rest : List Regex) (inp : Bytes) :
    (concatOf (chunks.map Regex.lit ++ rest)).ends inp =
      if hasPrefix inp chunks.flatten then (concatOf rest).ends (inp.drop chunks.flatten.length)
      else [] := by
  induction chunks generalizing inp with
  | nil => simp [hasPrefix_nil]
  | cons c cs ih =>
    simp only [List.map_cons, List.cons_append, ends_concatOf_cons, List.flatten_cons,
      hasPrefix_append, List.length_append]
    simp only [Regex.ends]
    by_cases h : hasPrefix inp c = true
    · simp [h, ih, List.drop_drop, Nat.add_comm]
    · simp [h]

/-! ## Matching: a run of characters other than one ASCII character -/

/-- The first rune is the ASCII character `c` exactly when the first byte is. -/
theorem decodeRune_eq_ascii (c b : Byte) (rest : Bytes) (hc : c.val < 128) :
    (decodeRune (b :: rest)).1 = c.val ↔ b = c := by
  by_cases hb : b.val < 128
  · rw [decodeRune_ascii b rest hb]
    simp only
    constructor
    · intro h; exact Fin.ext h
    · intro h; rw [h]
  · have h := (decodeRune_spec b rest).2.2 (by omega)
    constructor
    · intro h1; omega
    · intro h1; rw [h1] at hb; omega

/-- The bytes of the first rune are all different from an ASCII character that is not
the first byte. -/
theorem rune_bytes_ne (c b : Byte) (rest : Bytes) (hc : c.val < 128) (hb : b ≠ c) :
    ∀ x ∈ (b :: rest).take (runeWidth (b :: rest)), x ≠ c := by
  unfold runeWidth
  have hs := decodeRune_spec b rest
  obtain ⟨h1, _, h3⟩ := hs
  obtain ⟨w, hw⟩ : ∃ w, (decodeRune (b :: rest)).2 = w + 1 := ⟨_, (Nat.sub_add_cancel h1).symm⟩
  rw [hw, List.take_succ_cons]
  intro x hx
  rcases List.mem_cons.mp hx with rfl | hx
  · exact hb
  · by_cases hb2 : b.val < 128
    · rw [decodeRune_ascii b rest hb2] at hw
      have hw0 : w = 0 := by simpa using hw.symm
      subst hw0
      simp at hx
    · have := (h3 (by omega)).2 x (by rw [hw]; simpa using hx)
      intro hxc; rw [hxc] at this; omega

theorem notC_ends_nil (c : Byte) : (notC c).ends [] = [] := by
  simp [notC, Regex.ends, decodeRune]

theorem notC_ends_cons (c b : Byte) (rest : Bytes) (hc : c.val < 128) :
    (notC c).ends (b :: rest) =
      if b = c then [] else [(b :: rest).drop (runeWidth (b :: rest))] := by
  have h1 := (decodeRune_spec b rest).1
  have h2 := decodeRune_eq_ascii c b rest hc
  simp only [notC, Regex.ends, runeWidth]
  rw [if_neg (by omega)]
  by_cases hb : b = c
  · subst hb
    have := h2.mpr rfl
    simp [this]
  · have : (decodeRune (b :: rest)).1 ≠ c.val := fun h => hb (h2.mp h)
    have h3 : ¬ (c.val ≤ (decodeRune (b :: rest)).1 ∧ (decodeRune (b :: rest)).1 ≤ c.val) := by
      omega
    simp [hb, h3]
    omega

theorem dropWhile_drop_of_all {α : Type} (p : α → Bool) (l : List α) (n : Nat)
    (h : ∀ x ∈ l.take n, p x = true) : (l.drop n).dropWhile p = l.dropWhile p := by
  induction n generalizing l with
  | zero => rfl
  | succ n ih =>
    cases l with
    | nil => rfl
    | cons a l =>
      have ha : p a = true := h a (by simp)
      rw [List.drop_succ_cons, List.dropWhile_cons, if_pos ha]
      exact ih l (fun x hx => h x (by simp [hx]))

/-- The greedy repetition of `[^c]` prefers the whole run; every other way to stop
leaves an input that starts with a byte of the run. -/
theorem iter_notC (c : Byte) (hc : c.val < 128) (n : Nat) (inp : Bytes)
    (hn : inp.length ≤ n) :
    ∃ L, iter (notC c).ends true n inp = afterRun c inp :: L ∧
      ∀ r ∈ L, ∃ b t, r = b :: t ∧ b ≠ c := by
  induction n generalizing inp with
  | zero =>
    have : inp = [] := List.length_eq_zero.mp (Nat.le_zero.mp hn)
    subst this
    exact ⟨[], rfl, by simp⟩
  | succ n ih =>
    cases inp with
    | nil =>
      refine ⟨[], ?_, by simp⟩
      simp [iter, notC_ends_nil, afterRun]
    | cons b rest =>
      by_cases hb : b = c
      · refine ⟨[], ?_, by simp⟩
        subst hb
        simp [iter, notC_ends_cons b b rest hc, afterRun]
      · have hw := decodeRune_spec b rest
        have hlen : ((b :: rest).drop (runeWidth (b :: rest))).length ≤ n := by
          simp only [runeWidth, List.length_drop, List.length_cons] at hn ⊢
          omega
        obtain ⟨L, hL, hL2⟩ := ih _ hlen
        refine ⟨L ++ [b :: rest], ?_, ?_⟩
        · have hshort : ((b :: rest).drop (runeWidth (b :: rest))).length < (b :: rest).length := by
            simp only [runeWidth, List.length_drop, List.length_cons]
            omega
          simp only [iter, notC_ends_cons c b rest hc, if_neg hb, List.filter_cons,
            decide_eq_true_eq.mpr hshort, List.filter_nil, if_true, List.flatMap_cons,
            List.flatMap_nil, List.append_nil, hL]
          have : afterRun c ((b :: rest).drop (runeWidth (b :: rest))) = afterRun c (b :: rest) := by
            apply dropWhile_drop_of_all
            intro x hx
            simpa using rune_bytes_ne c b rest hc hb x hx
          rw [this]
          rfl
        · intro r hr
          rcases List.mem_append.mp hr with h | h
          · exact hL2 r h
          · simp only [List.mem_singleton] at h
            exact ⟨b, rest, h, hb⟩

theorem plus_ends (a : Regex) (g : Bool) (inp : Bytes) :
    (Regex.plus a g).ends inp = (a.ends inp).flatMap (fun r => iter a.ends g r.length r) := rfl

/-- The repetition `[^c]+`: nothing when the input does not start with a byte of a run,
otherwise the whole run first. -/
theorem plus_notC_ends (c : Byte) (hc : c.val < 128) (inp : Bytes) :
    ∃ L, (Regex.plus (notC c) true).ends inp =
        (if runOf c inp = [] then [] else afterRun c inp :: L) ∧
      ∀ r ∈ L, ∃ b t, r = b :: t ∧ b ≠ c := by
  cases inp with
  | nil =>
    refine ⟨[], ?_, by simp⟩
    rw [plus_ends, notC_ends_nil]
    simp [runOf]
  | cons b rest =>
    by_cases hb : b = c
    · subst hb
      refine ⟨[], ?_, by simp⟩
      rw [plus_ends, notC_ends_cons b b rest hc]
      simp [runOf]
    · have hw := decodeRune_spec b rest
      obtain ⟨L, hL, hL2⟩ := iter_notC c hc ((b :: rest).drop (runeWidth (b :: rest))).length
        ((b :: rest).drop (runeWidth (b :: rest))) (Nat.le_refl _)
      refine ⟨L, ?_, hL2⟩
      have hrun : runOf c (b :: rest) ≠ [] := by simp [runOf, List.takeWhile_cons, hb]
      have : afterRun c ((b :: rest).drop (runeWidth (b :: rest))) = afterRun c (b :: rest) := by
        apply dropWhile_drop_of_all
        intro x hx
        simpa using rune_bytes_ne c b rest hc hb x hx
      rw [if_neg hrun, ← this, ← hL, plus_ends, notC_ends_cons c b rest hc, if_neg hb,
        List.flatMap_cons, List.flatMap_nil, List.append_nil]

theorem spanAt_cons (st s1 inp : Bytes) (c : Byte) :
    spanAt st (c :: s1) inp =
      if hasPrefix inp st ∧ runOf c (inp.drop st.length) ≠ [] ∧
          hasPrefix (afterRun c (inp.drop st.length)) (c :: s1) then
        some (st ++ runOf c (inp.drop st.length) ++ (c :: s1),
          (afterRun c (inp.drop st.length)).drop (c :: s1).length)
      else none := by
  have e : (fun b : Byte => decide (some b ≠ (c :: s1).head?)) = fun b => decide (b ≠ c) := by
    funext b; simp
  unfold spanAt
  simp only [e, runOf, afterRun]
  by_cases h : hasPrefix inp st = true
  · simp [h]
  · simp [h]

/-- A pattern made of literals, `[^c]+` (grouped or not) and literals that start with
`c` matches at the start of the input exactly the reference span. -/
theorem matchAt_span (P S : List Bytes) (st : Bytes) (c : Byte) (s1 : Bytes) (X : Regex)
    (hc : c.val < 128) (hP : P.flatten = st) (hS : S.flatten = c :: s1)
    (hX : X.ends = (Regex.plus (notC c) true).ends) (inp : Bytes) :
    (concatOf (P.map Regex.lit ++ X :: S.map Regex.lit)).matchAt inp =
      spanAt st (c :: s1) inp := by
  rw [spanAt_cons]
  unfold Regex.matchAt
  rw [ends_lits, hP]
  by_cases h1 : hasPrefix inp st = true
  · rw [if_pos h1, ends_concatOf_cons, hX]
    generalize hbody : inp.drop st.length = body
    obtain ⟨L, hL, hL2⟩ := plus_notC_ends c hc body
    rw [hL]
    have hk : (concatOf (S.map Regex.lit)).ends = fun r =>
        if hasPrefix r (c :: s1) then [r.drop (c :: s1).length] else [] := by
      funext r
      have := ends_lits S [] r
      simp only [List.append_nil, hS] at this
      rw [this]; rfl
    rw [hk]
    by_cases h2 : runOf c body = []
    · simp [h1, h2]
    · have hL3 : L.flatMap (fun r => if hasPrefix r (c :: s1) then [r.drop (c :: s1).length]
          else []) = [] := by
        rw [List.flatMap_eq_nil_iff]
        intro r hr
        obtain ⟨b, t, rfl, hb⟩ := hL2 r hr
        simp [hasPrefix_cons, hb]
      rw [if_neg h2, List.flatMap_cons, hL3, List.append_nil]
      by_cases h3 : hasPrefix (afterRun c body) (c :: s1) = true
      · obtain ⟨t1, ht1⟩ := (hasPrefix_iff _ _).mp h1
        obtain ⟨t3, ht3⟩ := (hasPrefix_iff _ _).mp h3
        have hb2 : body = runOf c body ++ afterRun c body :=
          (List.takeWhile_append_dropWhile _ _).symm
        have hinp : inp = (st ++ runOf c body ++ (c :: s1)) ++ t3 := by
          have : t1 = body := by rw [← hbody, ht1]; simp
          rw [ht1, this, List.append_assoc, List.append_assoc]
          congr 1
          conv_lhs => rw [hb2, ht3]
        have hdrop : (afterRun c body).drop (c :: s1).length = t3 := by
          rw [ht3]; simp
        rw [if_pos h3, if_pos ⟨h1, h2, h3⟩, hdrop]
        simp only [Option.some.injEq, Prod.mk.injEq, and_true]
        conv_lhs => rw [hinp]
        rw [List.length_append, Nat.add_sub_cancel, List.take_left]
      · rw [if_neg h3, if_neg (fun h => h3 h.2.2)]
  · simp [h1]

/-! ## Searching: stepping by runes against stepping by bytes -/

/-- The bytes of a rune after its first byte are continuation bytes. -/
theorem decodeRune_tail_cont (b : Byte) (rest : Bytes) :
    ∀ x ∈ rest.take ((decodeRune (b :: rest)).2 - 1), isCont x = true := by
  unfold decodeRune
  simp only [runeError]
  split_ifs with h1 h2 h3 h4 h5
  · simp
  · simp
  · rcases rest with _ | ⟨b1, r1⟩
    · simp
    · simp only
      split_ifs with h6
      · simpa using h6
      · simp
  · rcases rest with _ | ⟨b1, _ | ⟨b2, r2⟩⟩
    · simp
    · simp
    · simp only
      split_ifs with h6
      · have a1 := accept3_ge b b1 h6.1
        have a2 := h6.2
        simp [isCont, a1.1, a1.2.1]
        simpa [isCont] using a2
      · simp
  · rcases rest with _ | ⟨b1, _ | ⟨b2, _ | ⟨b3, r3⟩⟩⟩
    · simp
    · simp
    · simp
    · simp only
      split_ifs with h6
      · have a1 := accept4_ge b b1 h6.1
        have a2 := h6.2.1
        have a3 := h6.2.2
        simp [isCont, a1.1, a1.2.1]
        exact ⟨by simpa [isCont] using a2, by simpa [isCont] using a3⟩
      · simp
  · simp

theorem spanAt_nil (st et : Bytes) : spanAt st et [] = none := by
  unfold spanAt
  split_ifs with h
  · simp
  · rfl

/-- No span starts at a byte that the start marker does not start with. -/
theorem spanAt_head_ne (s0 b : Byte) (st1 et rest : Bytes) (h : b ≠ s0) :
    spanAt (s0 :: st1) et (b :: rest) = none := by
  unfold spanAt
  rw [if_neg]
  simp [hasPrefix_cons, h]

/-- Skipping bytes at which no span starts does not change the leftmost span. -/
theorem findSpan_skip (st et : Bytes) (n : Nat) (inp : Bytes)
    (h : ∀ j, j < n → spanAt st et (inp.drop j) = none) :
    findSpan st et inp =
      match findSpan st et (inp.drop n) with
      | some (sk, m, after) => some (inp.take n ++ sk, m, after)
      | none => none := by
  induction n generalizing inp with
  | zero =>
    simp only [List.drop_zero, List.take_zero, List.nil_append]
    cases findSpan st et inp with
    | none => rfl
    | some x => rfl
  | succ n ih =>
    cases inp with
    | nil => simp [findSpan]
    | cons b rest =>
      have h0 := h 0 (Nat.succ_pos n)
      simp only [List.drop_zero] at h0
      have ih1 := ih rest (fun j hj => by
        have := h (j + 1) (Nat.succ_lt_succ hj)
        simpa using this)
      rw [findSpan, h0, ih1]
      simp only [List.drop_succ_cons, List.take_succ_cons]
      cases findSpan st et (rest.drop n) with
      | none => rfl
      | some x => rfl

/-- The search of the matcher, which steps over the input rune by rune, finds the
leftmost span, when the pattern matches the spans that start with `s0 :: st1` and `s0`
is not a continuation byte. -/
theorem find_eq_findSpan (re : Regex) (s0 : Byte) (st1 et : Bytes)
    (hre : ∀ inp, re.matchAt inp = spanAt (s0 :: st1) et inp) (hs0 : isCont s0 = false)
    (fuel : Nat) (inp : Bytes) (hf : inp.length < fuel) :
    re.find fuel inp = findSpan (s0 :: st1) et inp := by
  induction fuel generalizing inp with
  | zero => omega
  | succ fuel ih =>
    cases inp with
    | nil => simp [Regex.find, hre, spanAt_nil, findSpan]
    | cons b rest =>
      rw [Regex.find, hre]
      cases hsp : spanAt (s0 :: st1) et (b :: rest) with
      | some x =>
        obtain ⟨m, r⟩ := x
        simp [findSpan, hsp]
      | none =>
        have hw := decodeRune_spec b rest
        have hlen : ((b :: rest).drop (runeWidth (b :: rest))).length < fuel := by
          simp only [runeWidth, List.length_drop, List.length_cons] at hf ⊢
          omega
        simp only
        rw [ih _ hlen]
        refine (findSpan_skip (s0 :: st1) et (runeWidth (b :: rest)) (b :: rest) ?_).symm
        intro j hj
        cases j with
        | zero => simpa using hsp
        | succ j =>
          rw [List.drop_succ_cons]
          by_cases hjl : j < rest.length
          · rw [List.drop_eq_getElem_cons hjl]
            apply spanAt_head_ne
            intro hEq
            have hmem : rest[j] ∈ rest.take (runeWidth (b :: rest) - 1) := by
              rw [List.mem_take_iff_getElem]
              exact ⟨j, by omega, rfl⟩
            have := decodeRune_tail_cont b rest _ hmem
            rw [hEq, hs0] at this
            exact Bool.false_ne_true this
          · rw [List.drop_eq_nil_of_le (by omega)]
            exact spanAt_nil _ _

/-! ## Replacing: the loop of `replaceAll` against the reference replacement -/

/-- What a span is: the start marker, a non-empty run of bytes other than the first
byte of the end marker, the end marker; and the input is the span and the rest. -/
theorem spanAt_some (st et inp m after : Bytes) (h : spanAt st et inp = some (m, after)) :
    inp = m ++ after ∧ ∃ run, run ≠ [] ∧ (∀ b ∈ run, some b ≠ et.head?) ∧
      m = st ++ run ++ et := by
  unfold spanAt at h
  by_cases h1 : hasPrefix inp st = true
  swap
  · rw [if_neg h1] at h; cases h
  rw [if_pos h1] at h
  simp only at h
  by_cases h2 : List.takeWhile (fun b => decide (some b ≠ et.head?)) (inp.drop st.length) ≠ [] ∧
      hasPrefix (List.dropWhile (fun b => decide (some b ≠ et.head?)) (inp.drop st.length)) et
        = true
  swap
  · rw [if_neg h2] at h; cases h
  rw [if_pos h2] at h
  simp only [Option.some.injEq, Prod.mk.injEq] at h
  obtain ⟨hm, ha⟩ := h
  obtain ⟨t1, ht1⟩ := (hasPrefix_iff _ _).mp h1
  obtain ⟨t3, ht3⟩ := (hasPrefix_iff _ _).mp h2.2
  have hbody := List.takeWhile_append_dropWhile (fun b => decide (some b ≠ et.head?))
    (inp.drop st.length)
  refine ⟨?_, _, h2.1, ?_, hm.symm⟩
  · rw [← hm, ← ha]
    conv_lhs => rw [← List.take_append_drop st.length inp, ← hbody]
    have : inp.take st.length = st := by rw [ht1]; simp
    rw [this]
    conv_lhs => rw [← List.take_append_drop et.length (List.dropWhile _ _)]
    have : (List.dropWhile (fun b => decide (some b ≠ et.head?)) (inp.drop st.length)).take
        et.length = et := by rw [ht3]; simp
    rw [this]
    simp
  · intro b hb
    have := List.mem_takeWhile_imp hb
    simpa using this

theorem spanAt_length (st et inp m after : Bytes) (h : spanAt st et inp = some (m, after)) :
    inp.length = m.length + after.length ∧ st.length + 1 + et.length ≤ m.length := by
  obtain ⟨h1, run, h2, _, h3⟩ := spanAt_some st et inp m after h
  constructor
  · rw [h1]; simp
  · rw [h3]
    have : 1 ≤ run.length := List.length_pos.mpr h2
    simp only [List.length_append]
    omega

theorem findSpan_some (st et inp sk m after : Bytes)
    (h : findSpan st et inp = some (sk, m, after)) :
    inp = sk ++ m ++ after ∧ spanAt st et (m ++ after) = some (m, after) ∧
      (sk ≠ [] → spanAt st et inp = none) := by
  induction inp generalizing sk with
  | nil => simp [findSpan] at h
  | cons b rest ih =>
    rw [findSpan] at h
    cases hsp : spanAt st et (b :: rest) with
    | some x =>
      obtain ⟨m1, a1⟩ := x
      rw [hsp] at h
      simp only [Option.some.injEq, Prod.mk.injEq] at h
      obtain ⟨rfl, rfl, rfl⟩ := h
      have := (spanAt_some st et _ _ _ hsp).1
      refine ⟨by simpa using this, by rw [← this]; exact hsp, by simp⟩
    | none =>
      rw [hsp] at h
      cases hf : findSpan st et rest with
      | none => rw [hf] at h; simp at h
      | some y =>
        obtain ⟨sk1, m1, a1⟩ := y
        rw [hf] at h
        simp only [Option.some.injEq, Prod.mk.injEq] at h
        obtain ⟨rfl, rfl, rfl⟩ := h
        obtain ⟨h1, h2, _⟩ := ih sk1 hf
        exact ⟨by rw [h1]; simp, h2, fun _ => rfl⟩

/-- Without a span anywhere the reference replacement changes nothing. -/
theorem replaceSpansM_none {ε : Type} (st et : Bytes) (repl : Bytes → Except ε Bytes)
    (inp : Bytes) (h : findSpan st et inp = none) (k : Nat) :
    replaceSpansM st et repl k inp = .ok inp := by
  induction inp generalizing k with
  | nil => cases k <;> rfl
  | cons b rest ih =>
    cases k with
    | zero => rfl
    | succ k =>
      rw [findSpan] at h
      cases hsp : spanAt st et (b :: rest) with
      | some x => rw [hsp] at h; simp at h
      | none =>
        rw [hsp] at h
        cases hf : findSpan st et rest with
        | some y => rw [hf] at h; simp at h
        | none => rw [replaceSpansM, hsp]; simp only; rw [ih hf]

/-- With a leftmost span the reference replacement keeps the bytes before it, replaces
it and goes on after it. -/
theorem replaceSpansM_some {ε : Type} (st et : Bytes) (repl : Bytes → Except ε Bytes)
    (inp sk m after : Bytes) (h : findSpan st et inp = some (sk, m, after)) (k : Nat)
    (hk : sk.length < k) :
    replaceSpansM st et repl k inp =
      match repl m with
      | .error e => .error e
      | .ok o =>
        match replaceSpansM st et repl (k - sk.length - 1) after with
        | .error e => .error e
        | .ok t => .ok (sk ++ o ++ t) := by
  induction inp generalizing sk k with
  | nil => simp [findSpan] at h
  | cons b rest ih =>
    cases k with
    | zero => omega
    | succ k =>
      rw [findSpan] at h
      cases hsp : spanAt st et (b :: rest) with
      | some x =>
        obtain ⟨m1, a1⟩ := x
        rw [hsp] at h
        simp only [Option.some.injEq, Prod.mk.injEq] at h
        obtain ⟨rfl, rfl, rfl⟩ := h
        rw [replaceSpansM, hsp]
        simp
      | none =>
        rw [hsp] at h
        cases hf : findSpan st et rest with
        | none => rw [hf] at h; simp at h
        | some y =>
          obtain ⟨sk1, m1, a1⟩ := y
          rw [hf] at h
          simp only [Option.some.injEq, Prod.mk.injEq] at h
          obtain ⟨rfl, rfl, rfl⟩ := h
          have hk1 : sk1.length < k := by simpa using hk
          rw [replaceSpansM, hsp]
          simp only
          rw [ih sk1 hf k hk1]
          have : k + 1 - (b :: sk1).length - 1 = k - sk1.length - 1 := by
            simp only [List.length_cons]; omega
          rw [this]
          cases repl m1 with
          | error e => rfl
          | ok o =>
            simp only
            cases replaceSpansM st et repl (k - sk1.length - 1) a1 with
            | error e => rfl
            | ok t => rfl

theorem runeWidth_le_four (s : Bytes) : runeWidth s ≤ 4 := by
  unfold runeWidth decodeRune
  cases s with
  | nil => simp
  | cons b rest =>
    simp only
    split_ifs
    · simp
    · simp
    · rcases rest with _ | ⟨b1, r1⟩
      · simp
      · simp only; split_ifs <;> simp
    · rcases rest with _ | ⟨b1, _ | ⟨b2, r2⟩⟩
      · simp
      · simp
      · simp only; split_ifs <;> simp
    · rcases rest with _ | ⟨b1, _ | ⟨b2, _ | ⟨b3, r3⟩⟩⟩
      · simp
      · simp
      · simp
      · simp only; split_ifs <;> simp
    · simp

/-- The loop of `replaceAll`, for a pattern that matches the spans of a pair of markers,
is the reference replacement: every span is replaced, leftmost first, and nothing else
is touched. -/
theorem replaceLoop_eq_replaceSpansM {ε : Type} (re : Regex) (s0 : Byte) (st1 et : Bytes)
    (repl : Bytes → Except ε Bytes)
    (hre : ∀ inp, re.matchAt inp = spanAt (s0 :: st1) et inp) (hs0 : isCont s0 = false)
    (het : et ≠ [])
    (hw : ∀ t, runeWidth ((s0 :: st1) ++ t) ≤ (s0 :: st1).length + 2)
    (fuel : Nat) (atStart : Bool) (inp : Bytes) (k : Nat)
    (hf : inp.length < fuel) (hk : inp.length ≤ k) :
    replaceLoop re repl fuel atStart [] inp = replaceSpansM (s0 :: st1) et repl k inp := by
  induction fuel generalizing atStart inp k with
  | zero => omega
  | succ fuel ih =>
    rw [replaceLoop, find_eq_findSpan re s0 st1 et hre hs0 _ inp (Nat.lt_succ_self _)]
    cases hfs : findSpan (s0 :: st1) et inp with
    | none => simp only; rw [replaceSpansM_none _ _ _ _ hfs]; rfl
    | some x =>
      obtain ⟨sk, m, after⟩ := x
      obtain ⟨h1, h2, h3⟩ := findSpan_some _ _ _ _ _ _ hfs
      obtain ⟨h4, h5⟩ := spanAt_length _ _ _ _ _ h2
      have hetl : 1 ≤ et.length := List.length_pos.mpr het
      have hlen : inp.length = sk.length + m.length + after.length := by
        rw [h1]; simp [Nat.add_assoc]
      have hw4 := runeWidth_le_four inp
      have hwide : ¬ (sk.length + m.length < runeWidth inp) := by
        by_cases hsk : sk = []
        · subst hsk
          obtain ⟨_, run, _, _, hm⟩ := spanAt_some _ _ _ _ _ h2
          have := hw (run ++ et ++ after)
          have e : inp = (s0 :: st1) ++ (run ++ et ++ after) := by
            rw [h1, hm]; simp
          rw [← e] at this
          simp only [List.length_cons, List.length_nil] at h5 this ⊢
          omega
        · have : 1 ≤ sk.length := List.length_pos.mpr hsk
          simp only [List.length_cons] at h5
          omega
      have hone : ¬ (sk.length + m.length < 1) := by
        simp only [List.length_cons] at h5; omega
      have hdo : (decide (0 < ([] : Bytes).length + sk.length + m.length) ||
          (atStart && sk.isEmpty)) = true := by
        have : 0 < ([] : Bytes).length + sk.length + m.length := by
          simp only [List.length_cons, List.length_nil] at h5 ⊢; omega
        rw [decide_eq_true this]; rfl
      rw [replaceSpansM_some _ _ _ _ _ _ _ hfs k (by omega)]
      simp only [hdo, if_true, if_neg hwide, if_neg hone]
      cases repl m with
      | error e => rfl
      | ok o =>
        simp only
        rw [ih false after (k - sk.length - 1) (by omega) (by omega)]
        cases replaceSpansM (s0 :: st1) et repl (k - sk.length - 1) after with
        | error e => rfl
        | ok t => simp

/-! ## Texts: valid UTF-8 without U+FFFD -/

/-- The shapes of a rune that decodes: one ASCII byte, or a lead byte and one, two or
three continuation bytes in the accepted ranges. -/
theorem decodeRune_valid (b : Byte) (rest : Bytes)
    (h : (decodeRune (b :: rest)).1 ≠ runeError) :
    (b.val < 128 ∧ (decodeRune (b :: rest)).2 = 1) ∨
    (∃ b1 r1, rest = b1 :: r1 ∧ 0xC2 ≤ b.val ∧ b.val < 0xE0 ∧ isCont b1 = true ∧
      (decodeRune (b :: rest)).2 = 2) ∨
    (∃ b1 b2 r2, rest = b1 :: b2 :: r2 ∧ 0xE0 ≤ b.val ∧ b.val < 0xF0 ∧
      accept3 b b1 = true ∧ isCont b2 = true ∧ (decodeRune (b :: rest)).2 = 3) ∨
    (∃ b1 b2 b3 r3, rest = b1 :: b2 :: b3 :: r3 ∧ 0xF0 ≤ b.val ∧ b.val < 0xF5 ∧
      accept4 b b1 = true ∧ isCont b2 = true ∧ isCont b3 = true ∧
      (decodeRune (b :: rest)).2 = 4) := by
  unfold decodeRune at h ⊢
  simp only at h ⊢
  split_ifs at h ⊢ with h1 h2 h3 h4 h5
  · left; exact ⟨h1, rfl⟩
  · exact absurd rfl h
  · rcases rest with _ | ⟨b1, r1⟩
    · exact absurd rfl h
    · simp only at h ⊢
      split_ifs at h ⊢ with h6
      · right; left; exact ⟨b1, r1, rfl, by omega, h3, h6, rfl⟩
      · exact absurd rfl h
  · rcases rest with _ | ⟨b1, _ | ⟨b2, r2⟩⟩
    · exact absurd rfl h
    · exact absurd rfl h
    · simp only at h ⊢
      split_ifs at h ⊢ with h6
      · right; right; left
        exact ⟨b1, b2, r2, rfl, by omega, h4, h6.1, h6.2, rfl⟩
      · exact absurd rfl h
  · rcases rest with _ | ⟨b1, _ | ⟨b2, _ | ⟨b3, r3⟩⟩⟩
    · exact absurd rfl h
    · exact absurd rfl h
    · exact absurd rfl h
    · simp only at h ⊢
      split_ifs at h ⊢ with h6
      · right; right; right
        exact ⟨b1, b2, b3, r3, rfl, by omega, h5, h6.1, h6.2.1, h6.2.2, rfl⟩
      · exact absurd rfl h
  · exact absurd rfl h

/-- A rune that decodes is decoded from its own bytes alone: what follows them does not
matter. -/
theorem decodeRune_stable (b : Byte) (rest t : Bytes)
    (h : (decodeRune (b :: rest)).1 ≠ runeError) :
    decodeRune ((b :: rest).take (decodeRune (b :: rest)).2 ++ t) = decodeRune (b :: rest) := by
  rcases decodeRune_valid b rest h with ⟨h1, h2⟩ | ⟨b1, r1, rfl, h1, h2, h3, h4⟩ |
    ⟨b1, b2, r2, rfl, h1, h2, h3, h4, h5⟩ | ⟨b1, b2, b3, r3, rfl, h1, h2, h3, h4, h5, h6⟩
  · rw [h2]
    simp [decodeRune, h1]
  · rw [h4]
    have e1 : ¬ b.val < 128 := by omega
    have e2 : ¬ b.val < 194 := by omega
    simp [decodeRune, e1, e2, h2, h3]
  · rw [h5]
    have e1 : ¬ b.val < 128 := by omega
    have e2 : ¬ b.val < 194 := by omega
    have e3 : ¬ b.val < 224 := by omega
    simp [decodeRune, e1, e2, e3, h2, h3, h4]
  · rw [h6]
    have e1 : ¬ b.val < 128 := by omega
    have e2 : ¬ b.val < 194 := by omega
    have e3 : ¬ b.val < 224 := by omega
    have e4 : ¬ b.val < 240 := by omega
    simp [decodeRune, e1, e2, e3, e4, h2, h3, h4, h5]

/-- The first rune of a text whose first rune decodes. -/
theorem isRune_take (b : Byte) (rest : Bytes) (h : (decodeRune (b :: rest)).1 ≠ runeError) :
    IsRune ((b :: rest).take (runeWidth (b :: rest))) := by
  have hsp := decodeRune_spec b rest
  have hst := decodeRune_stable b rest
  obtain ⟨w, hw⟩ : ∃ w, runeWidth (b :: rest) = w + 1 :=
    ⟨_, (Nat.sub_add_cancel hsp.1).symm⟩
  have hw2 : (decodeRune (b :: rest)).2 = w + 1 := hw
  have hlen : ((b :: rest).take (w + 1)).length = w + 1 := by
    rw [List.length_take]; rw [hw2] at hsp; omega
  have hself : decodeRune ((b :: rest).take (w + 1)) = decodeRune (b :: rest) := by
    have := hst [] h
    rw [hw2, List.append_nil] at this
    exact this
  rw [hw]
  refine ⟨b, rest.take w, by rw [List.take_succ_cons], ?_, ?_, ?_, ?_⟩
  · rcases decodeRune_valid b rest h with ⟨h1, _⟩ | ⟨_, _, _, h1, _, _, _⟩ |
      ⟨_, _, _, _, h1, _, _, _, _⟩ | ⟨_, _, _, _, _, h1, _, _, _, _, _⟩ <;>
    · simp only [isCont, Bool.and_eq_false_iff, decide_eq_false_iff_not]
      omega
  · intro t
    have := hst t h
    rw [hw2] at this
    rw [this, hself, hlen, ← hw2]
  · rw [hself]; exact h
  · by_cases hb : b.val < 128
    · left
      refine ⟨hb, ?_⟩
      have := decodeRune_ascii b rest hb
      rw [this] at hw2
      have : w = 0 := by simpa using hw2.symm
      subst this
      rfl
    · right
      intro x hx
      rw [List.take_succ_cons] at hx
      rcases List.mem_cons.mp hx with rfl | hx
      · omega
      · have := (hsp.2.2 (by omega)).2 x (by rw [hw2]; simpa using hx)
        exact this

/-- Induction over the runes of a text. -/
theorem text_induction (P : Bytes → Prop) (hnil : P [])
    (hstep : ∀ r rest, IsRune r → P rest → P (r ++ rest))
    (fuel : Nat) (s : Bytes) (h : isTextAux fuel s = true) : P s := by
  induction fuel generalizing s with
  | zero =>
    cases s with
    | nil => exact hnil
    | cons b rest => simp [isTextAux] at h
  | succ fuel ih =>
    cases s with
    | nil => exact hnil
    | cons b rest =>
      simp only [isTextAux, Bool.and_eq_true, decide_eq_true_eq] at h
      have := hstep _ _ (isRune_take b rest h.1) (ih _ h.2)
      rwa [List.take_append_drop] at this

/-! ## Compiling: the quoted literals of a pattern -/

set_option maxRecDepth 100000 in
theorem isMeta_not_alnum : ∀ b : Byte, isMeta b = true → b.val < 128 ∧ isAlnum b = false := by
  decide

theorem quoteMeta_append (a b : Bytes) : quoteMeta (a ++ b) = quoteMeta a ++ quoteMeta b := by
  simp [quoteMeta, List.flatMap_append]

theorem quoteMeta_high (r : Bytes) (h : ∀ x ∈ r, 128 ≤ x.val) : quoteMeta r = r := by
  induction r with
  | nil => rfl
  | cons x r ih =>
    have hx : isMeta x = false := by
      cases hm : isMeta x with
      | false => rfl
      | true =>
        have := (isMeta_not_alnum x hm).1
        have := h x (by simp)
        omega
    have := ih (fun y hy => h y (by simp [hy]))
    simp only [quoteMeta, List.flatMap_cons, hx] at this ⊢
    simp [this]

/-- One step of the lexical pass. -/
theorem lex_cons (fuel : Nat) (c : Byte) (rest : Bytes) :
    lex (fuel + 1) (c :: rest) =
      if c = 92 then
        match rest with
        | [] => .error .bad
        | d :: rest1 =>
          if d.val < 0x80 ∧ !isAlnum d then consTok (.lit [d]) (lex fuel rest1)
          else .error .unmodelled
      else if c = 46 then consTok .any (lex fuel rest)
      else if c = 42 then consTok (.star (lazyMark rest).1) (lex fuel (lazyMark rest).2)
      else if c = 43 then consTok (.plus (lazyMark rest).1) (lex fuel (lazyMark rest).2)
      else if c = 63 then consTok (.quest (lazyMark rest).1) (lex fuel (lazyMark rest).2)
      else if c = 124 then consTok .bar (lex fuel rest)
      else if c = 40 then
        match rest with
        | 63 :: _ => .error .unmodelled
        | _ => consTok .lparen (lex fuel rest)
      else if c = 41 then consTok .rparen (lex fuel rest)
      else if c = 91 then
        let neg := rest.head? = some 94
        match lexClass (rest.length + 1) true (if neg then rest.drop 1 else rest) [] with
        | .error e => .error e
        | .ok (rs, rest1) => consTok (.cls neg rs) (lex fuel rest1)
      else if c = 123 ∨ c = 94 ∨ c = 36 then .error .unmodelled
      else if c.val < 0x80 then consTok (.lit [c]) (lex fuel rest)
      else
        let d := decodeRune (c :: rest)
        if d.1 = runeError then .error .unmodelled
        else consTok (.lit ((c :: rest).take d.2)) (lex fuel ((c :: rest).drop d.2)) := by
  rfl

/-- Lexing the quoted form of one rune gives one literal token. -/
theorem lex_quoted_rune (r : Bytes) (hr : IsRune r) (fuel : Nat) (t : Bytes) :
    lex (fuel + 1) (quoteMeta r ++ t) = consTok (.lit r) (lex fuel t) := by
  obtain ⟨b, tl, rfl, hcont, hdec, hne, hk⟩ := hr
  rcases hk with ⟨hb, rfl⟩ | hhigh
  · by_cases hm : isMeta b = true
    · have hq : quoteMeta [b] = [92, b] := by simp [quoteMeta, hm]
      have := isMeta_not_alnum b hm
      rw [hq]
      simp only [List.cons_append, List.nil_append]
      rw [lex_cons]
      simp [this.1, this.2]
    · have hq : quoteMeta [b] = [b] := by simp [quoteMeta, hm]
      rw [hq]
      simp only [List.cons_append, List.nil_append]
      rw [lex_cons]
      simp only [isMeta, Bool.or_eq_true, decide_eq_true_eq, not_or] at hm
      obtain ⟨⟨⟨⟨⟨⟨⟨⟨⟨⟨⟨⟨⟨m1, m2⟩, m3⟩, m4⟩, m5⟩, m6⟩, m7⟩, m8⟩, m9⟩, m10⟩, m11⟩, m12⟩, m13⟩,
        m14⟩ := hm
      simp [m1, m2, m3, m4, m5, m6, m7, m8, m9, m11, m13, m14, hb]
  · have hq : quoteMeta (b :: tl) = b :: tl := quoteMeta_high _ hhigh
    have hb : 128 ≤ b.val := hhigh b (by simp)
    have hd := hdec t
    rw [hq]
    simp only [List.cons_append] at hd ⊢
    rw [lex_cons]
    have n1 : b ≠ 92 := by intro h; rw [h] at hb; revert hb; decide
    have n2 : b ≠ 46 := by intro h; rw [h] at hb; revert hb; decide
    have n3 : b ≠ 42 := by intro h; rw [h] at hb; revert hb; decide
    have n4 : b ≠ 43 := by intro h; rw [h] at hb; revert hb; decide
    have n5 : b ≠ 63 := by intro h; rw [h] at hb; revert hb; decide
    have n6 : b ≠ 124 := by intro h; rw [h] at hb; revert hb; decide
    have n7 : b ≠ 40 := by intro h; rw [h] at hb; revert hb; decide
    have n8 : b ≠ 41 := by intro h; rw [h] at hb; revert hb; decide
    have n9 : b ≠ 91 := by intro h; rw [h] at hb; revert hb; decide
    have n10 : b ≠ 123 := by intro h; rw [h] at hb; revert hb; decide
    have n11 : b ≠ 94 := by intro h; rw [h] at hb; revert hb; decide
    have n12 : b ≠ 36 := by intro h; rw [h] at hb; revert hb; decide
    have n13 : ¬ b.val < 128 := by omega
    simp only [n1, n2, n3, n4, n5, n6, n7, n8, n9, n10, n11, n12, n13, if_false, or_self, hd,
      hne]
    have e1 : (b :: (tl ++ t)).take (b :: tl).length = b :: tl := by
      rw [← List.cons_append, List.take_left]
    have e2 : (b :: (tl ++ t)).drop (b :: tl).length = t := by
      rw [← List.cons_append, List.drop_left]
    rw [e1, e2]

theorem quoteMeta_length_pos (b : Byte) (tl : Bytes) : 1 ≤ (quoteMeta (b :: tl)).length := by
  simp only [quoteMeta, List.flatMap_cons, List.length_append]
  split_ifs <;> simp only [List.length_cons, List.length_nil] <;> omega

/-- Lexing the quoted form of a text gives its runes as literal tokens: there are
chunks that make up the text such that, whatever follows, the tokens of the quoted
text are the chunks. -/
theorem lex_quoted (fuel : Nat) (s : Bytes) (h : isTextAux fuel s = true) :
    ∃ chunks : List Bytes, chunks.flatten = s ∧ chunks.length ≤ (quoteMeta s).length ∧
      ∀ k t, lex (chunks.length + k) (quoteMeta s ++ t) = consToks chunks (lex k t) := by
  refine text_induction
    (fun s => ∃ chunks : List Bytes, chunks.flatten = s ∧
      chunks.length ≤ (quoteMeta s).length ∧
      ∀ k t, lex (chunks.length + k) (quoteMeta s ++ t) = consToks chunks (lex k t))
    ⟨[], rfl, Nat.zero_le _, ?_⟩ ?_ fuel s h
  · intro k t
    simp [quoteMeta, consToks]
  · rintro r rest hr ⟨cs, hcs, hlen, hlex⟩
    refine ⟨r :: cs, by simp [hcs], ?_, ?_⟩
    · obtain ⟨b, tl, rfl, _⟩ := hr
      have := quoteMeta_length_pos b tl
      rw [quoteMeta_append, List.length_append, List.length_cons]
      omega
    · intro k t
      have e : (r :: cs).length + k = (cs.length + k) + 1 := by
        simp only [List.length_cons]; omega
      rw [e, quoteMeta_append, List.append_assoc, lex_quoted_rune r hr, hlex]
      rfl

theorem classChar_plain (c : Byte) (t : Bytes) (hc : c.val < 128) (h92 : c ≠ 92) :
    classChar (c :: t) = .ok (c.val, t) := by
  unfold classChar
  split
  · rename_i h; cases h
  · rename_i h; simp only [List.cons.injEq] at h; exact absurd h.1 h92
  · rename_i h; simp only [List.cons.injEq] at h; exact absurd h.1 h92
  · rename_i c1 r1 _ _ h
    simp only [List.cons.injEq] at h
    obtain ⟨rfl, rfl⟩ := h
    simp [hc]

theorem classChar_quoted (c : Byte) (t : Bytes) (hc : c.val < 128) (ha : isAlnum c = false) :
    classChar (92 :: c :: t) = .ok (c.val, t) := by
  simp [classChar, hc, ha]

/-- The class member that `regexp.QuoteMeta` makes of one ASCII character is read back
as that character. -/
theorem classChar_quoteMeta (c : Byte) (t : Bytes) (hc : c.val < 128) :
    classChar (quoteMeta [c] ++ t) = .ok (c.val, t) := by
  by_cases hm : isMeta c = true
  · have := isMeta_not_alnum c hm
    have hq : quoteMeta [c] = [92, c] := by simp [quoteMeta, hm]
    rw [hq]
    exact classChar_quoted c t hc this.2
  · have hq : quoteMeta [c] = [c] := by simp [quoteMeta, hm]
    rw [hq]
    apply classChar_plain c t hc
    intro h; subst h; exact hm (by decide)

theorem lexClass_true (fuel : Nat) (t : Bytes) (acc : List (Nat × Nat)) :
    lexClass (fuel + 1) true t acc = lexClassStep fuel t acc := by
  rfl

theorem lexClass_close (fuel : Nat) (t : Bytes) (acc : List (Nat × Nat)) :
    lexClass (fuel + 1) false (93 :: t) acc = .ok (acc, t) := by
  rfl

theorem lexClass_first (fuel : Nat) (t : Bytes) (acc : List (Nat × Nat)) (c : Byte)
    (hc : c.val < 128) (t1 : Bytes) (ht : t = quoteMeta [c] ++ 93 :: t1) :
    lexClass (fuel + 2) true t acc = .ok (acc ++ [(c.val, c.val)], t1) := by
  have hcc := classChar_quoteMeta c (93 :: t1) hc
  rw [← ht] at hcc
  have hne : ∀ r, t ≠ 91 :: 58 :: r := by
    intro r hr
    rw [hr] at ht
    by_cases hm : isMeta c = true
    · have hq : quoteMeta [c] = [92, c] := by simp [quoteMeta, hm]
      rw [hq] at ht; simp at ht
    · have hq : quoteMeta [c] = [c] := by simp [quoteMeta, hm]
      rw [hq] at ht
      simp only [List.cons_append, List.nil_append, List.cons.injEq] at ht
      exact absurd ht.2.1 (by decide)
  rw [lexClass_true]
  unfold lexClassStep
  split
  · exact absurd rfl (hne _)
  · rw [hcc]
    simp only
    exact lexClass_close fuel t1 _

/-! ## Compiling: validity of the pattern -/

theorem validUTF8Aux_fuel2 (f1 f2 : Nat) (s : Bytes) (h1 : s.length ≤ f1)
    (h2 : s.length ≤ f2) : validUTF8Aux f1 s = validUTF8Aux f2 s := by
  induction f1 generalizing f2 s with
  | zero =>
    have : s = [] := List.length_eq_zero.mp (Nat.le_zero.mp h1)
    subst this
    cases f2 <;> rfl
  | succ f1 ih =>
    cases s with
    | nil => cases f2 <;> rfl
    | cons b rest =>
      cases f2 with
      | zero => simp at h2
      | succ f2 =>
        have hsp := decodeRune_spec b rest
        have hl : ((b :: rest).drop (decodeRune (b :: rest)).2).length ≤ rest.length := by
          simp only [List.length_drop, List.length_cons]; omega
        simp only [List.length_cons] at h1 h2
        simp only [validUTF8Aux]
        rw [ih f2 _ (by omega) (by omega)]

theorem validUTF8Aux_fuel (f : Nat) (s : Bytes) (h : s.length ≤ f) :
    validUTF8Aux f s = validUTF8 s :=
  validUTF8Aux_fuel2 f s.length s h (Nat.le_refl _)

/-- A rune in front of a text does not change whether the text is valid. -/
theorem validUTF8_rune_append (r t : Bytes) (hr : IsRune r) :
    validUTF8 (r ++ t) = validUTF8 t := by
  obtain ⟨b, tl, rfl, _, hdec, hne, _⟩ := hr
  have hd := hdec t
  simp only [List.cons_append] at hd
  have hnot : ¬ ((decodeRune (b :: (tl ++ t))).1 = runeError ∧
      (decodeRune (b :: (tl ++ t))).2 = 1) := by
    rw [hd]; exact fun h => hne h.1
  have hdrop : (b :: (tl ++ t)).drop (decodeRune (b :: (tl ++ t))).2 = t := by
    rw [hd]
    simp only
    rw [← List.cons_append, List.drop_left]
  have hstep : validUTF8 (b :: (tl ++ t)) =
      if (decodeRune (b :: (tl ++ t))).1 = runeError ∧ (decodeRune (b :: (tl ++ t))).2 = 1
      then false
      else validUTF8Aux (tl ++ t).length
        ((b :: (tl ++ t)).drop (decodeRune (b :: (tl ++ t))).2) := rfl
  rw [List.cons_append, hstep, if_neg hnot, hdrop]
  exact validUTF8Aux_fuel _ _ (by rw [List.length_append]; exact Nat.le_add_left _ _)

theorem isRune_ascii (b : Byte) (hb : b.val < 128) : IsRune [b] := by
  refine ⟨b, [], rfl, ?_, ?_, ?_, Or.inl ⟨hb, rfl⟩⟩
  · simp only [isCont, Bool.and_eq_false_iff, decide_eq_false_iff_not]; omega
  · intro t
    simp only [List.cons_append, List.nil_append, decodeRune_ascii b _ hb]
    rfl
  · rw [decodeRune_ascii b _ hb]
    simp only [runeError]; omega

theorem validUTF8_ascii_append (m t : Bytes) (hm : ∀ b ∈ m, b.val < 128) :
    validUTF8 (m ++ t) = validUTF8 t := by
  induction m with
  | nil => rfl
  | cons b m ih =>
    have := validUTF8_rune_append [b] (m ++ t) (isRune_ascii b (hm b (by simp)))
    simp only [List.cons_append, List.nil_append] at this ⊢
    rw [this, ih (fun x hx => hm x (by simp [hx]))]

theorem quoteMeta_one_ascii (c : Byte) (hc : c.val < 128) :
    ∀ b ∈ quoteMeta [c], b.val < 128 := by
  intro b hb
  by_cases hm : isMeta c = true
  · have hq : quoteMeta [c] = [92, c] := by simp [quoteMeta, hm]
    rw [hq] at hb
    simp only [List.mem_cons, List.mem_singleton, List.not_mem_nil, or_false] at hb
    rcases hb with rfl | rfl
    · decide
    · exact hc
  · have hq : quoteMeta [c] = [c] := by simp [quoteMeta, hm]
    rw [hq] at hb
    simp only [List.mem_singleton] at hb
    rw [hb]; exact hc

/-- The quoted form of a text in front of bytes does not change whether they are valid. -/
theorem validUTF8_quoted_append (fuel : Nat) (s : Bytes) (h : isTextAux fuel s = true) :
    ∀ t, validUTF8 (quoteMeta s ++ t) = validUTF8 t := by
  refine text_induction (fun s => ∀ t, validUTF8 (quoteMeta s ++ t) = validUTF8 t)
    (fun t => rfl) ?_ fuel s h
  intro r rest hr ih t
  rw [quoteMeta_append, List.append_assoc]
  obtain ⟨b, tl, rfl, h1, h2, h3, hk⟩ := hr
  rcases hk with ⟨hb, rfl⟩ | hhigh
  · rw [validUTF8_ascii_append _ _ (quoteMeta_one_ascii b hb), ih]
  · rw [quoteMeta_high _ hhigh,
      validUTF8_rune_append _ _ ⟨b, tl, rfl, h1, h2, h3, Or.inr hhigh⟩, ih]

/-! ## Compiling: the parser on the tokens of the program's patterns -/

theorem consToks_ok (cs : List Bytes) (ts : List Tok) :
    consToks cs (.ok ts) = .ok (cs.map Tok.lit ++ ts) := by
  induction cs with
  | nil => rfl
  | cons c cs ih => simp only [consToks, List.foldr_cons] at ih ⊢; rw [ih]; rfl

theorem parseToks_lit (bs : Bytes) (ts : List Tok) (f : Frame) (st : List Frame) (rep : Bool) :
    parseToks (.lit bs :: ts) f st rep =
      parseToks ts { alts := f.alts, cur := f.cur ++ [.lit bs] } st false := by
  rw [parseToks]

theorem parseToks_lits (cs : List Bytes) (ts : List Tok) (f : Frame) (st : List Frame)
    (rep : Bool) :
    ∃ rep1, parseToks (cs.map Tok.lit ++ ts) f st rep =
      parseToks ts { alts := f.alts, cur := f.cur ++ cs.map Regex.lit } st rep1 := by
  induction cs generalizing f rep with
  | nil => exact ⟨rep, by simp⟩
  | cons c cs ih =>
    obtain ⟨rep1, h⟩ := ih { alts := f.alts, cur := f.cur ++ [.lit c] } false
    refine ⟨rep1, ?_⟩
    simp only [List.map_cons, List.cons_append, parseToks_lit, h, List.append_assoc,
      List.singleton_append, List.nil_append]

/-! ## Compiling: the patterns of the program -/

theorem lazyMark_ne (t : Bytes) (h : t.head? ≠ some 63) : lazyMark t = (true, t) := by
  unfold lazyMark
  split
  · simp at h
  · rfl

/-- The tokens of `[^c]+` for an ASCII character `c` as `regexp.QuoteMeta` writes it. -/
theorem lex_class_plus (c : Byte) (hc : c.val < 128) (k : Nat) (tail : Bytes)
    (h63 : tail.head? ≠ some 63) :
    lex (k + 2) (91 :: 94 :: (quoteMeta [c] ++ 93 :: 43 :: tail)) =
      consTok (.cls true [(c.val, c.val)]) (consTok (.plus true) (lex k tail)) := by
  have hcl : lexClass ((94 :: (quoteMeta [c] ++ 93 :: 43 :: tail)).length + 1) true
      (quoteMeta [c] ++ 93 :: 43 :: tail) [] = .ok ([(c.val, c.val)], 43 :: tail) := by
    have : (94 :: (quoteMeta [c] ++ 93 :: 43 :: tail)).length + 1 =
        (quoteMeta [c] ++ 93 :: 43 :: tail).length + 2 := by simp
    rw [this]
    exact lexClass_first _ _ [] c hc (43 :: tail) rfl
  rw [lex_cons]
  simp only [show ¬ ((91 : Byte) = 92) by decide, show ¬ ((91 : Byte) = 46) by decide,
    show ¬ ((91 : Byte) = 42) by decide, show ¬ ((91 : Byte) = 43) by decide,
    show ¬ ((91 : Byte) = 63) by decide, show ¬ ((91 : Byte) = 124) by decide,
    show ¬ ((91 : Byte) = 40) by decide, show ¬ ((91 : Byte) = 41) by decide, if_false, if_true,
    List.head?_cons, List.drop_succ_cons, List.drop_zero, hcl]
  rw [lex_cons]
  simp only [show ¬ ((43 : Byte) = 92) by decide, show ¬ ((43 : Byte) = 46) by decide,
    show ¬ ((43 : Byte) = 42) by decide, if_false, if_true, lazyMark_ne tail h63]
  rfl

/-- The tokens of `([^ ]+)`. -/
theorem lex_group_class_plus (k : Nat) (tail : Bytes) :
    lex (k + 4) (40 :: 91 :: 94 :: 32 :: 93 :: 43 :: 41 :: tail) =
      consTok .lparen (consTok (.cls true [(32, 32)]) (consTok (.plus true)
        (consTok .rparen (lex k tail)))) := by
  have h := lex_class_plus 32 (by decide) (k + 1) (41 :: tail) (by simp)
  have hq : quoteMeta [32] = [32] := by decide
  rw [hq] at h
  simp only [List.cons_append, List.nil_append] at h
  rw [lex_cons]
  simp only [show ¬ ((40 : Byte) = 92) by decide, show ¬ ((40 : Byte) = 46) by decide,
    show ¬ ((40 : Byte) = 42) by decide, show ¬ ((40 : Byte) = 43) by decide,
    show ¬ ((40 : Byte) = 63) by decide, show ¬ ((40 : Byte) = 124) by decide, if_false, if_true]
  rw [h, lex_cons]
  simp only [show ¬ ((41 : Byte) = 92) by decide, show ¬ ((41 : Byte) = 46) by decide,
    show ¬ ((41 : Byte) = 42) by decide, show ¬ ((41 : Byte) = 43) by decide,
    show ¬ ((41 : Byte) = 63) by decide, show ¬ ((41 : Byte) = 124) by decide,
    show ¬ ((41 : Byte) = 40) by decide, if_false, if_true]
  rfl

theorem quoteMeta_head_ne (s t : Bytes) (ht : t.head? ≠ some 63) :
    (quoteMeta s ++ t).head? ≠ some 63 := by
  cases s with
  | nil => simpa [quoteMeta] using ht
  | cons b s =>
    by_cases hm : isMeta b = true
    · simp [quoteMeta, hm]
    · simp only [quoteMeta, List.flatMap_cons, hm]
      simp only [Bool.false_eq_true, if_false, List.cons_append, List.nil_append,
        List.head?_cons, ne_eq, Option.some.injEq]
      intro h; subst h; exact hm (by decide)

theorem consTok_ok (t : Tok) (ts : List Tok) : consTok t (.ok ts) = .ok (t :: ts) := rfl

theorem parseToks_cls (n : Bool) (rs : List (Nat × Nat)) (ts : List Tok) (f : Frame)
    (st : List Frame) (rep : Bool) :
    parseToks (.cls n rs :: ts) f st rep =
      parseToks ts { alts := f.alts, cur := f.cur ++ [.cls n rs] } st false := by
  rw [parseToks]

theorem parseToks_plus (g : Bool) (ts : List Tok) (alts cur : List Regex) (a : Regex)
    (st : List Frame) :
    parseToks (.plus g :: ts) { alts := alts, cur := cur ++ [a] } st false =
      parseToks ts { alts := alts, cur := cur ++ [.plus a g] } st true := by
  have h : (cur ++ [a]).getLast? = some a := by simp
  simp only [parseToks, h, List.dropLast_concat]

theorem parseToks_lparen (ts : List Tok) (f : Frame) (st : List Frame) (rep : Bool) :
    parseToks (.lparen :: ts) f st rep = parseToks ts { alts := [], cur := [] } (f :: st) false := by
  rw [parseToks]

theorem parseToks_rparen (ts : List Tok) (f g : Frame) (st : List Frame) (rep : Bool) :
    parseToks (.rparen :: ts) f (g :: st) rep =
      parseToks ts { alts := g.alts, cur := g.cur ++ [.group f.close] } st false := by
  rw [parseToks]

theorem parseToks_end (f : Frame) (rep : Bool) : parseToks [] f [] rep = .ok f.close := by
  rw [parseToks]

theorem close_single (cur : List Regex) :
    Frame.close { alts := [], cur := cur } = concatOf cur := rfl

/-- The pattern of the protector compiles, for markers that are texts and an end marker
that starts with an ASCII character, to the literals of the start marker, `[^c]+` and
the literals of the end marker. -/
theorem compile_plain (A B : Bytes) (c : Byte) (hA : isText A = true) (hB : isText B = true)
    (hc : c.val < 128) :
    ∃ P S : List Bytes, P.flatten = A ∧ S.flatten = B ∧
      compile (quoteMeta A ++ (91 :: 94 :: (quoteMeta [c] ++ 93 :: 43 :: (quoteMeta B ++ [])))) =
        .ok (concatOf (P.map Regex.lit ++ Regex.plus (notC c) true :: S.map Regex.lit)) := by
  obtain ⟨P, hP, hPl, hPlex⟩ := lex_quoted _ A hA
  obtain ⟨S, hS, hSl, hSlex⟩ := lex_quoted _ B hB
  refine ⟨P, S, hP, hS, ?_⟩
  have hvalid : validUTF8
      (quoteMeta A ++ (91 :: 94 :: (quoteMeta [c] ++ 93 :: 43 :: (quoteMeta B ++ [])))) = true := by
    rw [validUTF8_quoted_append _ A hA]
    have e : (91 :: 94 :: (quoteMeta [c] ++ 93 :: 43 :: (quoteMeta B ++ []))) =
        (91 :: 94 :: (quoteMeta [c] ++ [93, 43])) ++ (quoteMeta B ++ []) := by simp
    rw [e, validUTF8_ascii_append, validUTF8_quoted_append _ B hB]
    · rfl
    · intro b hb
      simp only [List.mem_cons, List.mem_append, List.mem_singleton, List.not_mem_nil,
        or_false] at hb
      rcases hb with rfl | rfl | h | rfl | rfl
      · decide
      · decide
      · exact quoteMeta_one_ascii c hc b h
      · decide
      · decide
  have hfuel : ∃ k, (quoteMeta A ++ (91 :: 94 :: (quoteMeta [c] ++ 93 :: 43 ::
      (quoteMeta B ++ [])))).length = P.length + ((S.length + k) + 2) := by
    refine ⟨(quoteMeta A).length - P.length + ((quoteMeta B).length - S.length) +
      (quoteMeta [c]).length + 2, ?_⟩
    simp only [List.length_append, List.length_cons, List.length_nil]
    omega
  obtain ⟨k, hk⟩ := hfuel
  have hlex : lex (P.length + ((S.length + k) + 2))
      (quoteMeta A ++ (91 :: 94 :: (quoteMeta [c] ++ 93 :: 43 :: (quoteMeta B ++ [])))) =
      .ok (P.map Tok.lit ++ (.cls true [(c.val, c.val)] :: .plus true ::
        (S.map Tok.lit ++ []))) := by
    rw [hPlex, lex_class_plus c hc _ _ (quoteMeta_head_ne B [] (by simp)), hSlex]
    have : lex k [] = .ok [] := by cases k <;> rfl
    rw [this, consToks_ok, consTok_ok, consTok_ok, consToks_ok]
  unfold compile
  rw [if_pos hvalid, hk, hlex]
  simp only
  obtain ⟨r1, h1⟩ := parseToks_lits P (.cls true [(c.val, c.val)] :: .plus true ::
    (S.map Tok.lit ++ [])) { alts := [], cur := [] } [] false
  rw [h1, parseToks_cls, parseToks_plus]
  obtain ⟨r2, h2⟩ := parseToks_lits S [] { alts := [], cur := [] ++ P.map Regex.lit ++
    [Regex.plus (.cls true [(c.val, c.val)]) true] } [] true
  rw [h2, parseToks_end, close_single]
  simp [notC]

/-- The patterns of the restorer compile, for a prefix and a suffix that are texts, to
the literals of the prefix, the group `([^ ]+)` and the literals of the suffix. -/
theorem compile_group (A B : Bytes) (hA : isText A = true) (hB : isText B = true) :
    ∃ P S : List Bytes, P.flatten = A ∧ S.flatten = B ∧
      compile (quoteMeta A ++ (40 :: 91 :: 94 :: 32 :: 93 :: 43 :: 41 :: (quoteMeta B ++ []))) =
        .ok (concatOf (P.map Regex.lit ++ Regex.group (Regex.plus (notC 32) true) ::
          S.map Regex.lit)) := by
  obtain ⟨P, hP, hPl, hPlex⟩ := lex_quoted _ A hA
  obtain ⟨S, hS, hSl, hSlex⟩ := lex_quoted _ B hB
  refine ⟨P, S, hP, hS, ?_⟩
  have hvalid : validUTF8
      (quoteMeta A ++ (40 :: 91 :: 94 :: 32 :: 93 :: 43 :: 41 :: (quoteMeta B ++ []))) = true := by
    rw [validUTF8_quoted_append _ A hA]
    have e : (40 :: 91 :: 94 :: 32 :: 93 :: 43 :: 41 :: (quoteMeta B ++ [])) =
        [40, 91, 94, 32, 93, 43, 41] ++ (quoteMeta B ++ []) := by simp
    rw [e, validUTF8_ascii_append, validUTF8_quoted_append _ B hB]
    · rfl
    · intro b hb
      simp only [List.mem_cons, List.mem_singleton, List.not_mem_nil, or_false] at hb
      rcases hb with rfl | rfl | rfl | rfl | rfl | rfl | rfl <;> decide
  have hfuel : ∃ k, (quoteMeta A ++ (40 :: 91 :: 94 :: 32 :: 93 :: 43 :: 41 ::
      (quoteMeta B ++ []))).length = P.length + ((S.length + k) + 4) := by
    refine ⟨(quoteMeta A).length - P.length + ((quoteMeta B).length - S.length) + 3, ?_⟩
    simp only [List.length_append, List.length_cons, List.length_nil]
    omega
  obtain ⟨k, hk⟩ := hfuel
  have hlex : lex (P.length + ((S.length + k) + 4))
      (quoteMeta A ++ (40 :: 91 :: 94 :: 32 :: 93 :: 43 :: 41 :: (quoteMeta B ++ []))) =
      .ok (P.map Tok.lit ++ (.lparen :: .cls true [(32, 32)] :: .plus true :: .rparen ::
        (S.map Tok.lit ++ []))) := by
    rw [hPlex, lex_group_class_plus, hSlex]
    have : lex k [] = .ok [] := by cases k <;> rfl
    rw [this, consToks_ok, consTok_ok, consTok_ok, consTok_ok, consTok_ok, consToks_ok]
  unfold compile
  rw [if_pos hvalid, hk, hlex]
  simp only
  obtain ⟨r1, h1⟩ := parseToks_lits P (.lparen :: .cls true [(32, 32)] :: .plus true ::
    .rparen :: (S.map Tok.lit ++ [])) { alts := [], cur := [] } [] false
  rw [h1, parseToks_lparen, parseToks_cls]
  have := parseToks_plus true (.rparen :: (S.map Tok.lit ++ [])) [] []
    (.cls true [(32, 32)]) [{ alts := [], cur := [] ++ P.map Regex.lit }]
  simp only [List.nil_append] at this ⊢
  rw [this, parseToks_rparen]
  obtain ⟨r2, h2⟩ := parseToks_lits S [] { alts := [], cur := P.map Regex.lit ++
    [Regex.group (Frame.close { alts := [], cur := [Regex.plus (.cls true [(32, 32)]) true] })] }
    [] false
  rw [h2, parseToks_end, close_single]
  simp only [notC, Frame.close, altOf, concatOf, List.nil_append, List.append_assoc,
    List.singleton_append]
  rfl

/-! ## The span protector against its reference -/

theorem replaceSpansM_pure {ε : Type} (st et : Bytes) (f : Bytes → Bytes) (k : Nat)
    (inp : Bytes) :
    replaceSpansM st et (fun s => (.ok (f s) : Except ε Bytes)) k inp =
      .ok (replaceSpans st et f k inp) := by
  induction k generalizing inp with
  | zero => rfl
  | succ k ih =>
    cases inp with
    | nil => rfl
    | cons b rest =>
      rw [replaceSpansM, replaceSpans]
      cases spanAt st et (b :: rest) with
      | none => simp only; rw [ih]
      | some x =>
        obtain ⟨m, after⟩ := x
        simp only
        rw [ih]

/-- The first byte of a text is not a continuation byte, and its first rune lies within
the text. -/
theorem text_head (s0 : Byte) (st1 : Bytes) (h : isText (s0 :: st1) = true) :
    isCont s0 = false ∧ ∀ t, runeWidth ((s0 :: st1) ++ t) ≤ (s0 :: st1).length := by
  simp only [isText, List.length_cons, isTextAux, Bool.and_eq_true, decide_eq_true_eq] at h
  have hr := isRune_take s0 st1 h.1
  obtain ⟨b, tl, hbt, hcont, hdec, _, _⟩ := hr
  have hsp := decodeRune_spec s0 st1
  obtain ⟨w, hw⟩ : ∃ w, runeWidth (s0 :: st1) = w + 1 :=
    ⟨_, (Nat.sub_add_cancel hsp.1).symm⟩
  rw [hw, List.take_succ_cons] at hbt hdec
  simp only [List.cons.injEq] at hbt
  obtain ⟨rfl, rfl⟩ := hbt
  refine ⟨hcont, ?_⟩
  intro t
  have hsplit : (s0 :: st1) ++ t = (s0 :: st1.take w) ++ (st1.drop w ++ t) := by
    simp only [List.cons_append, List.cons.injEq, true_and]
    rw [← List.append_assoc, List.take_append_drop]
  have hlen : (s0 :: st1.take w).length ≤ (s0 :: st1).length := by
    simp only [List.length_cons, List.length_take]; omega
  unfold runeWidth
  rw [hsplit, hdec]
  exact hlen

/-- The span pattern, with its pieces in order. -/
theorem spanPattern_eq (st e1 : Bytes) (c : Byte) :
    spanPattern st (c :: e1) =
      quoteMeta st ++ (91 :: 94 :: (quoteMeta [c] ++ 93 :: 43 :: (quoteMeta (c :: e1) ++ []))) := by
  have h1 : str "[^" = [91, 94] := by decide
  have h2 : str "]+" = [93, 43] := by decide
  simp [spanPattern, h1, h2]

/-- One protection pass is the reference replacement, for markers that are texts (valid
UTF-8 without U+FFFD), both non-empty, with an end marker that starts with an ASCII
character. -/
theorem protectPair_eq_ref (ns : Bytes) (k : Nat) (st et buf : Bytes)
    (hst : isText st = true) (het : isText et = true) (hne : st ≠ [])
    (hc : ∃ c e1, et = c :: e1 ∧ c.val < 128) :
    protectPair ns k st et buf = .ok (protectRef ns k st et buf) := by
  obtain ⟨c, e1, rfl, hc⟩ := hc
  obtain ⟨s0, st1, rfl⟩ := List.exists_cons_of_ne_nil hne
  obtain ⟨P, S, hP, hS, hcomp⟩ := compile_plain (s0 :: st1) (c :: e1) c hst het hc
  obtain ⟨hs0, hw⟩ := text_head s0 st1 hst
  unfold protectPair mustCompile
  rw [spanPattern_eq, hcomp]
  simp only
  unfold replaceAllFunc protectRef
  rw [replaceLoop_eq_replaceSpansM _ s0 st1 (c :: e1) _
    (matchAt_span P S (s0 :: st1) c e1 _ hc hP hS rfl) hs0 (by simp)
    (fun t => Nat.le_trans (hw t) (Nat.le_add_right _ _)) _ true buf buf.length
    (Nat.lt_succ_self _) (Nat.le_refl _)]
  exact replaceSpansM_pure _ _ _ _ _

theorem asciiHead_cons (et : Bytes) (h : asciiHead et = true) :
    ∃ c e1, et = c :: e1 ∧ c.val < 128 := by
  cases et with
  | nil => simp [asciiHead] at h
  | cons c e1 => exact ⟨c, e1, rfl, by simpa [asciiHead] using h⟩

theorem takeWhile_run {α : Type} (p : α → Bool) (run rest : List α) (c : α)
    (h : ∀ x ∈ run, p x = true) (hc : p c = false) :
    (run ++ c :: rest).takeWhile p = run ∧ (run ++ c :: rest).dropWhile p = c :: rest := by
  induction run with
  | nil => simp [List.takeWhile_cons, List.dropWhile_cons, hc]
  | cons a run ih =>
    have ha := h a (by simp)
    have := ih (fun x hx => h x (by simp [hx]))
    simp [List.takeWhile_cons, List.dropWhile_cons, ha, this]

/-- The reference span is the declarative one: the input starts with a span exactly when
it is the start marker, a non-empty run of bytes other than the first byte of the end
marker, the end marker, and a rest. -/
theorem spanAt_iff (st et inp m after : Bytes) (het : et ≠ []) :
    spanAt st et inp = some (m, after) ↔
      inp = m ++ after ∧ ∃ run, run ≠ [] ∧ (∀ b ∈ run, some b ≠ et.head?) ∧
        m = st ++ run ++ et := by
  constructor
  · exact spanAt_some st et inp m after
  · rintro ⟨rfl, run, hrun, hall, rfl⟩
    obtain ⟨c, e1, rfl⟩ := List.exists_cons_of_ne_nil het
    have hp : ∀ x ∈ run, (fun b : Byte => decide (some b ≠ (c :: e1).head?)) x = true := by
      intro x hx; simpa using hall x hx
    have hcf : (fun b : Byte => decide (some b ≠ (c :: e1).head?)) c = false := by simp
    have hb : (st ++ run ++ (c :: e1) ++ after).drop st.length = run ++ c :: (e1 ++ after) := by
      simp [List.append_assoc]
    obtain ⟨h1, h2⟩ := takeWhile_run _ run (e1 ++ after) c hp hcf
    unfold spanAt
    have hpre : hasPrefix (st ++ run ++ (c :: e1) ++ after) st = true := by
      rw [List.append_assoc, List.append_assoc]; exact hasPrefix_self_append _ _
    rw [if_pos hpre]
    simp only [hb, h1, h2]
    have hpre2 : hasPrefix (c :: (e1 ++ after)) (c :: e1) = true := by
      rw [← List.cons_append]; exact hasPrefix_self_append _ _
    rw [if_pos ⟨hrun, hpre2⟩]
    simp

/-- A text shorter than any span has no span. -/
theorem findSpan_short (st et inp : Bytes) (h : inp.length < st.length + 1 + et.length) :
    findSpan st et inp = none := by
  cases hf : findSpan st et inp with
  | none => rfl
  | some x =>
    obtain ⟨sk, m, after⟩ := x
    obtain ⟨h1, h2, _⟩ := findSpan_some _ _ _ _ _ _ hf
    have := (spanAt_length _ _ _ _ _ h2).2
    rw [h1] at h
    simp only [List.length_append] at h
    omega

theorem replaceSpans_none (st et : Bytes) (f : Bytes → Bytes) (inp : Bytes)
    (h : findSpan st et inp = none) (k : Nat) : replaceSpans st et f k inp = inp := by
  have h1 := replaceSpansM_none st et (fun s => (.ok (f s) : Except Unit Bytes)) inp h k
  rw [replaceSpansM_pure] at h1
  exact Except.ok.inj h1

/-- C7, amended. For markers that are texts (valid UTF-8 without U+FFFD), both non-empty,
with an end marker that starts with an ASCII character, one protection pass is the
leftmost-first, non-overlapping replacement of every span (start marker, one or more
bytes other than the first byte of the end marker, end marker) by its token; every other
byte is kept in order; and the start marker directly followed by the end marker is left
as it is. -/
theorem protect_pass_refines (ns : Bytes) (k : Nat) (st et buf : Bytes)
    (hst : isText st = true) (hne : st ≠ []) (het : isText et = true)
    (hc : asciiHead et = true) :
    protectPair ns k st et buf = .ok (protectRef ns k st et buf) ∧
    (∀ inp m after, spanAt st et inp = some (m, after) ↔
      inp = m ++ after ∧ ∃ run, run ≠ [] ∧ (∀ b ∈ run, some b ≠ et.head?) ∧
        m = st ++ run ++ et) ∧
    protectPair ns k st et (st ++ et) = .ok (st ++ et) := by
  have hc2 := asciiHead_cons et hc
  have hne2 : et ≠ [] := by
    obtain ⟨c, e1, rfl, _⟩ := hc2; simp
  refine ⟨protectPair_eq_ref ns k st et buf hst het hne hc2,
    fun inp m after => spanAt_iff st et inp m after hne2, ?_⟩
  rw [protectPair_eq_ref ns k st et _ hst het hne hc2]
  unfold protectRef
  rw [replaceSpans_none]
  exact findSpan_short _ _ _ (by simp only [List.length_append]; omega)

/-- C7, witness: the default pair `{%`, `%}` on `a{% x %}b{%%}`. -/
theorem protect_pass_refines_witness :
    isText (str "\x7b%") = true ∧ str "\x7b%" ≠ [] ∧ isText (str "%\x7d") = true ∧
      asciiHead (str "%\x7d") = true ∧
      protectPair flagHidden 0 (str "\x7b%") (str "%\x7d") (str "a\x7b% x %\x7db\x7b%%\x7d") =
        .ok (protectRef flagHidden 0 (str "\x7b%") (str "%\x7d")
          (str "a\x7b% x %\x7db\x7b%%\x7d")) :=
  ⟨by decide, by decide, by decide, by decide,
    (protect_pass_refines flagHidden 0 (str "\x7b%") (str "%\x7d")
      (str "a\x7b% x %\x7db\x7b%%\x7d") (by decide) (by decide) (by decide) (by decide)).1⟩

/-- C7, as stated, fails: with the start marker `\xFF`, a byte that is no UTF-8, the
pattern of the protector is not valid UTF-8; `regexp.MustCompile` panics and nothing is
replaced, where the reference replaces the whole buffer `\xFF x %}`. The same happens
with the end marker `é` (bytes `C3 A9`), for which the pattern is `\{%[^\xC3]+é`. -/
theorem protect_pass_counterexample :
    protectPair flagHidden 0 [0xFF] (str "%\x7d") ([0xFF] ++ str " x %\x7d") = .error .panic ∧
      protectRef flagHidden 0 [0xFF] (str "%\x7d") ([0xFF] ++ str " x %\x7d") =
        encode flagHidden 0 ([0xFF] ++ str " x %\x7d") ∧
      protectPair flagHidden 0 (str "\x7b%") [0xC3, 0xA9] (str "\x7b% x " ++ [0xC3, 0xA9]) =
        .error .panic ∧
      protectRef flagHidden 0 (str "\x7b%") [0xC3, 0xA9] (str "\x7b% x " ++ [0xC3, 0xA9]) =
        encode flagHidden 0 (str "\x7b% x " ++ [0xC3, 0xA9]) := by
  decide!

/-! ## Texts: concatenation, escaping, the placeholder prefix -/

theorem isTextAux_fuel2 (f1 f2 : Nat) (s : Bytes) (h1 : s.length ≤ f1) (h2 : s.length ≤ f2) :
    isTextAux f1 s = isTextAux f2 s := by
  induction f1 generalizing f2 s with
  | zero =>
    have : s = [] := List.length_eq_zero.mp (Nat.le_zero.mp h1)
    subst this
    cases f2 <;> rfl
  | succ f1 ih =>
    cases s with
    | nil => cases f2 <;> rfl
    | cons b rest =>
      cases f2 with
      | zero => simp at h2
      | succ f2 =>
        have hsp := decodeRune_spec b rest
        have hl : ((b :: rest).drop (runeWidth (b :: rest))).length ≤ rest.length := by
          simp only [runeWidth, List.length_drop, List.length_cons]; omega
        simp only [List.length_cons] at h1 h2
        simp only [isTextAux]
        rw [ih f2 _ (by omega) (by omega)]

theorem isTextAux_fuel (f : Nat) (s : Bytes) (h : s.length ≤ f) : isTextAux f s = isText s :=
  isTextAux_fuel2 f s.length s h (Nat.le_refl _)

/-- A rune in front of a text makes a text. -/
theorem isText_rune_append (r t : Bytes) (hr : IsRune r) (ht : isText t = true) :
    isText (r ++ t) = true := by
  obtain ⟨b, tl, rfl, _, hdec, hne, _⟩ := hr
  have hd := hdec t
  simp only [List.cons_append] at hd
  have hstep : isText (b :: (tl ++ t)) =
      (decide ((decodeRune (b :: (tl ++ t))).1 ≠ runeError) &&
        isTextAux (tl ++ t).length ((b :: (tl ++ t)).drop (runeWidth (b :: (tl ++ t))))) := rfl
  have hdrop : (b :: (tl ++ t)).drop (runeWidth (b :: (tl ++ t))) = t := by
    unfold runeWidth
    rw [hd]
    simp only
    rw [← List.cons_append, List.drop_left]
  rw [List.cons_append, hstep, hdrop, hd,
    isTextAux_fuel _ _ (by rw [List.length_append]; exact Nat.le_add_left _ _), ht]
  simpa using hne

theorem isText_append (a b : Bytes) (ha : isText a = true) (hb : isText b = true) :
    isText (a ++ b) = true := by
  refine text_induction (fun a => isText (a ++ b) = true) hb ?_ _ a ha
  intro r rest hr ih
  rw [List.append_assoc]
  exact isText_rune_append r _ hr ih

theorem isText_ascii (s : Bytes) (h : ∀ b ∈ s, b.val < 128) : isText s = true := by
  induction s with
  | nil => rfl
  | cons b s ih =>
    have := isText_rune_append [b] s (isRune_ascii b (h b (by simp)))
      (ih (fun x hx => h x (by simp [hx])))
    simpa using this

set_option maxRecDepth 100000 in
theorem escapeByte_ascii (b : Byte) (hb : b.val < 128) : ∀ x ∈ escapeByte b, x.val < 128 := by
  unfold escapeByte
  split_ifs
  · decide
  · decide
  · decide
  · decide
  · decide
  · intro x hx
    rw [List.mem_singleton.mp hx]; exact hb

theorem escapeByte_high (b : Byte) (hb : 128 ≤ b.val) : escapeByte b = [b] := by
  unfold escapeByte
  have n1 : b ≠ 38 := by intro h; rw [h] at hb; revert hb; decide
  have n2 : b ≠ 39 := by intro h; rw [h] at hb; revert hb; decide
  have n3 : b ≠ 60 := by intro h; rw [h] at hb; revert hb; decide
  have n4 : b ≠ 62 := by intro h; rw [h] at hb; revert hb; decide
  have n5 : b ≠ 34 := by intro h; rw [h] at hb; revert hb; decide
  simp [n1, n2, n3, n4, n5]

theorem escapeString_append (a b : Bytes) :
    escapeString (a ++ b) = escapeString a ++ escapeString b := by
  simp [escapeString, List.flatMap_append]

theorem escapeString_high (r : Bytes) (h : ∀ x ∈ r, 128 ≤ x.val) : escapeString r = r := by
  induction r with
  | nil => rfl
  | cons x r ih =>
    have := ih (fun y hy => h y (by simp [hy]))
    simp only [escapeString, List.flatMap_cons] at this ⊢
    rw [this, escapeByte_high x (h x (by simp))]
    rfl

/-- Escaping a text gives a text. -/
theorem isText_escapeString (s : Bytes) (h : isText s = true) :
    isText (escapeString s) = true := by
  refine text_induction (fun s => isText (escapeString s) = true) rfl ?_ _ s h
  intro r rest hr ih
  rw [escapeString_append]
  obtain ⟨b, tl, rfl, h1, h2, h3, hk⟩ := hr
  rcases hk with ⟨hb, rfl⟩ | hhigh
  · apply isText_append _ _ _ ih
    apply isText_ascii
    intro x hx
    have : escapeString [b] = escapeByte b := by simp [escapeString]
    rw [this] at hx
    exact escapeByte_ascii b hb x hx
  · rw [escapeString_high _ hhigh]
    exact isText_rune_append _ _ ⟨b, tl, rfl, h1, h2, h3, Or.inr hhigh⟩ ih

theorem digitChar_byte : ∀ k : Fin 10, 48 ≤ (byteOfChar (Nat.digitChar k.val)).val ∧
    (byteOfChar (Nat.digitChar k.val)).val ≤ 57 := by
  decide

theorem toDigitsCore_digits (fuel n : Nat) (ds : List Char)
    (hds : ∀ c ∈ ds, 48 ≤ (byteOfChar c).val ∧ (byteOfChar c).val ≤ 57) :
    ∀ c ∈ Nat.toDigitsCore 10 fuel n ds, 48 ≤ (byteOfChar c).val ∧ (byteOfChar c).val ≤ 57 := by
  induction fuel generalizing n ds with
  | zero => simpa [Nat.toDigitsCore] using hds
  | succ fuel ih =>
    have hd : 48 ≤ (byteOfChar (Nat.digitChar (n % 10))).val ∧
        (byteOfChar (Nat.digitChar (n % 10))).val ≤ 57 :=
      digitChar_byte ⟨n % 10, Nat.mod_lt _ (by decide)⟩
    have hds2 : ∀ c ∈ Nat.digitChar (n % 10) :: ds,
        48 ≤ (byteOfChar c).val ∧ (byteOfChar c).val ≤ 57 := by
      intro c hc
      rcases List.mem_cons.mp hc with rfl | h
      · exact hd
      · exact hds c h
    simp only [Nat.toDigitsCore]
    split_ifs
    · exact hds2
    · exact ih _ _ hds2

/-- The decimal digits of a number are the characters `0` to `9`. -/
theorem decimal_digits (n : Nat) : ∀ b ∈ decimal n, 48 ≤ b.val ∧ b.val ≤ 57 := by
  intro b hb
  simp only [decimal, List.mem_map] at hb
  obtain ⟨c, hc, rfl⟩ := hb
  exact toDigitsCore_digits _ _ [] (by simp) c hc

/-! ## The passes of the restorer against the reference replacement -/

theorem quoteMeta_noMeta (s : Bytes) (h : noMeta s = true) : quoteMeta s = s := by
  induction s with
  | nil => rfl
  | cons b s ih =>
    simp only [noMeta, List.all_cons, Bool.and_eq_true, Bool.not_eq_true'] at h
    have := ih (by simpa [noMeta] using h.2)
    simp only [quoteMeta, List.flatMap_cons, h.1] at this ⊢
    rw [this]; rfl

theorem noMeta_append (a b : Bytes) : noMeta (a ++ b) = (noMeta a && noMeta b) := by
  simp [noMeta, List.all_append]

set_option maxRecDepth 100000 in
theorem digit_not_meta : ∀ b : Byte, 48 ≤ b.val ∧ b.val ≤ 57 → isMeta b = false := by
  decide

theorem noMeta_decimal (n : Nat) : noMeta (decimal n) = true := by
  simp only [noMeta, List.all_eq_true, Bool.not_eq_true']
  intro b hb
  exact digit_not_meta b (decimal_digits n b hb)

theorem isText_decimal (n : Nat) : isText (decimal n) = true := by
  apply isText_ascii
  intro b hb
  have := decimal_digits n b hb
  omega

/-- The placeholder prefix of a namespace that is a text is a text. -/
theorem isText_prefixOf (ns : Bytes) (k : Nat) (h : isText ns = true) :
    isText (prefixOf ns k) = true := by
  unfold prefixOf
  exact isText_append _ _ (isText_append _ _ (isText_append _ _ (isText_append _ _ (by decide) h)
    (by decide)) (isText_decimal k)) (by decide)

theorem noMeta_prefixOf (ns : Bytes) (k : Nat) (h : noMeta ns = true) :
    noMeta (prefixOf ns k) = true := by
  unfold prefixOf
  rw [noMeta_append, noMeta_append, noMeta_append, noMeta_append, h, noMeta_decimal]
  decide

theorem prefixOf_ne_nil (ns : Bytes) (k : Nat) : prefixOf ns k ≠ [] := by
  have h : str "<!-- ___XXX_" = 60 :: str "!-- ___XXX_" := by decide
  simp [prefixOf, h]

theorem escapeString_prefixOf_ne_nil (ns : Bytes) (k : Nat) :
    escapeString (prefixOf ns k) ≠ [] := by
  have h : str "<!-- ___XXX_" = 60 :: str "!-- ___XXX_" := by decide
  have h2 : escapeByte 60 = 38 :: str "lt;" := by decide
  simp [prefixOf, h, escapeString, List.flatMap_cons, h2]

/-- A pass of the restorer: its pattern compiles, and replacing with the compiled
pattern is the reference replacement of the spans between the prefix and the suffix. -/
theorem pass_eq_ref (A B : Bytes) (hA : isText A = true) (hB : isText B = true)
    (hne : A ≠ []) (hsp : ∃ b1, B = 32 :: b1) :
    ∃ re, mustCompile (quoteMeta A ++ (40 :: 91 :: 94 :: 32 :: 93 :: 43 :: 41 ::
        (quoteMeta B ++ []))) = .ok re ∧
      ∀ (repl : Bytes → Except Failure Bytes) (text : Bytes),
        replaceAllFunc re text repl = replaceSpansM A B repl text.length text := by
  obtain ⟨b1, rfl⟩ := hsp
  obtain ⟨s0, st1, rfl⟩ := List.exists_cons_of_ne_nil hne
  obtain ⟨P, S, hP, hS, hcomp⟩ := compile_group (s0 :: st1) (32 :: b1) hA hB
  obtain ⟨hs0, hw⟩ := text_head s0 st1 hA
  refine ⟨_, by unfold mustCompile; rw [hcomp], ?_⟩
  intro repl text
  unfold replaceAllFunc
  exact replaceLoop_eq_replaceSpansM _ s0 st1 (32 :: b1) _
    (matchAt_span P S (s0 :: st1) 32 b1 (Regex.group (Regex.plus (notC 32) true)) (by decide)
      hP hS (funext fun _ => rfl)) hs0 (by simp)
    (fun t => Nat.le_trans (hw t) (Nat.le_add_right _ _)) _ true text text.length
    (Nat.lt_succ_self _) (Nat.le_refl _)

/-- The raw-comment pass is the reference replacement of the tokens of the pair, for a
namespace that is a text without metacharacters of the pattern language. -/
theorem rawPass_eq_ref (ns : Bytes) (k : Nat) (text : Bytes) (hns : isText ns = true)
    (hmeta : noMeta ns = true) :
    rawPass ns k text =
      replaceSpansM (prefixOf ns k) tagSuffix
        (unhide (prefixOf ns k).length tagSuffix.length) text.length text := by
  have hpat : rawPattern ns k = quoteMeta (prefixOf ns k) ++
      (40 :: 91 :: 94 :: 32 :: 93 :: 43 :: 41 :: (quoteMeta tagSuffix ++ [])) := by
    rw [quoteMeta_noMeta _ (noMeta_prefixOf ns k hmeta)]
    have h1 : str "([^ ]+)" = [40, 91, 94, 32, 93, 43, 41] := by decide
    have h2 : quoteMeta tagSuffix = tagSuffix := by decide
    unfold rawPattern
    rw [h1, h2]
    simp only [List.append_assoc, List.cons_append, List.nil_append, List.append_nil]
  have hB : isText tagSuffix = true := by decide
  have hB2 : tagSuffix = 32 :: [45, 45, 62] := by decide
  obtain ⟨re, h1, h2⟩ := pass_eq_ref (prefixOf ns k) tagSuffix (isText_prefixOf ns k hns) hB
    (prefixOf_ne_nil ns k) ⟨[45, 45, 62], hB2⟩
  unfold rawPass
  rw [hpat, h1]
  exact h2 _ text

/-- The escaped-comment pass is the reference replacement of the escaped tokens of the
pair, for a namespace that is a text. -/
theorem escPass_eq_ref (ns : Bytes) (k : Nat) (text : Bytes) (hns : isText ns = true) :
    escPass ns k text =
      replaceSpansM (escapeString (prefixOf ns k)) (escapeString tagSuffix)
        (unhide (escapeString (prefixOf ns k)).length (escapeString tagSuffix).length)
        text.length text := by
  have hpat : escPattern ns k = quoteMeta (escapeString (prefixOf ns k)) ++
      (40 :: 91 :: 94 :: 32 :: 93 :: 43 :: 41 :: (quoteMeta (escapeString tagSuffix) ++ [])) := by
    have h1 : str "([^ ]+)" = [40, 91, 94, 32, 93, 43, 41] := by decide
    unfold escPattern
    rw [h1]
    simp only [List.append_assoc, List.cons_append, List.nil_append, List.append_nil]
  have hB : isText (escapeString tagSuffix) = true := by decide
  have hB2 : escapeString tagSuffix = 32 :: str "--&gt;" := by decide
  obtain ⟨re, h1, h2⟩ := pass_eq_ref (escapeString (prefixOf ns k)) (escapeString tagSuffix)
    (isText_escapeString _ (isText_prefixOf ns k hns)) hB
    (escapeString_prefixOf_ne_nil ns k) ⟨str "--&gt;", hB2⟩
  unfold escPass
  rw [hpat, h1]
  exact h2 _ text

/-! ## Restoring one token -/

theorem b64encode_ne_nil (p : Bytes) (h : p ≠ []) : b64encode p ≠ [] := by
  rcases p with _ | ⟨a, _ | ⟨b, _ | ⟨c, r⟩⟩⟩
  · exact absurd rfl h
  · simp [b64encode]
  · simp [b64encode]
  · simp [b64encode]

/-- The closure of a pass, on the prefix, the base64 of a payload and the suffix, gives
the payload back. -/
theorem unhide_token (A B p : Bytes) :
    unhide A.length B.length (A ++ b64encode p ++ B) = .ok p := by
  have hs : slice (A ++ b64encode p ++ B) A.length ((A ++ b64encode p ++ B).length - B.length) =
      some (b64encode p) := by
    unfold slice
    rw [if_pos (by simp only [List.length_append]; omega)]
    congr 1
    have h1 : (A ++ b64encode p ++ B).length - B.length = (A ++ b64encode p).length := by
      simp only [List.length_append]; omega
    rw [h1, List.take_left, List.drop_left]
  unfold unhide
  rw [hs]
  simp only
  rw [b64decode_encode]

/-- A token between a prefix and a suffix that starts with a space is a span. -/
theorem spanAt_token (A b1 p after : Bytes) (hp : p ≠ []) :
    spanAt A (32 :: b1) (A ++ b64encode p ++ (32 :: b1) ++ after) =
      some (A ++ b64encode p ++ (32 :: b1), after) := by
  rw [spanAt_iff _ _ _ _ _ (by simp)]
  refine ⟨rfl, b64encode p, b64encode_ne_nil p hp, ?_, rfl⟩
  intro b hb
  have := isB64Char_not_space b (b64encode_chars p b hb)
  simpa using this

/-- The reference replacement with the closure of a pass, on one token alone, gives the
payload. -/
theorem replaceSpansM_token (A b1 p : Bytes) (hp : p ≠ []) (hA : A ≠ []) (n : Nat)
    (hn : 1 ≤ n) :
    replaceSpansM A (32 :: b1) (unhide A.length (32 :: b1).length) n
      (A ++ b64encode p ++ (32 :: b1)) = .ok p := by
  obtain ⟨n, rfl⟩ : ∃ m, n = m + 1 := ⟨n - 1, by omega⟩
  obtain ⟨a0, A1, rfl⟩ := List.exists_cons_of_ne_nil hA
  have hsp := spanAt_token (a0 :: A1) b1 p [] hp
  simp only [List.append_nil] at hsp
  have hcons : (a0 :: A1) ++ b64encode p ++ (32 :: b1) =
      a0 :: (A1 ++ b64encode p ++ (32 :: b1)) := by simp
  rw [hcons] at hsp ⊢
  rw [replaceSpansM, hsp]
  simp only
  rw [← hcons, unhide_token]
  simp only
  have : replaceSpansM (a0 :: A1) (32 :: b1)
      (unhide (a0 :: A1).length (32 :: b1).length) n [] = .ok [] := by
    cases n <;> rfl
  rw [this]
  simp

set_option maxRecDepth 100000 in
theorem escapeByte_b64 : ∀ c : Byte, isB64Char c = true → escapeByte c = [c] := by decide

theorem escapeString_b64 (p : Bytes) : escapeString (b64encode p) = b64encode p := by
  have h : ∀ s : Bytes, (∀ c ∈ s, isB64Char c = true) → escapeString s = s := by
    intro s
    induction s with
    | nil => intro _; rfl
    | cons c s ih =>
      intro hs
      have hc := hs c (by simp)
      have := ih (fun x hx => hs x (by simp [hx]))
      have he : escapeByte c = [c] := escapeByte_b64 c hc
      simp only [escapeString, List.flatMap_cons] at this ⊢
      rw [this, he]; rfl
  exact h _ (b64encode_chars p)

/-! ## C3: recovery of the escaped form -/

/-- Escaping a token escapes its prefix and its suffix and leaves the base64 payload. -/
theorem escapeString_encode (ns : Bytes) (i : Nat) (p : Bytes) :
    escapeString (encode ns i p) =
      escapeString (prefixOf ns i) ++ b64encode p ++ escapeString tagSuffix := by
  unfold encode
  rw [escapeString_append, escapeString_append, escapeString_b64]

/-- C3, amended. For every namespace that is a text (valid UTF-8 without U+FFFD), every
pair index and every non-empty payload, the HTML-escaped token is the escaped prefix,
the base64 of the payload and the escaped suffix, and the escaped-comment pass of the
pair restores from it exactly the payload. -/
theorem escaped_token_recovered (ns : Bytes) (i : Nat) (p : Bytes)
    (hns : isText ns = true) (hp : p ≠ []) :
    escapeString (encode ns i p) =
        escapeString (prefixOf ns i) ++ b64encode p ++ escapeString tagSuffix ∧
      escPass ns i (escapeString (encode ns i p)) = .ok p := by
  refine ⟨escapeString_encode ns i p, ?_⟩
  have hB : escapeString tagSuffix = 32 :: str "--&gt;" := by decide
  rw [escPass_eq_ref ns i _ hns, escapeString_encode, hB]
  refine replaceSpansM_token _ _ p hp (escapeString_prefixOf_ne_nil ns i) _ ?_
  simp only [List.length_append, List.length_cons]
  omega

/-- C3, witness: the token of `{% x %}` for the default namespace and pair 0, once
HTML-escaped, is restored to `{% x %}`. -/
theorem escaped_token_recovered_witness :
    isText flagHidden = true ∧ str "\x7b% x %\x7d" ≠ [] ∧
      escapeString (encode flagHidden 0 (str "\x7b% x %\x7d")) =
        str "&lt;!-- ___XXX_HTML_STRIP_0___ eyUgeCAlfQ== --&gt;" ∧
      escPass flagHidden 0 (str "&lt;!-- ___XXX_HTML_STRIP_0___ eyUgeCAlfQ== --&gt;") =
        .ok (str "\x7b% x %\x7d") :=
  ⟨by decide, by decide, by decide,
    (by decide : escapeString (encode flagHidden 0 (str "\x7b% x %\x7d")) =
        str "&lt;!-- ___XXX_HTML_STRIP_0___ eyUgeCAlfQ== --&gt;") ▸
      (escaped_token_recovered flagHidden 0 (str "\x7b% x %\x7d") (by decide) (by decide)).2⟩

/-- C3, as stated, fails for a namespace that is not valid UTF-8: with the namespace
`\xFF` the pattern of the escaped-comment pass is not valid UTF-8 and
`regexp.MustCompile` panics. -/
theorem escaped_token_counterexample :
    escPass [0xFF] 0 (escapeString (encode [0xFF] 0 (str "x"))) = .error .panic := by
  decide

/-! ## C8 and C1: evaluations -/

/-- C8, the code at the failing input: with the namespace `A+` the raw-comment pass
leaves the literal token `<!-- ___XXX_A+_0___ QQ== -->` in the text and replaces
`<!-- ___XXX_AA_0___ QQ== -->`, which is no token of that namespace, by `A`; with the
namespace `(` it panics. The escaped-comment pass, which quotes the prefix, restores
the escaped literal token. -/
theorem rawPass_unquoted_namespace :
    rawPass (str "A+") 0 (str "<!-- ___XXX_A+_0___ QQ== -->") =
        .ok (str "<!-- ___XXX_A+_0___ QQ== -->") ∧
      encode (str "A+") 0 (str "A") = str "<!-- ___XXX_A+_0___ QQ== -->" ∧
      rawPass (str "A+") 0 (str "<!-- ___XXX_AA_0___ QQ== -->") = .ok (str "A") ∧
      rawPass (str "(") 0 (str "x") = .error .panic ∧
      escPass (str "A+") 0 (str "&lt;!-- ___XXX_A+_0___ QQ== --&gt;") = .ok (str "A") := by
  decide!

/-- C1, the code at the failing input: with the two pairs `{%`, `%}` and `<!--`, `-->`,
an identity document step and the input `{% x %}`, the token of pair 0 is matched by
pair 1 and wrapped in a token of pair 1; the restorer handles pair 0 first, finds
nothing, then unwraps the token of pair 1, and the output is the token of pair 0
instead of the input. -/
theorem roundtrip_two_pairs :
    run flagHidden (str "\x7b%,%\x7d,<!--,-->") some (str "\x7b% x %\x7d") =
        .ok (str "<!-- ___XXX_HTML_STRIP_0___ eyUgeCAlfQ== -->") ∧
      protectLoop flagHidden (splitComma (str "\x7b%,%\x7d,<!--,-->")) 0 (str "\x7b% x %\x7d") =
        .ok (encode flagHidden 1 (encode flagHidden 0 (str "\x7b% x %\x7d"))) := by
  decide!

/-! ## C5: decode failure is fatal, all or nothing -/

theorem runOfToken_eq (A B run : Bytes) : runOfToken A B (A ++ run ++ B) = run := by
  unfold runOfToken
  have h1 : (A ++ run ++ B).length - B.length = (A ++ run).length := by
    simp only [List.length_append]; omega
  rw [h1, List.take_left, List.drop_left]

/-- The closure of a pass on a span: a decode error when the run is not valid base64,
otherwise the decoded run; never a panic. -/
theorem unhide_span (A B inp m after : Bytes) (h : spanAt A B inp = some (m, after)) :
    unhide A.length B.length m =
      match b64decode (runOfToken A B m) with
      | none => .error .decodeError
      | some d => .ok d := by
  obtain ⟨_, run, _, _, rfl⟩ := spanAt_some _ _ _ _ _ h
  have hs : slice (A ++ run ++ B) A.length ((A ++ run ++ B).length - B.length) =
      some (runOfToken A B (A ++ run ++ B)) := by
    unfold slice runOfToken
    rw [if_pos (by simp only [List.length_append]; omega)]
  unfold unhide
  rw [hs]
  try rfl

/-- A pass by the reference replacement with the closure of the restorer is the
reference pass: aborted exactly when some matched token does not decode. -/
theorem replaceSpansM_unhide (A B : Bytes) (fuel : Nat) (text : Bytes) :
    replaceSpansM A B (unhide A.length B.length) fuel text =
      if (spansOf A B fuel text).all (fun m => (b64decode (runOfToken A B m)).isSome) then
        .ok (replaceSpans A B (fun m => (b64decode (runOfToken A B m)).getD []) fuel text)
      else .error .decodeError := by
  induction fuel generalizing text with
  | zero => rfl
  | succ fuel ih =>
    cases text with
    | nil => rfl
    | cons b rest =>
      rw [replaceSpansM, spansOf, replaceSpans]
      cases hsp : spanAt A B (b :: rest) with
      | none =>
        simp only
        rw [ih rest]
        split_ifs <;> rfl
      | some x =>
        obtain ⟨m, after⟩ := x
        simp only
        rw [unhide_span A B _ m after hsp, ih after]
        cases hd : b64decode (runOfToken A B m) with
        | none =>
          simp only
          rw [if_neg]
          simp [hd]
        | some d =>
          simp only
          have hcons : ((m :: spansOf A B fuel after).all
              (fun m => (b64decode (runOfToken A B m)).isSome)) =
              (spansOf A B fuel after).all (fun m => (b64decode (runOfToken A B m)).isSome) := by
            simp only [List.all_cons, hd, Option.isSome_some, Bool.true_and]
          rw [hcons]
          by_cases hall : (spansOf A B fuel after).all
              (fun m => (b64decode (runOfToken A B m)).isSome) = true
          · rw [if_pos hall, if_pos hall]
            rfl
          · rw [if_neg hall, if_neg hall]

theorem rawPass_eq_passRef (ns : Bytes) (k : Nat) (text : Bytes) (hns : isText ns = true)
    (hmeta : noMeta ns = true) :
    rawPass ns k text =
      match passRef (prefixOf ns k) tagSuffix text with
      | some out => .ok out
      | none => .error .decodeError := by
  rw [rawPass_eq_ref ns k text hns hmeta, replaceSpansM_unhide]
  unfold passRef
  split_ifs <;> rfl

theorem escPass_eq_passRef (ns : Bytes) (k : Nat) (text : Bytes) (hns : isText ns = true) :
    escPass ns k text =
      match passRef (escapeString (prefixOf ns k)) (escapeString tagSuffix) text with
      | some out => .ok out
      | none => .error .decodeError := by
  rw [escPass_eq_ref ns k text hns, replaceSpansM_unhide]
  unfold passRef
  split_ifs <;> rfl

/-- The restorer is the reference restorer, for a namespace that is a text without
pattern metacharacters. -/
theorem restoreLoop_eq_restoreRef (ns : Bytes) (hns : isText ns = true)
    (hmeta : noMeta ns = true) (n k : Nat) (text : Bytes) :
    restoreLoop ns n k text =
      match restoreRef ns n k text with
      | some out => .ok out
      | none => .error .decodeError := by
  induction n generalizing k text with
  | zero => rfl
  | succ n ih =>
    rw [restoreLoop, restoreRef, rawPass_eq_passRef ns k text hns hmeta]
    cases passRef (prefixOf ns k) tagSuffix text with
    | none => rfl
    | some t1 =>
      simp only
      rw [escPass_eq_passRef ns k t1 hns]
      cases passRef (escapeString (prefixOf ns k)) (escapeString tagSuffix) t1 with
      | none => rfl
      | some t2 =>
        simp only
        exact ih (k + 1) t2

/-- C5, as stated, fails: with the namespace `\xFF`, a byte that is no UTF-8, the
patterns of the restorer are not valid UTF-8 and `regexp.MustCompile` panics: on the
text `x`, in which neither pass has a token to match, the restorer aborts the run, and
so does the program. -/
theorem restore_abort_counterexample :
    restoreLoop [0xFF] 1 0 (str "x") = .error .panic ∧
      spansOf (prefixOf [0xFF] 0) tagSuffix 1 (str "x") = [] ∧
      spansOf (escapeString (prefixOf [0xFF] 0)) (escapeString tagSuffix) 1 (str "x") = [] ∧
      restoreRef [0xFF] 1 0 (str "x") = some (str "x") ∧
      run [0xFF] flagIgnoreTags some (str "x") = .error .panic := by
  decide!

/-- C5, amended. For every namespace that is a text (valid UTF-8 without U+FFFD) without
pattern metacharacters, the default `HTML_STRIP` among them, every number of pairs and
every serialized text, the restorer is the reference restorer: each pass matches the
tokens (prefix, a run of one or more non-space bytes, suffix; raw, then HTML-escaped),
the run aborts with a decode error, and no output, exactly when the run of some matched
token is not valid base64, and otherwise every matched token is replaced by the decoding
of its run. No other failure occurs. -/
theorem restore_all_or_nothing (n k : Nat) (text : Bytes) :
    restoreLoop flagHidden n k text =
        (match restoreRef flagHidden n k text with
        | some out => .ok out
        | none => .error .decodeError) ∧
      (∀ ns : Bytes, isText ns = true → noMeta ns = true →
        restoreLoop ns n k text =
          match restoreRef ns n k text with
          | some out => .ok out
          | none => .error .decodeError) ∧
      (∀ A B run : Bytes, runOfToken A B (A ++ run ++ B) = run) ∧
      (∀ A b1 inp m after : Bytes, spanAt A (32 :: b1) inp = some (m, after) ↔
        inp = m ++ after ∧ ∃ run, run ≠ [] ∧ (∀ b ∈ run, b ≠ 32) ∧ m = A ++ run ++ 32 :: b1) := by
  refine ⟨restoreLoop_eq_restoreRef flagHidden (by decide) (by decide) n k text,
    fun ns hns hmeta => restoreLoop_eq_restoreRef ns hns hmeta n k text, runOfToken_eq, ?_⟩
  intro A b1 inp m after
  rw [spanAt_iff A (32 :: b1) inp m after (by simp)]
  simp

/-- C5, witness: the default namespace, one pair; a text with a token that decodes and
one that does not is aborted, a text whose token decodes is restored. -/
theorem restore_all_or_nothing_witness :
    restoreLoop flagHidden 1 0
          (str "a<!-- ___XXX_HTML_STRIP_0___ QQ== -->b<!-- ___XXX_HTML_STRIP_0___ Q!== -->") =
        .error .decodeError ∧
      restoreLoop flagHidden 1 0 (str "a<!-- ___XXX_HTML_STRIP_0___ QQ== -->b") =
        .ok (str "aAb") ∧
      isText (str "NS_1") = true ∧ noMeta (str "NS_1") = true ∧
      restoreLoop (str "NS_1") 1 0 (str "a<!-- ___XXX_NS_1_0___ QQ== -->b") = .ok (str "aAb") :=
  ⟨(restore_all_or_nothing 1 0
      (str "a<!-- ___XXX_HTML_STRIP_0___ QQ== -->b<!-- ___XXX_HTML_STRIP_0___ Q!== -->")).1.trans
      (by decide!),
    (restore_all_or_nothing 1 0 (str "a<!-- ___XXX_HTML_STRIP_0___ QQ== -->b")).1.trans
      (by decide!),
    by decide, by decide,
    ((restore_all_or_nothing 1 0 (str "a<!-- ___XXX_NS_1_0___ QQ== -->b")).2.1 (str "NS_1")
      (by decide) (by decide)).trans (by decide!)⟩

/-! ## Texts without spans or tokens -/

theorem spanAt_no_prefix (A B inp : Bytes) (h : hasPrefix inp A = false) :
    spanAt A B inp = none := by
  unfold spanAt
  rw [if_neg (by simp [h])]

/-- Where the start marker does not occur there is no span. -/
theorem findSpan_not_occurs (A B text : Bytes) (h : occurs A text = false) :
    findSpan A B text = none := by
  induction text with
  | nil => rfl
  | cons b rest ih =>
    simp only [occurs, Bool.or_eq_false_iff] at h
    rw [findSpan, spanAt_no_prefix A B _ h.1, ih h.2]

/-- The restorer leaves a text without placeholder prefixes as it is. -/
theorem restoreLoop_noTokens (ns : Bytes) (hns : isText ns = true) (hmeta : noMeta ns = true)
    (n k : Nat) (text : Bytes) (h : noTokens ns n k text = true) :
    restoreLoop ns n k text = .ok text := by
  induction n generalizing k with
  | zero => rfl
  | succ n ih =>
    simp only [noTokens, Bool.and_eq_true, Bool.not_eq_true'] at h
    obtain ⟨⟨h1, h2⟩, h3⟩ := h
    rw [restoreLoop, rawPass_eq_ref ns k text hns hmeta,
      replaceSpansM_none _ _ _ _ (findSpan_not_occurs _ _ _ h1)]
    simp only
    rw [escPass_eq_ref ns k text hns,
      replaceSpansM_none _ _ _ _ (findSpan_not_occurs _ _ _ h2)]
    simp only
    exact ih (k + 1) h3

theorem goodPair_spec (p : Bytes × Bytes) (h : goodPair p = true) :
    isText p.1 = true ∧ p.1 ≠ [] ∧ isText p.2 = true ∧ asciiHead p.2 = true ∧ p.2 ≠ [] := by
  simp only [goodPair, Bool.and_eq_true, Bool.not_eq_true', List.isEmpty_eq_false] at h
  obtain ⟨⟨⟨h1, h2⟩, h3⟩, h4⟩ := h
  refine ⟨h1, ?_, h3, h4, ?_⟩
  · intro h; rw [h] at h2; simp at h2
  · intro h; rw [h] at h4; simp [asciiHead] at h4

/-- The protector leaves the buffer as it is when no pair has a span in it. -/
theorem protectLoop_no_match (ns : Bytes) (tags : List Bytes) (k : Nat) (buf : Bytes)
    (heven : tags.length % 2 = 0)
    (hgood : ∀ p ∈ pairsOf tags, goodPair p = true)
    (hnone : ∀ p ∈ pairsOf tags, findSpan p.1 p.2 buf = none) :
    protectLoop ns tags k buf = .ok buf := by
  induction tags using pairsOf.induct generalizing k with
  | case1 t0 t1 rest ih =>
    have hg := goodPair_spec _ (hgood (trimSpace t0, trimSpace t1) (by simp [pairsOf]))
    have hn := hnone (trimSpace t0, trimSpace t1) (by simp [pairsOf])
    have hpp := protectPair_eq_ref ns k (trimSpace t0) (trimSpace t1) buf hg.1 hg.2.2.1 hg.2.1
      (asciiHead_cons _ hg.2.2.2.1)
    rw [protectLoop, if_neg (by simp [hg.2.1, hg.2.2.2.2]), hpp]
    simp only
    have : protectRef ns k (trimSpace t0) (trimSpace t1) buf = buf := by
      unfold protectRef
      exact replaceSpans_none _ _ _ _ hn _
    rw [this]
    apply ih
    · simp only [List.length_cons] at heven; omega
    · intro p hp; exact hgood p (by simp [pairsOf, hp])
    · intro p hp; exact hnone p (by simp [pairsOf, hp])
  | case2 tags hne =>
    match tags, hne with
    | [], _ => rfl
    | [_], _ => simp at heven
    | t0 :: t1 :: rest, hne => exact absurd rfl (hne t0 t1 rest)

theorem pairsOf_length (tags : List Bytes) (heven : tags.length % 2 = 0) :
    (pairsOf tags).length = (tags.length + 1) / 2 := by
  induction tags using pairsOf.induct with
  | case1 t0 t1 rest ih =>
    simp only [List.length_cons] at heven
    simp only [pairsOf, List.length_cons, ih (by omega)]
    omega
  | case2 tags hne =>
    match tags, hne with
    | [], _ => rfl
    | [_], _ => simp at heven
    | t0 :: t1 :: rest, hne => exact absurd rfl (hne t0 t1 rest)

/-! ## C10: non-interference when nothing matches -/

/-- C10, amended. For a namespace that is a text without pattern metacharacters, a tag
list of an even number of markers whose pairs are good (texts, non-empty, the end
marker starting with an ASCII character), an input in which no pair has a span, and a
serializer whose output for the input holds no placeholder prefix of a configured pair
(raw or HTML-escaped): the protector returns the input unchanged, the restorer returns
the serialized text unchanged, and the output of the pipeline is the serialized input. -/
theorem no_match_noninterference (ns ignoreTags : Bytes) (ser : Bytes → Bytes) (buf : Bytes)
    (hns : isText ns = true) (hmeta : noMeta ns = true)
    (heven : (splitComma ignoreTags).length % 2 = 0)
    (hgood : ∀ p ∈ pairsOf (splitComma ignoreTags), goodPair p = true)
    (hnone : ∀ p ∈ pairsOf (splitComma ignoreTags), findSpan p.1 p.2 buf = none)
    (hser : noTokens ns (pairsOf (splitComma ignoreTags)).length 0 (ser buf) = true) :
    protectLoop ns (splitComma ignoreTags) 0 buf = .ok buf ∧
      restoreLoop ns (pairsOf (splitComma ignoreTags)).length 0 (ser buf) = .ok (ser buf) ∧
      run ns ignoreTags (fun b => some (ser b)) buf = .ok (ser buf) := by
  have hp := protectLoop_no_match ns (splitComma ignoreTags) 0 buf heven hgood hnone
  have hr := restoreLoop_noTokens ns hns hmeta _ 0 (ser buf) hser
  refine ⟨hp, hr, ?_⟩
  unfold run
  simp only
  rw [if_neg (by omega), hp]
  simp only
  rw [← pairsOf_length _ heven]
  exact hr

/-- C10, witness: the default configuration, the input `<p>hi</p>` and a serializer
that puts the input into a document. -/
theorem no_match_noninterference_witness :
    isText flagHidden = true ∧ noMeta flagHidden = true ∧
      (splitComma flagIgnoreTags).length % 2 = 0 ∧
      run flagHidden flagIgnoreTags
          (fun b => some (str "<html><head></head><body>" ++ b ++ str "</body></html>"))
          (str "<p>hi</p>") =
        .ok (str "<html><head></head><body>" ++ str "<p>hi</p>" ++ str "</body></html>") :=
  ⟨by decide, by decide, by decide,
    (no_match_noninterference flagHidden flagIgnoreTags
      (fun b => str "<html><head></head><body>" ++ b ++ str "</body></html>") (str "<p>hi</p>")
      (by decide) (by decide) (by decide) (by decide!) (by decide!) (by decide!)).2.2⟩

/-- C10, as stated, fails: the input `<!-- ___XXX_HTML_STRIP_0___ QQ== -->` has no span
of the default pair, so the protector returns it unchanged, but it looks like a token:
with a serializer that returns its input, the restorer replaces it by `A`. -/
theorem no_match_counterexample :
    findSpan (str "\x7b%") (str "%\x7d") (str "<!-- ___XXX_HTML_STRIP_0___ QQ== -->") = none ∧
      protectLoop flagHidden (splitComma flagIgnoreTags) 0
          (str "<!-- ___XXX_HTML_STRIP_0___ QQ== -->") =
        .ok (str "<!-- ___XXX_HTML_STRIP_0___ QQ== -->") ∧
      run flagHidden flagIgnoreTags some (str "<!-- ___XXX_HTML_STRIP_0___ QQ== -->") =
        .ok (str "A") := by
  decide!

/-! ## C6: the tag check -/

/-- A failure of the replacement loop is a failure of the replacement function. -/
theorem replaceLoop_error {ε : Type} (re : Regex) (repl : Bytes → Except ε Bytes) (fuel : Nat)
    (atStart : Bool) (gap rest : Bytes) (e : ε)
    (h : replaceLoop re repl fuel atStart gap rest = .error e) : ∃ m, repl m = .error e := by
  induction fuel generalizing atStart gap rest with
  | zero => simp [replaceLoop] at h
  | succ fuel ih =>
    rw [replaceLoop] at h
    cases hf : re.find (rest.length + 1) rest with
    | none => rw [hf] at h; simp at h
    | some x =>
      obtain ⟨sk, m, after⟩ := x
      rw [hf] at h
      simp only at h
      split at h
      · rename_i e1 hout
        simp only [Except.error.injEq] at h
        subst h
        split_ifs at hout with hd
        · exact ⟨m, hout⟩
      · rename_i o hout
        split at h
        · rename_i e2 htail
          simp only [Except.error.injEq] at h
          subst h
          split_ifs at htail
          · exact ih _ _ _ htail
          · exact ih _ _ _ htail
        · cases h

theorem unhide_error (lo hi : Nat) (m : Bytes) (e : Failure) (h : unhide lo hi m = .error e) :
    e = .panic ∨ e = .decodeError := by
  unfold unhide at h
  split at h
  · simp only [Except.error.injEq] at h; exact Or.inl h.symm
  · split at h
    · simp only [Except.error.injEq] at h; exact Or.inr h.symm
    · cases h

theorem mustCompile_error (pat : Bytes) (e : Failure) (h : mustCompile pat = .error e) :
    e = .panic ∨ e = .unmodelled := by
  unfold mustCompile at h
  split at h
  · cases h
  · simp only [Except.error.injEq] at h; exact Or.inl h.symm
  · simp only [Except.error.injEq] at h; exact Or.inr h.symm

theorem rawPass_error (ns : Bytes) (k : Nat) (t : Bytes) (e : Failure)
    (h : rawPass ns k t = .error e) : e = .panic ∨ e = .unmodelled ∨ e = .decodeError := by
  unfold rawPass at h
  split at h
  · rename_i e1 hc
    simp only [Except.error.injEq] at h
    subst h
    rcases mustCompile_error _ _ hc with h | h
    · exact Or.inl h
    · exact Or.inr (Or.inl h)
  · obtain ⟨m, hm⟩ := replaceLoop_error _ _ _ _ _ _ _ h
    rcases unhide_error _ _ _ _ hm with h | h
    · exact Or.inl h
    · exact Or.inr (Or.inr h)

theorem escPass_error (ns : Bytes) (k : Nat) (t : Bytes) (e : Failure)
    (h : escPass ns k t = .error e) : e = .panic ∨ e = .unmodelled ∨ e = .decodeError := by
  unfold escPass at h
  split at h
  · rename_i e1 hc
    simp only [Except.error.injEq] at h
    subst h
    rcases mustCompile_error _ _ hc with h | h
    · exact Or.inl h
    · exact Or.inr (Or.inl h)
  · obtain ⟨m, hm⟩ := replaceLoop_error _ _ _ _ _ _ _ h
    rcases unhide_error _ _ _ _ hm with h | h
    · exact Or.inl h
    · exact Or.inr (Or.inr h)

/-- The restorer fails only by a panic, a pattern outside the model or a decode error. -/
theorem restoreLoop_error (ns : Bytes) (n k : Nat) (text : Bytes) (e : Failure)
    (h : restoreLoop ns n k text = .error e) :
    e = .panic ∨ e = .unmodelled ∨ e = .decodeError := by
  induction n generalizing k text with
  | zero => simp [restoreLoop] at h
  | succ n ih =>
    rw [restoreLoop] at h
    split at h
    · rename_i e1 h1
      simp only [Except.error.injEq] at h
      subst h
      exact rawPass_error _ _ _ _ h1
    · split at h
      · rename_i e2 h2
        simp only [Except.error.injEq] at h
        subst h
        exact escPass_error _ _ _ _ h2
      · exact ih _ _ h

/-- The protector on a tag list of even length whose non-empty pairs are good: it ends
with the failure of the tag check when some pair has an empty marker, and succeeds
otherwise. -/
theorem protectLoop_check (ns : Bytes) (tags : List Bytes) (k : Nat) (buf : Bytes)
    (heven : tags.length % 2 = 0)
    (hgood : ∀ p ∈ pairsOf tags, p.1 ≠ [] → p.2 ≠ [] → goodPair p = true) :
    (hasEmptyTag tags = true → protectLoop ns tags k buf = .error .emptyTag) ∧
      (hasEmptyTag tags = false → ∃ out, protectLoop ns tags k buf = .ok out) := by
  induction tags using pairsOf.induct generalizing k buf with
  | case1 t0 t1 rest ih =>
    have hev : rest.length % 2 = 0 := by simp only [List.length_cons] at heven; omega
    have hg2 : ∀ p ∈ pairsOf rest, p.1 ≠ [] → p.2 ≠ [] → goodPair p = true :=
      fun p hp => hgood p (by simp [pairsOf, hp])
    by_cases hemp : trimSpace t0 = [] ∨ trimSpace t1 = []
    · constructor
      · intro _
        rw [protectLoop, if_pos hemp]
      · intro h
        simp only [hasEmptyTag, pairsOf, List.any_cons, Bool.or_eq_false_iff,
          List.isEmpty_eq_false] at h
        rcases hemp with h0 | h0 <;> rw [h0] at h <;> simp at h
    · have hne : trimSpace t0 ≠ [] ∧ trimSpace t1 ≠ [] := by
        constructor
        · intro h; exact hemp (Or.inl h)
        · intro h; exact hemp (Or.inr h)
      have hg := goodPair_spec _ (hgood (trimSpace t0, trimSpace t1) (by simp [pairsOf])
        hne.1 hne.2)
      have hpp := protectPair_eq_ref ns k (trimSpace t0) (trimSpace t1) buf hg.1 hg.2.2.1 hg.2.1
        (asciiHead_cons _ hg.2.2.2.1)
      have hrest : hasEmptyTag (t0 :: t1 :: rest) = hasEmptyTag rest := by
        simp only [hasEmptyTag, pairsOf, List.any_cons]
        have e0 : (trimSpace t0).isEmpty = false := by
          simpa [List.isEmpty_eq_false] using hne.1
        have e1 : (trimSpace t1).isEmpty = false := by
          simpa [List.isEmpty_eq_false] using hne.2
        rw [e0, e1]; rfl
      rw [hrest, protectLoop, if_neg hemp, hpp]
      simp only
      exact ih (k + 1) _ hev hg2
  | case2 tags hne =>
    match tags, hne with
    | [], _ =>
      exact ⟨fun h => by simp [hasEmptyTag, pairsOf] at h, fun _ => ⟨buf, rfl⟩⟩
    | [_], _ => simp at heven
    | t0 :: t1 :: rest, hne => exact absurd rfl (hne t0 t1 rest)

/-- C6, amended. For every `-i` value whose pairs with two non-empty markers are good
(the markers are texts and the end marker starts with an ASCII character), every
namespace, document step and file: the run ends with the failure for an odd tag list
exactly when the comma-separated list has odd length, and with the failure for an
invalid pair exactly when the list has even length and some pair has a start or end
marker that is empty after trimming; both write nothing. -/
theorem tag_check (ns ignoreTags : Bytes) (dom : Bytes → Option Bytes) (buf : Bytes)
    (hgood : ∀ p ∈ pairsOf (splitComma ignoreTags), p.1 ≠ [] → p.2 ≠ [] → goodPair p = true) :
    (run ns ignoreTags dom buf = .error .oddTags ↔ (splitComma ignoreTags).length % 2 = 1) ∧
      (run ns ignoreTags dom buf = .error .emptyTag ↔
        (splitComma ignoreTags).length % 2 = 0 ∧ hasEmptyTag (splitComma ignoreTags) = true) ∧
      ((run ns ignoreTags dom buf = .error .oddTags ∨
          run ns ignoreTags dom buf = .error .emptyTag) ↔
        ((splitComma ignoreTags).length % 2 = 1 ∨
          ∃ p ∈ pairsOf (splitComma ignoreTags), p.1 = [] ∨ p.2 = [])) := by
  have hrun_odd : (splitComma ignoreTags).length % 2 = 1 →
      run ns ignoreTags dom buf = .error .oddTags := by
    intro h; unfold run; simp only; rw [if_pos h]
  have hrun_even : (splitComma ignoreTags).length % 2 = 0 →
      (hasEmptyTag (splitComma ignoreTags) = true →
        run ns ignoreTags dom buf = .error .emptyTag) ∧
      (hasEmptyTag (splitComma ignoreTags) = false →
        run ns ignoreTags dom buf ≠ .error .emptyTag ∧
        run ns ignoreTags dom buf ≠ .error .oddTags) := by
    intro heven
    obtain ⟨h1, h2⟩ := protectLoop_check ns (splitComma ignoreTags) 0 buf heven hgood
    constructor
    · intro h
      unfold run; simp only
      rw [if_neg (by omega), h1 h]
    · intro h
      obtain ⟨out, hout⟩ := h2 h
      have hrun : run ns ignoreTags dom buf =
          match dom out with
          | none => .error .dom
          | some htmlstr => restoreLoop ns (((splitComma ignoreTags).length + 1) / 2) 0 htmlstr := by
        unfold run; simp only
        rw [if_neg (by omega), hout]
        try rfl
      rw [hrun]
      cases dom out with
      | none => exact ⟨by simp, by simp⟩
      | some htmlstr =>
        simp only
        constructor
        · intro he
          rcases restoreLoop_error _ _ _ _ _ he with h | h | h <;> cases h
        · intro he
          rcases restoreLoop_error _ _ _ _ _ he with h | h | h <;> cases h
  have hempty_iff : hasEmptyTag (splitComma ignoreTags) = true ↔
      ∃ p ∈ pairsOf (splitComma ignoreTags), p.1 = [] ∨ p.2 = [] := by
    simp [hasEmptyTag, List.any_eq_true, List.isEmpty_iff]
  have hparity : (splitComma ignoreTags).length % 2 = 1 ∨
      (splitComma ignoreTags).length % 2 = 0 := by omega
  have A : run ns ignoreTags dom buf = .error .oddTags ↔
      (splitComma ignoreTags).length % 2 = 1 := by
    constructor
    · intro h
      rcases hparity with hp | hp
      · exact hp
      · exfalso
        obtain ⟨h1, h2⟩ := hrun_even hp
        cases he : hasEmptyTag (splitComma ignoreTags) with
        | true => rw [h1 he] at h; cases h
        | false => exact (h2 he).2 h
    · exact hrun_odd
  have B : run ns ignoreTags dom buf = .error .emptyTag ↔
      (splitComma ignoreTags).length % 2 = 0 ∧ hasEmptyTag (splitComma ignoreTags) = true := by
    constructor
    · intro h
      rcases hparity with hp | hp
      · rw [hrun_odd hp] at h; cases h
      · refine ⟨hp, ?_⟩
        cases he : hasEmptyTag (splitComma ignoreTags) with
        | true => rfl
        | false => exact absurd h ((hrun_even hp).2 he).1
    · rintro ⟨hp, he⟩
      exact (hrun_even hp).1 he
  refine ⟨A, B, ?_⟩
  rw [A, B, hempty_iff]
  constructor
  · rintro (h | ⟨_, h⟩)
    · exact Or.inl h
    · exact Or.inr h
  · rintro (h | h)
    · exact Or.inl h
    · rcases hparity with hp | hp
      · exact Or.inl hp
      · exact Or.inr ⟨hp, h⟩

/-- C6, witness: `a,b,c` and the empty string are rejected as odd lists, `a,` (an empty
end marker) as an invalid pair, and the default `{%,%}` is not rejected. -/
theorem tag_check_witness :
    run flagHidden (str "a,b,c") some (str "x") = .error .oddTags ∧
      run flagHidden (str "") some (str "x") = .error .oddTags ∧
      run flagHidden (str "a,") some (str "x") = .error .emptyTag ∧
      ¬ (run flagHidden flagIgnoreTags some (str "x") = .error .oddTags ∨
          run flagHidden flagIgnoreTags some (str "x") = .error .emptyTag) :=
  ⟨(tag_check flagHidden (str "a,b,c") some (str "x") (by decide!)).1.mpr (by decide!),
    (tag_check flagHidden (str "") some (str "x") (by decide!)).1.mpr (by decide!),
    (tag_check flagHidden (str "a,") some (str "x") (by decide!)).2.1.mpr (by decide!),
    fun h => absurd
      ((tag_check flagHidden flagIgnoreTags some (str "x") (by decide!)).2.2.mp h)
      (by decide!)⟩

/-- C6, as stated, fails: for `-i '\xFF,x,a,'` the second pair has an empty end marker,
but the first pair is processed before the second is checked, and its start marker
`\xFF`, a byte that is no UTF-8, makes `regexp.MustCompile` panic: the run ends by the
panic, not by the exit of the tag check. The same happens for `-i 'a,é,b,'` (the end
marker `é` is the bytes `C3 A9`). -/
theorem tag_check_counterexample :
    (splitComma ([0xFF] ++ str ",x,a,")).length % 2 = 0 ∧
      hasEmptyTag (splitComma ([0xFF] ++ str ",x,a,")) = true ∧
      run flagHidden ([0xFF] ++ str ",x,a,") some (str "x") = .error .panic ∧
      (splitComma (str "a," ++ [0xC3, 0xA9] ++ str ",b,")).length % 2 = 0 ∧
      hasEmptyTag (splitComma (str "a," ++ [0xC3, 0xA9] ++ str ",b,")) = true ∧
      run flagHidden (str "a," ++ [0xC3, 0xA9] ++ str ",b,") some (str "x") = .error .panic := by
  decide!

/-! ## C2: stripping and the restored spans -/

/-- C2, as stated, fails: in `<p>{% <script>alert(1)</script> %}</p>` the script
element lies inside a protected span; the document step sees only the placeholder
comment, and the restorer puts the span back: the output contains the script element.
The same with the small library, which removes script elements, on the document written
out in full: the text that the program writes contains a script element. -/
theorem strip_inside_span_counterexample :
    run flagHidden flagIgnoreTags wrapDocument
        (str "<p>\x7b% <script>alert(1)</script> %\x7d</p>") =
      .ok (str "<html><head></head><body><p>\x7b% <script>alert(1)</script> %\x7d</p></body></html>") ∧
    protectLoop flagHidden (splitComma flagIgnoreTags) 0
        (str "<p>\x7b% <script>alert(1)</script> %\x7d</p>") =
      .ok (str "<p>" ++ encode flagHidden 0 (str "\x7b% <script>alert(1)</script> %\x7d") ++
        str "</p>") ∧
    occurs (str "<script") (str "<p>" ++
      encode flagHidden 0 (str "\x7b% <script>alert(1)</script> %\x7d") ++ str "</p>") = false ∧
    run flagHidden flagIgnoreTags (documentStep tinyQuery flagStrip)
        (str "<html><head></head><body><p>\x7b% <script>alert(1)</script> %\x7d</p></body></html>") =
      .ok (str "<html><head></head><body><p>\x7b% <script>alert(1)</script> %\x7d</p></body></html>") ∧
    textSelects tinyQuery (str "script")
        (str "<html><head></head><body><p>\x7b% <script>alert(1)</script> %\x7d</p></body></html>") =
      true := by
  decide!

/-- After the loop over the selectors no selector of the list matches an element, when
removing the elements that a selector matches leaves none that it matches and makes
none match another selector of the list. -/
theorem stripElements_clean (lib : Goquery) (sels : List Bytes)
    (hrem : ∀ s ∈ sels, ∀ d, lib.selects s (lib.findRemove s d) = false)
    (hkeep : ∀ s ∈ sels, ∀ s2 ∈ sels, ∀ d, lib.selects s d = false →
      lib.selects s (lib.findRemove s2 d) = false)
    (todo : List Bytes) (htodo : ∀ s ∈ todo, s ∈ sels) (done : List Bytes) (doc : lib.Doc)
    (hdone : ∀ s ∈ done, s ∈ sels ∧ lib.selects s doc = false) :
    ∀ s, s ∈ done ∨ s ∈ todo → lib.selects s (stripElements lib todo doc) = false := by
  induction todo generalizing done doc with
  | nil =>
    intro s hs
    rcases hs with hs | hs
    · exact (hdone s hs).2
    · simp at hs
  | cons s0 todo ih =>
    intro s hs
    have h0 : s0 ∈ sels := htodo s0 (by simp)
    have hstep : stripElements lib (s0 :: todo) doc =
        stripElements lib todo (lib.findRemove s0 doc) := rfl
    rw [hstep]
    apply ih (fun x hx => htodo x (by simp [hx])) (s0 :: done) (lib.findRemove s0 doc)
    · intro x hx
      rcases List.mem_cons.mp hx with rfl | hx
      · exact ⟨h0, hrem _ h0 doc⟩
      · exact ⟨(hdone x hx).1, hkeep x (hdone x hx).1 s0 h0 doc (hdone x hx).2⟩
    · rcases hs with hs | hs
      · exact Or.inl (by simp [hs])
      · rcases List.mem_cons.mp hs with rfl | hs
        · exact Or.inl (by simp)
        · exact Or.inr hs

theorem dropElements_clean (s : Bytes) (ps : List Piece) (depth : Nat) :
    (dropElements s depth ps).any (fun p => decide (p = .tagOpen s)) = false := by
  induction ps generalizing depth with
  | nil => cases depth <;> rfl
  | cons p ps ih =>
    cases depth with
    | zero =>
      rw [dropElements]
      split_ifs with h
      · exact ih 1
      · simp only [List.any_cons, ih 0, Bool.or_false, decide_eq_false_iff_not]
        exact h
    | succ d =>
      rw [dropElements]
      split_ifs
      · exact ih _
      · exact ih _
      · exact ih _

theorem dropElements_mem (s : Bytes) (ps : List Piece) (depth : Nat) :
    ∀ p ∈ dropElements s depth ps, p ∈ ps := by
  induction ps generalizing depth with
  | nil => cases depth <;> simp [dropElements]
  | cons q ps ih =>
    intro p hp
    cases depth with
    | zero =>
      rw [dropElements] at hp
      split_ifs at hp
      · exact List.mem_cons_of_mem _ (ih 1 p hp)
      · rcases List.mem_cons.mp hp with rfl | hp
        · simp
        · exact List.mem_cons_of_mem _ (ih 0 p hp)
    | succ d =>
      rw [dropElements] at hp
      split_ifs at hp
      · exact List.mem_cons_of_mem _ (ih _ p hp)
      · exact List.mem_cons_of_mem _ (ih _ p hp)
      · exact List.mem_cons_of_mem _ (ih _ p hp)

/-- The small library loads a document as the pieces of the text. -/
theorem tinyQuery_newDocument (buf : Bytes) :
    tinyQuery.newDocument buf = some (pieces buf.length buf) := rfl

/-- The small library removes what a selector matches. -/
theorem tinyQuery_removes (s : Bytes) (d : List Piece) :
    tinyQuery.selects s (tinyQuery.findRemove s d) = false :=
  dropElements_clean s d 0

/-- In the small library, removing elements makes no selector match. -/
theorem tinyQuery_keeps (s s2 : Bytes) (d : List Piece)
    (h : tinyQuery.selects s d = false) :
    tinyQuery.selects s (tinyQuery.findRemove s2 d) = false := by
  have h1 : ∀ p ∈ d, ¬ p = Piece.tagOpen s := by
    have h2 : d.any (fun p => decide (p = Piece.tagOpen s)) = false := h
    simpa using h2
  have h3 : ∀ p ∈ dropElements s2 0 d, ¬ p = Piece.tagOpen s :=
    fun p hp => h1 p (dropElements_mem s2 d 0 p hp)
  show (dropElements s2 0 d).any (fun p => decide (p = Piece.tagOpen s)) = false
  simpa using h3

/-- C2, amended. For a library in which removing the elements that a configured selector
matches leaves no element that it matches and makes no element match another configured
selector, a namespace that is a text without pattern metacharacters, and every input for
which the steps succeed: after the loop over the selectors no element of the document
matches any configured selector; the document step returns the text of that document;
the output of the program is that text with every placeholder that is still in it
replaced by its span (the run is aborted if one does not decode); when no placeholder
prefix is left in the text (every placeholder went with a stripped element, or there was
none) the output is exactly the text of the stripped document; and then, if the library
reads that text back with the same selectors matching, the output contains no element
that a configured selector matches. -/
theorem stripped_output (lib : Goquery) (ns ignoreTags strip buf prot : Bytes)
    (doc : lib.Doc) (ser : Bytes) (hns : isText ns = true) (hmeta : noMeta ns = true)
    (heven : (splitComma ignoreTags).length % 2 = 0)
    (hrem : ∀ s ∈ selectors strip, ∀ d, lib.selects s (lib.findRemove s d) = false)
    (hkeep : ∀ s ∈ selectors strip, ∀ s2 ∈ selectors strip, ∀ d,
      lib.selects s d = false → lib.selects s (lib.findRemove s2 d) = false)
    (hprot : protectLoop ns (splitComma ignoreTags) 0 buf = .ok prot)
    (hdoc : lib.newDocument prot = some doc)
    (hser : lib.html (stripElements lib (selectors strip) doc) = some ser) :
    (∀ s ∈ selectors strip,
        lib.selects s (stripElements lib (selectors strip) doc) = false) ∧
      documentStep lib strip prot = some ser ∧
      run ns ignoreTags (documentStep lib strip) buf =
        (match restoreRef ns (pairsOf (splitComma ignoreTags)).length 0 ser with
        | some out => .ok out
        | none => .error .decodeError) ∧
      (noTokens ns (pairsOf (splitComma ignoreTags)).length 0 ser = true →
        run ns ignoreTags (documentStep lib strip) buf = .ok ser) ∧
      (noTokens ns (pairsOf (splitComma ignoreTags)).length 0 ser = true →
        (∀ s ∈ selectors strip, textSelects lib s ser =
          lib.selects s (stripElements lib (selectors strip) doc)) →
        ∃ out, run ns ignoreTags (documentStep lib strip) buf = .ok out ∧
          ∀ s ∈ selectors strip, textSelects lib s out = false) := by
  have hstep : documentStep lib strip prot = some ser := by
    unfold documentStep
    rw [hdoc]
    exact hser
  have hrun : run ns ignoreTags (documentStep lib strip) buf =
      restoreLoop ns (pairsOf (splitComma ignoreTags)).length 0 ser := by
    unfold run
    simp only
    rw [if_neg (by omega), hprot]
    simp only
    rw [hstep, pairsOf_length _ heven]
  have hclean : ∀ s ∈ selectors strip,
      lib.selects s (stripElements lib (selectors strip) doc) = false := by
    intro s hs
    exact stripElements_clean lib (selectors strip) hrem hkeep (selectors strip)
      (fun _ h => h) [] doc (by simp) s (Or.inr hs)
  have hnone : noTokens ns (pairsOf (splitComma ignoreTags)).length 0 ser = true →
      run ns ignoreTags (documentStep lib strip) buf = .ok ser := by
    intro h
    rw [hrun]
    exact restoreLoop_noTokens ns hns hmeta _ 0 ser h
  refine ⟨hclean, hstep, ?_, hnone, ?_⟩
  · rw [hrun]
    exact restoreLoop_eq_restoreRef ns hns hmeta _ 0 ser
  · intro h hback
    exact ⟨ser, hnone h, fun s hs => (hback s hs).trans (hclean s hs)⟩

/-- C2, witness: the default configuration and the small library. For the basic scenario
of the specification, written out with its `head`, the script element is removed and
the two spans are back in `p`; for a document whose script element holds a span, the
placeholder goes with the element, the output is the text of the stripped document and
contains no element that a configured selector matches. -/
theorem stripped_output_witness :
    isText flagHidden = true ∧ noMeta flagHidden = true ∧
      selectors flagStrip =
        [str "script", str "noscript", str "link[rel=\x22preload\x22][as=\x22style\x22]"] ∧
      run flagHidden flagIgnoreTags (documentStep tinyQuery flagStrip)
          (str "<html><head></head><body><script>alert(1)</script><p>\x7b% if x %\x7dhi\x7b% endif %\x7d</p></body></html>") =
        .ok (str "<html><head></head><body><p>\x7b% if x %\x7dhi\x7b% endif %\x7d</p></body></html>") ∧
      textSelects tinyQuery (str "script")
          (str "<html><head></head><body><p>\x7b% if x %\x7dhi\x7b% endif %\x7d</p></body></html>") =
        false ∧
      run flagHidden flagIgnoreTags (documentStep tinyQuery flagStrip)
          (str "<html><head><script>\x7b% x %\x7d</script></head><body><p>hi</p></body></html>") =
        .ok (str "<html><head></head><body><p>hi</p></body></html>") ∧
      ∃ out, run flagHidden flagIgnoreTags (documentStep tinyQuery flagStrip)
          (str "<html><head><script>\x7b% x %\x7d</script></head><body><p>hi</p></body></html>") =
          .ok out ∧
        ∀ s ∈ selectors flagStrip, textSelects tinyQuery s out = false :=
  have h2 := stripped_output tinyQuery flagHidden flagIgnoreTags flagStrip
      (str "<html><head><script>\x7b% x %\x7d</script></head><body><p>hi</p></body></html>")
      (str "<html><head><script>" ++ encode flagHidden 0 (str "\x7b% x %\x7d") ++
        str "</script></head><body><p>hi</p></body></html>")
      _
      (str "<html><head></head><body><p>hi</p></body></html>")
      (by decide) (by decide) (by decide)
      (fun s _ d => tinyQuery_removes s d) (fun s _ s2 _ d h => tinyQuery_keeps s s2 d h)
      (by decide!) (tinyQuery_newDocument _) (by decide!)
  ⟨by decide, by decide, by decide!,
    (stripped_output tinyQuery flagHidden flagIgnoreTags flagStrip
      (str "<html><head></head><body><script>alert(1)</script><p>\x7b% if x %\x7dhi\x7b% endif %\x7d</p></body></html>")
      (str "<html><head></head><body><script>alert(1)</script><p>" ++
        encode flagHidden 0 (str "\x7b% if x %\x7d") ++ str "hi" ++
        encode flagHidden 0 (str "\x7b% endif %\x7d") ++ str "</p></body></html>")
      _
      (str "<html><head></head><body><p>" ++
        encode flagHidden 0 (str "\x7b% if x %\x7d") ++ str "hi" ++
        encode flagHidden 0 (str "\x7b% endif %\x7d") ++ str "</p></body></html>")
      (by decide) (by decide) (by decide)
      (fun s _ d => tinyQuery_removes s d) (fun s _ s2 _ d h => tinyQuery_keeps s s2 d h)
      (by decide!) (tinyQuery_newDocument _) (by decide!)).2.2.1.trans (by decide!),
    by decide!, h2.2.2.2.1 (by decide!), h2.2.2.2.2 (by decide!) (by decide!)⟩

/-! ## C9: the format of a token -/

theorem digitChar_value : ∀ k : Fin 10, (byteOfChar (Nat.digitChar k.val)).val - 48 = k.val := by
  decide

theorem foldl_digits_acc (cs : List Char) (a : Nat) :
    (cs.map byteOfChar).foldl (fun acc b => acc * 10 + (b.val - 48)) a =
      a * 10 ^ cs.length + (cs.map byteOfChar).foldl (fun acc b => acc * 10 + (b.val - 48)) 0 := by
  induction cs generalizing a with
  | nil => simp
  | cons c cs ih =>
    simp only [List.map_cons, List.foldl_cons, List.length_cons]
    rw [ih, ih (0 * 10 + _)]
    ring

theorem toDigitsCore_value (fuel n : Nat) (ds : List Char) (h : n < fuel) :
    decimalValue ((Nat.toDigitsCore 10 fuel n ds).map byteOfChar) =
      n * 10 ^ ds.length + decimalValue (ds.map byteOfChar) := by
  induction fuel generalizing n ds with
  | zero => omega
  | succ fuel ih =>
    have hd := digitChar_value ⟨n % 10, Nat.mod_lt _ (by decide)⟩
    simp only at hd
    have hcons : decimalValue ((Nat.digitChar (n % 10) :: ds).map byteOfChar) =
        (n % 10) * 10 ^ ds.length + decimalValue (ds.map byteOfChar) := by
      unfold decimalValue
      simp only [List.map_cons, List.foldl_cons]
      rw [foldl_digits_acc, hd]
      ring
    simp only [Nat.toDigitsCore]
    split_ifs with h0
    · rw [hcons]
      have : n = n % 10 := by omega
      rw [← this]
    · rw [ih (n / 10) _ (by omega), hcons, List.length_cons]
      have : n = n / 10 * 10 + n % 10 := by omega
      conv_rhs => rw [this]
      ring

/-- The digits printed for a number denote that number. -/
theorem decimalValue_decimal (n : Nat) : decimalValue (decimal n) = n := by
  unfold decimal Nat.toDigits
  rw [toDigitsCore_value _ _ _ (Nat.lt_succ_self n)]
  simp [decimalValue]

/-- C9, as stated, fails: the token for the default namespace, pair 0 and the payload
`{% x %}` is not `<!-- ___HTML_STRIP_0___ eyUgeCAlfQ== -->`; the constant `tagPrefix`
puts `XXX_` before the namespace. -/
theorem encode_format_counterexample :
    encode flagHidden 0 (str "\x7b% x %\x7d") ≠
        str "<!-- ___" ++ flagHidden ++ str "_" ++ decimal 0 ++ str "___ " ++
          b64encode (str "\x7b% x %\x7d") ++ str " -->" ∧
      encode flagHidden 0 (str "\x7b% x %\x7d") =
        str "<!-- ___XXX_HTML_STRIP_0___ eyUgeCAlfQ== -->" := by
  decide

/-- C9, amended. The token `encode ns i p` is exactly `<!-- ___XXX_`, the namespace,
`_`, the decimal pair index, `___ `, the standard base64 of the payload and ` -->`; the
pair index is written with the digits `0` to `9` that denote it, and the protector gives
the pair at the positions `2k` and `2k + 1` of the tag list the index `k`. -/
theorem encode_format (ns : Bytes) (i : Nat) (p : Bytes) :
    encode ns i p =
        str "<!-- ___XXX_" ++ ns ++ str "_" ++ decimal i ++ str "___ " ++ b64encode p ++
          str " -->" ∧
      (∀ b ∈ decimal i, 48 ≤ b.val ∧ b.val ≤ 57) ∧ decimalValue (decimal i) = i ∧
      (∀ (t0 t1 : Bytes) (rest : List Bytes) (buf : Bytes),
        protectLoop ns (t0 :: t1 :: rest) i buf =
          if trimSpace t0 = [] ∨ trimSpace t1 = [] then .error .emptyTag
          else
            match protectPair ns i (trimSpace t0) (trimSpace t1) buf with
            | .error e => .error e
            | .ok buf1 => protectLoop ns rest (i + 1) buf1) := by
  refine ⟨?_, decimal_digits i, decimalValue_decimal i, ?_⟩
  · simp [encode, prefixOf, tagSuffix]
  · intro t0 t1 rest buf
    rw [protectLoop]

/-! ## C15: the stop character is the first byte of the end marker -/

/-- A byte above `0x7F` followed by an ASCII byte is an encoding error. -/
theorem decodeRune_lone (c y : Byte) (B : Bytes) (hc : 128 ≤ c.val) (hy : y.val < 128) :
    decodeRune (c :: y :: B) = (runeError, 1) := by
  have hy1 : isCont y = false := by
    cases h : isCont y with
    | false => rfl
    | true => have := isCont_ge y h; omega
  have h3 : accept3 c y = false := by
    cases h : accept3 c y with
    | false => rfl
    | true => have := (accept3_ge c y h).1; omega
  have h4 : accept4 c y = false := by
    cases h : accept4 c y with
    | false => rfl
    | true => have := (accept4_ge c y h).1; omega
  have h0 : ¬ c.val < 128 := by omega
  rcases B with _ | ⟨b2, _ | ⟨b3, r3⟩⟩ <;> simp [decodeRune, hy1, h3, h4, h0]

/-- Bytes in which a byte above `0x7F` stands between two ASCII bytes are not valid
UTF-8. -/
theorem validUTF8Aux_lone (x c y : Byte) (B : Bytes) (hx : x.val < 128) (hc : 128 ≤ c.val)
    (hy : y.val < 128) (fuel : Nat) (A : Bytes) :
    validUTF8Aux fuel (A ++ x :: c :: y :: B) = false := by
  induction fuel generalizing A with
  | zero => cases A <;> rfl
  | succ fuel ih =>
    cases A with
    | nil =>
      simp only [List.nil_append, validUTF8Aux, decodeRune_ascii x _ hx]
      rw [if_neg (by simp only [runeError]; omega)]
      cases fuel with
      | zero => rfl
      | succ fuel =>
        simp only [validUTF8Aux, decodeRune_lone c y B hc hy]
        simp
    | cons a A1 =>
      show validUTF8Aux (fuel + 1) (a :: (A1 ++ x :: c :: y :: B)) = false
      rw [validUTF8Aux]
      split_ifs with h
      · rfl
      · have hsp := decodeRune_spec a (A1 ++ x :: c :: y :: B)
        have hcont := decodeRune_tail_cont a (A1 ++ x :: c :: y :: B)
        have hle : (decodeRune (a :: (A1 ++ x :: c :: y :: B))).2 - 1 ≤ A1.length := by
          by_contra hlt
          have hmem : x ∈ (A1 ++ x :: c :: y :: B).take
              ((decodeRune (a :: (A1 ++ x :: c :: y :: B))).2 - 1) := by
            rw [List.take_append_eq_append_take]
            apply List.mem_append_right
            obtain ⟨n, hn⟩ : ∃ n, (decodeRune (a :: (A1 ++ x :: c :: y :: B))).2 - 1 - A1.length
                = n + 1 := ⟨_, (Nat.sub_add_cancel (by omega)).symm⟩
            rw [hn, List.take_succ_cons]
            simp
          have := isCont_ge x (hcont x hmem)
          omega
        obtain ⟨w, hw⟩ : ∃ w, (decodeRune (a :: (A1 ++ x :: c :: y :: B))).2 = w + 1 :=
          ⟨_, (Nat.sub_add_cancel hsp.1).symm⟩
        rw [hw, List.drop_succ_cons, List.drop_append_of_le_length (by omega)]
        exact ih _

/-- For an end marker whose first byte is above `0x7F` the pattern of the protector is
not valid UTF-8. -/
theorem spanPattern_invalid (st e1 : Bytes) (c : Byte) (hc : 128 ≤ c.val) :
    validUTF8 (spanPattern st (c :: e1)) = false := by
  have hq : quoteMeta [c] = [c] := quoteMeta_high [c] (by simpa using hc)
  have h : spanPattern st (c :: e1) =
      (quoteMeta st ++ [91]) ++ 94 :: c :: 93 :: (43 :: quoteMeta (c :: e1)) := by
    rw [spanPattern_eq, hq]; simp
  rw [h]
  exact validUTF8Aux_lone 94 c 93 _ (by decide) hc (by decide) _ _

/-- The protection pass of such a pair panics in `regexp.MustCompile`. -/
theorem protectPair_nonascii (ns : Bytes) (k : Nat) (st e1 buf : Bytes) (c : Byte)
    (hc : 128 ≤ c.val) : protectPair ns k st (c :: e1) buf = .error .panic := by
  have h : mustCompile (spanPattern st (c :: e1)) = .error .panic := by
    unfold mustCompile compile
    rw [spanPattern_invalid st e1 c hc]
    rfl
  unfold protectPair
  rw [h]

/-- C15, the code at the failing inputs. For every start marker and every end marker
whose first byte is above `0x7F`, that is every end marker that starts with a non-ASCII
character, the pattern built on line 65 from `et[:1]` holds the first byte of the end
marker alone in the class: it is not valid UTF-8, `regexp.Compile` refuses it and the
protection pass panics in `regexp.MustCompile`, whatever the buffer; and a tag list that
starts with such a pair, both markers non-empty after trimming, passes the check of
line 59 and ends in that panic. -/
theorem stop_byte_not_character (ns : Bytes) (k : Nat) (st e1 buf : Bytes) (c : Byte)
    (hc : 128 ≤ c.val) :
    validUTF8 (spanPattern st (c :: e1)) = false ∧
      compile (spanPattern st (c :: e1)) = .error .bad ∧
      protectPair ns k st (c :: e1) buf = .error .panic ∧
      ∀ (t0 t1 : Bytes) (rest : List Bytes), trimSpace t0 = st → st ≠ [] →
        trimSpace t1 = c :: e1 → protectLoop ns (t0 :: t1 :: rest) k buf = .error .panic := by
  refine ⟨spanPattern_invalid st e1 c hc, ?_, protectPair_nonascii ns k st e1 buf c hc, ?_⟩
  · unfold compile
    rw [spanPattern_invalid st e1 c hc]
    rfl
  · intro t0 t1 rest h0 hne h1
    rw [protectLoop, h0, h1, if_neg (by simp [hne]), protectPair_nonascii ns k st e1 buf c hc]

/-- C15, witness: the pair `{%`, `é` (the end marker is the bytes `C3 A9`, a text of one
character) on the buffer `{% x é`: the pass panics, and so does the program run with
`-i '{%,é'`. -/
theorem stop_byte_not_character_witness :
    128 ≤ (0xC3 : Byte).val ∧ isText [0xC3, 0xA9] = true ∧
      protectPair flagHidden 0 (str "\x7b%") [0xC3, 0xA9] (str "\x7b% x " ++ [0xC3, 0xA9]) =
        .error .panic ∧
      run flagHidden (str "\x7b%," ++ [0xC3, 0xA9]) some (str "\x7b% x " ++ [0xC3, 0xA9]) =
        .error .panic :=
  ⟨by decide, by decide,
    (stop_byte_not_character flagHidden 0 (str "\x7b%") [0xA9] (str "\x7b% x " ++ [0xC3, 0xA9])
      0xC3 (by decide)).2.2.1, by decide⟩

/-! ## Compiling: markers that are not texts -/

/-- The rune at a byte above `0x7F` is decided by that byte and the bytes above `0x7F`
that follow it directly, at most three of them. -/
theorem decodeRune_high (b : Byte) (X : Bytes) (hb : 128 ≤ b.val) :
    decodeRune (b :: X) =
      decodeRune (b :: (X.takeWhile (fun x => decide (128 ≤ x.val))).take 3) := by
  have h0 : ¬ b.val < 128 := by omega
  have hlow : ∀ x : Byte, ¬ 128 ≤ x.val →
      isCont x = false ∧ accept3 b x = false ∧ accept4 b x = false := by
    intro x hx
    refine ⟨?_, ?_, ?_⟩
    · cases h : isCont x with
      | false => rfl
      | true => exact absurd (isCont_ge x h) hx
    · cases h : accept3 b x with
      | false => rfl
      | true => exact absurd (accept3_ge b x h).1 hx
    · cases h : accept4 b x with
      | false => rfl
      | true => exact absurd (accept4_ge b x h).1 hx
  rcases X with _ | ⟨x1, X⟩
  · rfl
  by_cases h1 : 128 ≤ x1.val
  swap
  · obtain ⟨l1, l2, l3⟩ := hlow x1 h1
    rcases X with _ | ⟨x2, _ | ⟨x3, X⟩⟩ <;>
      simp [decodeRune, List.takeWhile_cons, h0, h1, l1, l2, l3]
  rcases X with _ | ⟨x2, X⟩
  · simp [decodeRune, List.takeWhile_cons, h0, h1]
  by_cases h2 : 128 ≤ x2.val
  swap
  · obtain ⟨l1, l2, l3⟩ := hlow x2 h2
    rcases X with _ | ⟨x3, X⟩ <;>
      simp [decodeRune, List.takeWhile_cons, h0, h1, h2, l1, l2, l3]
  rcases X with _ | ⟨x3, X⟩
  · simp [decodeRune, List.takeWhile_cons, h0, h1, h2]
  by_cases h3 : 128 ≤ x3.val
  · simp [decodeRune, List.takeWhile_cons, h0, h1, h2, h3]
  · obtain ⟨l1, l2, l3⟩ := hlow x3 h3
    simp [decodeRune, List.takeWhile_cons, h0, h1, h2, h3, l1, l2, l3]

theorem takeWhile_high_quoteMeta (rest t : Bytes) (ht : ∀ y, t.head? = some y → y.val < 128) :
    (quoteMeta rest ++ t).takeWhile (fun x => decide (128 ≤ x.val)) =
      rest.takeWhile (fun x => decide (128 ≤ x.val)) := by
  induction rest with
  | nil =>
    cases t with
    | nil => rfl
    | cons y t =>
      have := ht y rfl
      simp [quoteMeta, List.takeWhile_cons]
      omega
  | cons x r ih =>
    have hq : quoteMeta (x :: r) = quoteMeta [x] ++ quoteMeta r := quoteMeta_append [x] r
    rw [hq, List.append_assoc]
    by_cases hx : 128 ≤ x.val
    · rw [quoteMeta_high [x] (by simpa using hx)]
      simp only [List.cons_append, List.nil_append, List.takeWhile_cons, hx, decide_True,
        if_true, ih]
    · by_cases hm : isMeta x = true
      · have : quoteMeta [x] = [92, x] := by simp [quoteMeta, hm]
        rw [this]
        simp [List.takeWhile_cons, hx, show ((92 : Byte) : Nat) < 128 by decide]
      · have : quoteMeta [x] = [x] := by simp [quoteMeta, hm]
        rw [this]
        simp [List.takeWhile_cons, hx]

/-- Quoting does not change the rune at a byte above `0x7F`. -/
theorem decodeRune_quoted (b : Byte) (rest t : Bytes) (hb : 128 ≤ b.val)
    (ht : ∀ y, t.head? = some y → y.val < 128) :
    decodeRune (b :: (quoteMeta rest ++ t)) = decodeRune (b :: rest) := by
  rw [decodeRune_high b _ hb, takeWhile_high_quoteMeta rest t ht, ← decodeRune_high b _ hb]

theorem consToks_error (cs : List Bytes) (e : CompileError) :
    consToks cs (.error e) = .error e := by
  induction cs with
  | nil => rfl
  | cons c cs ih =>
    simp only [consToks, List.foldr_cons] at ih ⊢
    rw [ih]
    rfl

/-- The lexical pass fails on the quoted form of bytes that are not a text, whatever
follows them, if it is nothing or starts with an ASCII character. -/
theorem lex_quoted_bad (fuel : Nat) (s : Bytes) (hlen : s.length ≤ fuel)
    (h : isTextAux fuel s = false) (t : Bytes) (ht : ∀ y, t.head? = some y → y.val < 128)
    (n : Nat) : ∃ e, lex n (quoteMeta s ++ t) = .error e := by
  induction fuel using Nat.strong_induction_on generalizing s n with
  | _ fuel ih =>
    cases s with
    | nil => cases fuel <;> simp [isTextAux] at h
    | cons b rest =>
      cases fuel with
      | zero => simp at hlen
      | succ fuel =>
        have hq : quoteMeta (b :: rest) ≠ [] := by
          have := quoteMeta_length_pos b rest
          intro h0; rw [h0] at this; simp at this
        cases n with
        | zero =>
          obtain ⟨q0, q1, hq1⟩ := List.exists_cons_of_ne_nil hq
          rw [hq1]
          exact ⟨.unmodelled, rfl⟩
        | succ n =>
          by_cases hd : (decodeRune (b :: rest)).1 = runeError
          · have hb : 128 ≤ b.val := by
              by_contra hlt
              rw [decodeRune_ascii b rest (by omega)] at hd
              simp only [runeError] at hd
              omega
            have hqb : quoteMeta (b :: rest) = b :: quoteMeta rest := by
              have := quoteMeta_append [b] rest
              rw [quoteMeta_high [b] (by simpa using hb)] at this
              exact this
            rw [hqb, List.cons_append, lex_cons]
            have n1 : b ≠ 92 := by intro h; rw [h] at hb; revert hb; decide
            have n2 : b ≠ 46 := by intro h; rw [h] at hb; revert hb; decide
            have n3 : b ≠ 42 := by intro h; rw [h] at hb; revert hb; decide
            have n4 : b ≠ 43 := by intro h; rw [h] at hb; revert hb; decide
            have n5 : b ≠ 63 := by intro h; rw [h] at hb; revert hb; decide
            have n6 : b ≠ 124 := by intro h; rw [h] at hb; revert hb; decide
            have n7 : b ≠ 40 := by intro h; rw [h] at hb; revert hb; decide
            have n8 : b ≠ 41 := by intro h; rw [h] at hb; revert hb; decide
            have n9 : b ≠ 91 := by intro h; rw [h] at hb; revert hb; decide
            have n10 : b ≠ 123 := by intro h; rw [h] at hb; revert hb; decide
            have n11 : b ≠ 94 := by intro h; rw [h] at hb; revert hb; decide
            have n12 : b ≠ 36 := by intro h; rw [h] at hb; revert hb; decide
            have n13 : ¬ b.val < 128 := by omega
            simp only [n1, n2, n3, n4, n5, n6, n7, n8, n9, n10, n11, n12, n13, if_false,
              or_self, decodeRune_quoted b rest t hb ht, hd, if_true]
            exact ⟨_, rfl⟩
          · have hr := isRune_take b rest hd
            have hsp := decodeRune_spec b rest
            have hrest : isTextAux fuel ((b :: rest).drop (runeWidth (b :: rest))) = false := by
              simp only [isTextAux, hd, ne_eq, not_false_eq_true, decide_True, Bool.true_and]
                at h
              exact h
            have hsplit : b :: rest = (b :: rest).take (runeWidth (b :: rest)) ++
                (b :: rest).drop (runeWidth (b :: rest)) := (List.take_append_drop _ _).symm
            have hlen2 : ((b :: rest).drop (runeWidth (b :: rest))).length ≤ fuel := by
              simp only [List.length_drop, List.length_cons, runeWidth] at hlen ⊢
              omega
            obtain ⟨e, he⟩ := ih fuel (Nat.lt_succ_self _) _ hlen2 hrest n
            refine ⟨e, ?_⟩
            rw [hsplit, quoteMeta_append, List.append_assoc, lex_quoted_rune _ hr, he]
            rfl

theorem compile_lex_error (pat : Bytes) (e : CompileError) (h : lex pat.length pat = .error e)
    (re : Regex) : compile pat ≠ .ok re := by
  unfold compile
  rw [h]
  split_ifs <;> simp

/-- The pattern of the protector compiles, in the modelled fragment, only for markers
that are texts, with an end marker that starts with an ASCII character. -/
theorem compile_spanPattern_ok (st e1 : Bytes) (c : Byte) (re : Regex)
    (h : compile (spanPattern st (c :: e1)) = .ok re) :
    isText st = true ∧ isText (c :: e1) = true ∧ c.val < 128 := by
  have hc : c.val < 128 := by
    by_contra hlt
    have := spanPattern_invalid st e1 c (by omega)
    simp [compile, this] at h
  have hst : isText st = true := by
    cases hs : isText st with
    | true => rfl
    | false =>
      obtain ⟨e, he⟩ := lex_quoted_bad st.length st (Nat.le_refl _) hs
        (91 :: 94 :: (quoteMeta [c] ++ 93 :: 43 :: (quoteMeta (c :: e1) ++ [])))
        (by intro y hy; simp at hy; rw [← hy]; decide)
        (spanPattern st (c :: e1)).length
      rw [← spanPattern_eq] at he
      exact absurd h (compile_lex_error _ e he re)
  refine ⟨hst, ?_, hc⟩
  cases het : isText (c :: e1) with
  | true => rfl
  | false =>
    obtain ⟨P, hP, hPl, hPlex⟩ := lex_quoted _ st hst
    obtain ⟨k, hk⟩ : ∃ k, (spanPattern st (c :: e1)).length = P.length + (k + 2) := by
      refine ⟨(spanPattern st (c :: e1)).length - P.length - 2, ?_⟩
      rw [spanPattern_eq]
      simp only [List.length_append, List.length_cons, List.length_nil]
      omega
    obtain ⟨e, he⟩ := lex_quoted_bad (c :: e1).length (c :: e1) (Nat.le_refl _) het []
      (by intro y hy; simp at hy) k
    have hlex : lex (spanPattern st (c :: e1)).length (spanPattern st (c :: e1)) = .error e := by
      rw [hk, spanPattern_eq, hPlex,
        lex_class_plus c hc _ _ (quoteMeta_head_ne (c :: e1) [] (by simp)), he]
      rw [show consTok (Tok.cls true [(c.val, c.val)])
        (consTok (Tok.plus true) (Except.error e)) = .error e from rfl, consToks_error]
    exact absurd h (compile_lex_error _ e hlex re)

/-- A protection pass that does not fail is the reference replacement: it does not fail
only for markers that are texts with an end marker that starts with an ASCII
character. -/
theorem protectPair_ok (ns : Bytes) (k : Nat) (st et buf out : Bytes) (hst : st ≠ [])
    (het : et ≠ []) (h : protectPair ns k st et buf = .ok out) :
    isText st = true ∧ isText et = true ∧ asciiHead et = true ∧
      out = protectRef ns k st et buf := by
  obtain ⟨c, e1, rfl⟩ := List.exists_cons_of_ne_nil het
  have hre : ∃ re, compile (spanPattern st (c :: e1)) = .ok re := by
    cases hcmp : compile (spanPattern st (c :: e1)) with
    | ok re => exact ⟨re, rfl⟩
    | error e =>
      unfold protectPair mustCompile at h
      rw [hcmp] at h
      cases e <;> simp at h
  obtain ⟨re, hre⟩ := hre
  obtain ⟨h1, h2, h3⟩ := compile_spanPattern_ok st e1 c re hre
  refine ⟨h1, h2, by simpa [asciiHead] using h3, ?_⟩
  rw [protectPair_eq_ref ns k st (c :: e1) buf h1 h2 hst ⟨c, e1, rfl, h3⟩] at h
  exact (Except.ok.inj h).symm

/-! ## C13: the payload of a token -/

/-- The length of an encoding is a multiple of four. -/
theorem b64encode_length (p : Bytes) : (b64encode p).length % 4 = 0 := by
  induction p using b64encode.induct with
  | case1 => rfl
  | case2 a => simp [b64encode]
  | case3 a b => simp [b64encode]
  | case4 a b c rest ih =>
    simp only [b64encode, List.length_cons]
    omega

set_option maxRecDepth 100000 in
/-- The base64 characters are the letters, the digits, `+`, `/` and `=`; none of them is
a space or one of the five characters that `html.EscapeString` replaces. -/
theorem isB64Char_alphabet : ∀ c : Byte, isB64Char c = true →
    ((65 ≤ c.val ∧ c.val ≤ 90) ∨ (97 ≤ c.val ∧ c.val ≤ 122) ∨ (48 ≤ c.val ∧ c.val ≤ 57) ∨
      c.val = 43 ∨ c.val = 47 ∨ c.val = 61) ∧
    c ≠ 32 ∧ c ≠ 60 ∧ c ≠ 62 ∧ c ≠ 38 ∧ c ≠ 39 ∧ c ≠ 34 := by
  decide

/-- C13. For every pair of non-empty markers and every buffer on which the protection
pass of the pair does not fail, the pass has replaced each span it found by the token of
that span and kept every other byte, and a span is never empty. The token of every
non-empty text is the prefix, a payload and the suffix, where the payload is the
standard base64 of the text: it is not empty, its length is a multiple of 4, each of its
characters is a letter, a digit, `+`, `/` or `=`, none is a space or one of `<`, `>`,
`&`, `'`, `"`, and `html.EscapeString` leaves the payload as it is. -/
theorem payload_invariant (ns : Bytes) (k : Nat) (st et buf out : Bytes)
    (hst : st ≠ []) (het : et ≠ []) (hok : protectPair ns k st et buf = .ok out) :
    out = replaceSpans st et (encode ns k) buf.length buf ∧
      (∀ inp m after, spanAt st et inp = some (m, after) → m ≠ []) ∧
      ∀ m, m ≠ [] →
        ∃ payload, encode ns k m = prefixOf ns k ++ payload ++ tagSuffix ∧
          payload = b64encode m ∧ payload ≠ [] ∧ payload.length % 4 = 0 ∧
          (∀ c ∈ payload,
            ((65 ≤ c.val ∧ c.val ≤ 90) ∨ (97 ≤ c.val ∧ c.val ≤ 122) ∨
              (48 ≤ c.val ∧ c.val ≤ 57) ∨ c.val = 43 ∨ c.val = 47 ∨ c.val = 61) ∧
            c ≠ 32 ∧ c ≠ 60 ∧ c ≠ 62 ∧ c ≠ 38 ∧ c ≠ 39 ∧ c ≠ 34) ∧
          escapeString payload = payload := by
  refine ⟨(protectPair_ok ns k st et buf out hst het hok).2.2.2, ?_, ?_⟩
  · intro inp m after hsp h
    have := (spanAt_length st et inp m after hsp).2
    rw [h] at this
    simp at this
  · intro m hm
    exact ⟨b64encode m, rfl, rfl, b64encode_ne_nil m hm, b64encode_length m,
      fun c hc => isB64Char_alphabet c (b64encode_chars m c hc), escapeString_b64 m⟩

/-- C13, witness: the default pair on `a{% x %}b`: the span `{% x %}` gets the payload
`eyUgeCAlfQ==`. -/
theorem payload_invariant_witness :
    str "\x7b%" ≠ [] ∧ str "%\x7d" ≠ [] ∧
      protectPair flagHidden 0 (str "\x7b%") (str "%\x7d") (str "a\x7b% x %\x7db") =
        .ok (str "a<!-- ___XXX_HTML_STRIP_0___ eyUgeCAlfQ== -->b") ∧
      str "a<!-- ___XXX_HTML_STRIP_0___ eyUgeCAlfQ== -->b" =
        replaceSpans (str "\x7b%") (str "%\x7d") (encode flagHidden 0) 9
          (str "a\x7b% x %\x7db") ∧
      spanAt (str "\x7b%") (str "%\x7d") (str "\x7b% x %\x7db") =
        some (str "\x7b% x %\x7d", str "b") ∧
      ∃ payload, encode flagHidden 0 (str "\x7b% x %\x7d") =
          prefixOf flagHidden 0 ++ payload ++ tagSuffix ∧
        payload = str "eyUgeCAlfQ==" ∧ payload ≠ [] ∧ payload.length % 4 = 0 :=
  have hok : protectPair flagHidden 0 (str "\x7b%") (str "%\x7d") (str "a\x7b% x %\x7db") =
      .ok (str "a<!-- ___XXX_HTML_STRIP_0___ eyUgeCAlfQ== -->b") := by decide!
  have h := payload_invariant flagHidden 0 (str "\x7b%") (str "%\x7d") (str "a\x7b% x %\x7db")
    (str "a<!-- ___XXX_HTML_STRIP_0___ eyUgeCAlfQ== -->b") (by decide) (by decide) hok
  ⟨by decide, by decide, hok, h.1, by decide,
    match h.2.2 (str "\x7b% x %\x7d") (by decide) with
    | ⟨payload, h1, h2, h3, h4, _⟩ => ⟨payload, h1, h2.trans (by decide), h3, h4⟩⟩

/-! ## C14: the round trip of one pair -/

theorem occurs_suffix (P a b : Bytes) (h : occurs P (a ++ b) = false) : occurs P b = false := by
  induction a with
  | nil => exact h
  | cons x a ih =>
    simp only [List.cons_append, occurs, Bool.or_eq_false_iff] at h
    exact ih h.2

theorem occurs_head (P : Bytes) (b : Byte) (rest : Bytes) (h : occurs P (b :: rest) = false) :
    hasPrefix (b :: rest) P = false ∧ occurs P rest = false := by
  simpa only [occurs, Bool.or_eq_false_iff] using h

/-- The reference replacement at a span. -/
theorem replaceSpansM_at_span {ε : Type} (st et : Bytes) (repl : Bytes → Except ε Bytes)
    (fuel : Nat) (inp m after : Bytes) (h : spanAt st et inp = some (m, after)) :
    replaceSpansM st et repl (fuel + 1) inp =
      match repl m with
      | .error e => .error e
      | .ok o =>
        match replaceSpansM st et repl fuel after with
        | .error e => .error e
        | .ok t => .ok (o ++ t) := by
  cases inp with
  | nil => rw [spanAt_nil] at h; cases h
  | cons b rest => rw [replaceSpansM, h]

/-- With tokens that start with `<`, a text without `<` at the start of the protected
buffer is at the start of the buffer. -/
theorem hasPrefix_replaceSpans (st et : Bytes) (f : Bytes → Bytes)
    (hf : ∀ m, ∃ t, f m = 60 :: t) (n : Nat) (inp Q : Bytes) (hQ : ∀ q ∈ Q, q ≠ 60)
    (h : hasPrefix (replaceSpans st et f n inp) Q = true) : hasPrefix inp Q = true := by
  induction n generalizing inp Q with
  | zero => exact h
  | succ n ih =>
    cases Q with
    | nil => exact hasPrefix_nil _
    | cons q Q1 =>
      cases inp with
      | nil => exact h
      | cons b rest =>
        rw [replaceSpans] at h
        cases hsp : spanAt st et (b :: rest) with
        | some x =>
          obtain ⟨m, after⟩ := x
          rw [hsp] at h
          obtain ⟨t, ht⟩ := hf m
          simp only [ht, List.cons_append, hasPrefix_cons, Bool.and_eq_true,
            decide_eq_true_eq] at h
          exact absurd h.1.symm (hQ q (by simp))
        | none =>
          rw [hsp] at h
          simp only [hasPrefix_cons, Bool.and_eq_true, decide_eq_true_eq] at h
          rw [hasPrefix_cons, h.1, ih rest Q1 (fun x hx => hQ x (by simp [hx])) h.2]
          simp

/-- The raw tokens of a protected buffer are the tokens that the protector put there:
replacing each by its payload gives the buffer back, when the placeholder prefix (which
has `<` as its first byte only) does not occur in the buffer. -/
theorem restore_protect (ns : Bytes) (k : Nat) (st et P1 : Bytes)
    (hP : prefixOf ns k = 60 :: P1) (hP1 : ∀ q ∈ P1, q ≠ 60) (n : Nat) (inp : Bytes)
    (hocc : occurs (prefixOf ns k) inp = false) (L : Nat)
    (hL : (replaceSpans st et (encode ns k) n inp).length ≤ L) :
    replaceSpansM (prefixOf ns k) tagSuffix (unhide (prefixOf ns k).length tagSuffix.length) L
      (replaceSpans st et (encode ns k) n inp) = .ok inp := by
  have hS : tagSuffix = 32 :: [45, 45, 62] := by decide
  induction n generalizing inp L with
  | zero => exact replaceSpansM_none _ _ _ _ (findSpan_not_occurs _ _ _ hocc) _
  | succ n ih =>
    cases inp with
    | nil => cases L <;> rfl
    | cons b rest =>
      rw [replaceSpans] at hL ⊢
      cases hsp : spanAt st et (b :: rest) with
      | some x =>
        obtain ⟨m, after⟩ := x
        rw [hsp] at hL
        simp only at hL ⊢
        have hlen := spanAt_length st et _ m after hsp
        have hm : m ≠ [] := by
          intro h; rw [h] at hlen; simp at hlen
        have hinp := (spanAt_some st et _ m after hsp).1
        have hocc2 : occurs (prefixOf ns k) after = false := by
          rw [hinp] at hocc; exact occurs_suffix _ _ _ hocc
        have htok := spanAt_token (prefixOf ns k) [45, 45, 62] m
          (replaceSpans st et (encode ns k) n after) hm
        rw [← hS] at htok
        have henc : encode ns k m = prefixOf ns k ++ b64encode m ++ tagSuffix := rfl
        rw [← henc] at htok
        have hpos : 1 ≤ (encode ns k m).length := by
          rw [henc, hP]; simp
        obtain ⟨L1, rfl⟩ : ∃ L1, L = L1 + 1 := ⟨L - 1, by
          simp only [List.length_append] at hL; omega⟩
        rw [replaceSpansM_at_span _ _ _ L1 _ _ _ htok, henc, unhide_token]
        simp only
        rw [ih after hocc2 L1 (by simp only [List.length_append] at hL; omega)]
        simp only
        rw [hinp]
      | none =>
        rw [hsp] at hL
        simp only at hL ⊢
        obtain ⟨hh, hocc2⟩ := occurs_head _ _ _ hocc
        obtain ⟨L1, rfl⟩ : ∃ L1, L = L1 + 1 := ⟨L - 1, by
          simp only [List.length_cons] at hL; omega⟩
        have hnp : hasPrefix (b :: replaceSpans st et (encode ns k) n rest) (prefixOf ns k) =
            false := by
          cases hx : hasPrefix (b :: replaceSpans st et (encode ns k) n rest) (prefixOf ns k) with
          | false => rfl
          | true =>
            rw [hP, hasPrefix_cons, Bool.and_eq_true, decide_eq_true_eq] at hx
            have := hasPrefix_replaceSpans st et (encode ns k)
              (fun m => ⟨_, by
                show prefixOf ns k ++ b64encode m ++ tagSuffix = _
                rw [hP]; rfl⟩) n rest P1 hP1 hx.2
            rw [hP, hasPrefix_cons, hx.1, this] at hh
            simp at hh
        rw [replaceSpansM, spanAt_no_prefix _ _ _ hnp]
        simp only
        rw [ih rest hocc2 L1 (by simp only [List.length_cons] at hL; omega)]

set_option maxRecDepth 100000 in
/-- An ASCII letter, a digit or an underscore is an ASCII character other than `<` and
no metacharacter of the pattern language. -/
theorem isAlnum_facts : ∀ b : Byte, isAlnum b = true ∨ b = 95 →
    b.val < 128 ∧ isMeta b = false ∧ b ≠ 60 := by
  decide

set_option maxRecDepth 100000 in
/-- The placeholder prefix of a namespace without `<` has `<` as its first byte only. -/
theorem prefixOf_head (ns : Bytes) (k : Nat) (hns : ∀ b ∈ ns, b ≠ 60) :
    ∃ P1, prefixOf ns k = 60 :: P1 ∧ ∀ q ∈ P1, q ≠ 60 := by
  refine ⟨str "!-- ___XXX_" ++ ns ++ str "_" ++ decimal k ++ str "___ ", ?_, ?_⟩
  · have h : str "<!-- ___XXX_" = 60 :: str "!-- ___XXX_" := by decide
    simp [prefixOf, h]
  · intro q hq
    simp only [List.mem_append] at hq
    have h1 : ∀ q ∈ str "!-- ___XXX_", q ≠ 60 := by decide
    have h2 : ∀ q ∈ str "_", q ≠ 60 := by decide
    have h3 : ∀ q ∈ str "___ ", q ≠ 60 := by decide
    rcases hq with (((hq | hq) | hq) | hq) | hq
    · exact h1 q hq
    · exact hns q hq
    · exact h2 q hq
    · intro h
      have := (decimal_digits k q hq).2
      rw [h] at this
      exact absurd this (by decide)
    · exact h3 q hq

/-- C14. For a tag list of exactly one pair whose markers, trimmed, are non-empty and
ASCII, a namespace made only of ASCII letters, digits and underscores, and every input in
which neither the placeholder prefix of pair 0 nor its HTML-escaped form occurs: the
protector succeeds and returns the input with its spans replaced by tokens; the
raw-comment pass turns that buffer back into the input, byte for byte; the
escaped-comment pass then leaves the input as it is; so the restorer returns the input,
and the program with a document step that returns its input writes the input. -/
theorem single_pair_roundtrip (ns ignoreTags t0 t1 buf : Bytes)
    (htags : splitComma ignoreTags = [t0, t1])
    (hns : ∀ b ∈ ns, isAlnum b = true ∨ b = 95)
    (hst : trimSpace t0 ≠ []) (hsta : ∀ b ∈ trimSpace t0, b.val < 128)
    (het : trimSpace t1 ≠ []) (heta : ∀ b ∈ trimSpace t1, b.val < 128)
    (hraw : occurs (prefixOf ns 0) buf = false)
    (hesc : occurs (escapeString (prefixOf ns 0)) buf = false) :
    protectLoop ns [t0, t1] 0 buf = .ok (protectRef ns 0 (trimSpace t0) (trimSpace t1) buf) ∧
      rawPass ns 0 (protectRef ns 0 (trimSpace t0) (trimSpace t1) buf) = .ok buf ∧
      escPass ns 0 buf = .ok buf ∧
      restoreLoop ns 1 0 (protectRef ns 0 (trimSpace t0) (trimSpace t1) buf) = .ok buf ∧
      run ns ignoreTags some buf = .ok buf := by
  have hnsText : isText ns = true := isText_ascii ns (fun b hb => (isAlnum_facts b (hns b hb)).1)
  have hmeta : noMeta ns = true := by
    simp only [noMeta, List.all_eq_true, Bool.not_eq_true']
    exact fun b hb => (isAlnum_facts b (hns b hb)).2.1
  obtain ⟨P1, hP, hP1⟩ := prefixOf_head ns 0 (fun b hb => (isAlnum_facts b (hns b hb)).2.2)
  have hhead : ∃ c e1, trimSpace t1 = c :: e1 ∧ c.val < 128 := by
    obtain ⟨c, e1, h⟩ := List.exists_cons_of_ne_nil het
    exact ⟨c, e1, h, heta c (by rw [h]; simp)⟩
  have hpp := protectPair_eq_ref ns 0 (trimSpace t0) (trimSpace t1) buf
    (isText_ascii _ hsta) (isText_ascii _ heta) hst hhead
  have hprot : protectLoop ns [t0, t1] 0 buf =
      .ok (protectRef ns 0 (trimSpace t0) (trimSpace t1) buf) := by
    rw [protectLoop, if_neg (by simp [hst, het]), hpp]
    rfl
  have hrawp : rawPass ns 0 (protectRef ns 0 (trimSpace t0) (trimSpace t1) buf) = .ok buf := by
    rw [rawPass_eq_ref ns 0 _ hnsText hmeta]
    unfold protectRef
    exact restore_protect ns 0 _ _ P1 hP hP1 _ buf hraw _ (Nat.le_refl _)
  have hescp : escPass ns 0 buf = .ok buf := by
    rw [escPass_eq_ref ns 0 buf hnsText]
    exact replaceSpansM_none _ _ _ _ (findSpan_not_occurs _ _ _ hesc) _
  have hrest : restoreLoop ns 1 0 (protectRef ns 0 (trimSpace t0) (trimSpace t1) buf) =
      .ok buf := by
    rw [restoreLoop, hrawp]
    simp only
    rw [hescp]
    rfl
  refine ⟨hprot, hrawp, hescp, hrest, ?_⟩
  unfold run
  simp only [htags, List.length_cons, List.length_nil]
  rw [if_neg (by decide), hprot]
  exact hrest

/-- C14, witness: the default configuration on `a{% x %}b{% y %}`. -/
theorem single_pair_roundtrip_witness :
    splitComma flagIgnoreTags = [str "\x7b%", str "%\x7d"] ∧
      protectLoop flagHidden [str "\x7b%", str "%\x7d"] 0 (str "a\x7b% x %\x7db\x7b% y %\x7d") =
        .ok (str "a<!-- ___XXX_HTML_STRIP_0___ eyUgeCAlfQ== -->b" ++
          str "<!-- ___XXX_HTML_STRIP_0___ eyUgeSAlfQ== -->") ∧
      run flagHidden flagIgnoreTags some (str "a\x7b% x %\x7db\x7b% y %\x7d") =
        .ok (str "a\x7b% x %\x7db\x7b% y %\x7d") :=
  have h := single_pair_roundtrip flagHidden flagIgnoreTags (str "\x7b%") (str "%\x7d")
    (str "a\x7b% x %\x7db\x7b% y %\x7d") (by decide!) (by decide!) (by decide!) (by decide!)
    (by decide!) (by decide!) (by decide!) (by decide!)
  ⟨by decide!, h.1.trans (by decide!), h.2.2.2.2⟩

/-! ## C12: a later pass and the tokens of an earlier pair -/

theorem replaceSpans_nil (st et : Bytes) (f : Bytes → Bytes) (n : Nat) :
    replaceSpans st et f n [] = [] := by
  cases n <;> rfl

/-- The reference replacement does not depend on the fuel, from the length of the input
on. -/
theorem replaceSpans_fuel2 (st et : Bytes) (f : Bytes → Bytes) (n1 n2 : Nat) (inp : Bytes)
    (h1 : inp.length ≤ n1) (h2 : inp.length ≤ n2) :
    replaceSpans st et f n1 inp = replaceSpans st et f n2 inp := by
  induction n1 generalizing n2 inp with
  | zero =>
    have : inp = [] := List.length_eq_zero.mp (by omega)
    rw [this, replaceSpans_nil, replaceSpans_nil]
  | succ n1 ih =>
    cases inp with
    | nil => rw [replaceSpans_nil, replaceSpans_nil]
    | cons b rest =>
      obtain ⟨n2, rfl⟩ : ∃ m, n2 = m + 1 := ⟨n2 - 1, by simp at h2; omega⟩
      simp only [List.length_cons] at h1 h2
      rw [replaceSpans, replaceSpans]
      cases hsp : spanAt st et (b :: rest) with
      | some x =>
        obtain ⟨m, after⟩ := x
        have hl := spanAt_length st et _ m after hsp
        simp only [List.length_cons] at hl
        simp only
        rw [ih n2 after (by omega) (by omega)]
      | none =>
        simp only
        rw [ih n2 rest (by omega) (by omega)]

theorem replaceSpans_fuel (st et : Bytes) (f : Bytes → Bytes) (n : Nat) (inp : Bytes)
    (h : inp.length ≤ n) :
    replaceSpans st et f n inp = replaceSpans st et f inp.length inp :=
  replaceSpans_fuel2 st et f n inp.length inp h (Nat.le_refl _)

/-- A span of a text is a span of the text with more behind it. -/
theorem spanAt_append (st et inp m after t : Bytes) (het : et ≠ [])
    (h : spanAt st et inp = some (m, after)) : spanAt st et (inp ++ t) = some (m, after ++ t) := by
  obtain ⟨h1, run, h2, h3, h4⟩ := (spanAt_iff st et inp m after het).mp h
  exact (spanAt_iff st et _ m _ het).mpr ⟨by rw [h1, List.append_assoc], run, h2, h3, h4⟩

/-- A span that ends within the first part of a text is a span of the first part. -/
theorem spanAt_within (st et pre t m after : Bytes) (het : et ≠ [])
    (h : spanAt st et (pre ++ t) = some (m, after)) (hle : m.length ≤ pre.length) :
    spanAt st et pre = some (m, pre.drop m.length) ∧ after = pre.drop m.length ++ t := by
  obtain ⟨h1, run, h2, h3, h4⟩ := (spanAt_iff st et _ m after het).mp h
  have hm : pre.take m.length = m := by
    have := congrArg (List.take m.length) h1
    rw [List.take_left, List.take_append_of_le_length hle] at this
    exact this
  have ha : after = pre.drop m.length ++ t := by
    have := congrArg (List.drop m.length) h1
    rw [List.drop_left, List.drop_append_of_le_length hle] at this
    exact this.symm
  refine ⟨(spanAt_iff st et _ m _ het).mpr ⟨?_, run, h2, h3, h4⟩, ha⟩
  conv_lhs => rw [← List.take_append_drop m.length pre, hm]

/-- Bytes that no matched span overlaps are kept in their place by the reference
replacement, between the replaced texts before and after them. -/
theorem replaceSpans_keep (st et : Bytes) (f : Bytes → Bytes) (het : et ≠ []) (n off : Nat)
    (pre tok post : Bytes) (hn : (pre ++ tok ++ post).length ≤ n)
    (hfree : ∀ se ∈ spanPositions st et n off (pre ++ tok ++ post),
      se.2 ≤ off + pre.length ∨ off + pre.length + tok.length ≤ se.1) :
    replaceSpans st et f n (pre ++ tok ++ post) =
      replaceSpans st et f n pre ++ tok ++ replaceSpans st et f n post := by
  induction n generalizing off pre tok with
  | zero => rfl
  | succ n ih =>
    cases pre with
    | nil =>
      cases tok with
      | nil => simp [replaceSpans_nil]
      | cons t tok1 =>
        simp only [List.nil_append, List.cons_append, List.length_cons, List.length_nil,
          Nat.add_zero] at hn hfree ⊢
        have hpost : replaceSpans st et f (n + 1) post = replaceSpans st et f n post :=
          replaceSpans_fuel2 st et f _ _ post (by simp at hn; omega) (by simp at hn; omega)
        rw [replaceSpans_nil, hpost, replaceSpans]
        rw [spanPositions] at hfree
        cases hsp : spanAt st et (t :: (tok1 ++ post)) with
        | some x =>
          obtain ⟨m, after⟩ := x
          rw [hsp] at hfree
          have hl := (spanAt_length st et _ m after hsp).2
          have := hfree (off, off + m.length) (by simp)
          simp only at this
          omega
        | none =>
          rw [hsp] at hfree
          simp only at hfree ⊢
          have := ih (off + 1) [] tok1 (by simpa using hn) (by
            intro se hse
            have := hfree se (by simpa using hse)
            simp only [List.length_nil]
            omega)
          simp only [List.nil_append, replaceSpans_nil] at this
          rw [this]
          simp
    | cons b pre1 =>
      simp only [List.cons_append, List.length_cons] at hn hfree ⊢
      have hpost : replaceSpans st et f (n + 1) post = replaceSpans st et f n post :=
        replaceSpans_fuel2 st et f _ _ post (by simp at hn; omega) (by simp at hn; omega)
      rw [hpost]
      rw [spanPositions] at hfree
      cases hsp : spanAt st et (b :: (pre1 ++ tok ++ post)) with
      | some x =>
        obtain ⟨m, after⟩ := x
        rw [hsp] at hfree
        have hhead := hfree (off, off + m.length) (by simp)
        simp only at hhead
        have hle : m.length ≤ (b :: pre1).length := by
          simp only [List.length_cons]; omega
        have hsp2 : spanAt st et ((b :: pre1) ++ (tok ++ post)) = some (m, after) := by
          simpa [List.append_assoc] using hsp
        obtain ⟨hpre, hafter⟩ := spanAt_within st et (b :: pre1) (tok ++ post) m after het hsp2 hle
        have hl := spanAt_length st et _ _ _ hpre
        simp only [List.length_cons] at hl
        have hrec := ih (off + m.length) ((b :: pre1).drop m.length) tok (by
            rw [← List.append_assoc] at hafter
            rw [← hafter]
            have := (spanAt_length st et _ m after hsp).1
            simp only [List.length_cons] at this
            omega) (by
            intro se hse
            rw [← List.append_assoc] at hafter
            rw [← hafter] at hse
            have := hfree se (by simp [hse])
            omega)
        have hfull : replaceSpans st et f (n + 1) (b :: (pre1 ++ tok ++ post)) =
            f m ++ replaceSpans st et f n after := by
          rw [replaceSpans, hsp]
        have hp : replaceSpans st et f (n + 1) (b :: pre1) =
            f m ++ replaceSpans st et f n ((b :: pre1).drop m.length) := by
          rw [replaceSpans, hpre]
        rw [hfull, hp, hafter, ← List.append_assoc, hrec]
        simp [List.append_assoc]
      | none =>
        rw [hsp] at hfree
        simp only at hfree
        have hpre : spanAt st et (b :: pre1) = none := by
          cases h : spanAt st et (b :: pre1) with
          | none => rfl
          | some y =>
            obtain ⟨m1, a1⟩ := y
            have := spanAt_append st et _ m1 a1 (tok ++ post) het h
            simp only [List.cons_append, ← List.append_assoc] at this
            rw [hsp] at this
            cases this
        have hrec := ih (off + 1) pre1 tok (by omega) (by
            intro se hse
            have := hfree se hse
            omega)
        rw [replaceSpans, hsp, replaceSpans, hpre]
        simp only
        rw [hrec]
        simp

/-- C12, as stated, fails: with the pairs `{%`, `%}` and `{{`, `}}` and the input
`{{ {% x %} }}`, the pass of pair 0 puts its token between `{{ ` and ` }}`; the one span
that the pass of pair 1 then matches is the whole buffer, from offset 0 to its end, with
the token of pair 0 inside it; after the protection step the buffer is a single token of
pair 1 and the token of pair 0 occurs nowhere in it. -/
theorem layered_protection_counterexample :
    protectPair flagHidden 0 (str "\x7b%") (str "%\x7d") (str "\x7b\x7b \x7b% x %\x7d \x7d\x7d") =
        .ok (str "\x7b\x7b " ++ encode flagHidden 0 (str "\x7b% x %\x7d") ++ str " \x7d\x7d") ∧
      spanPositions (str "\x7b\x7b") (str "\x7d\x7d") 50 0
          (str "\x7b\x7b " ++ encode flagHidden 0 (str "\x7b% x %\x7d") ++ str " \x7d\x7d") =
        [(0, 50)] ∧
      (str "\x7b\x7b " ++ encode flagHidden 0 (str "\x7b% x %\x7d") ++ str " \x7d\x7d").length = 50 ∧
      protectLoop flagHidden (splitComma (str "\x7b%,%\x7d,\x7b\x7b,\x7d\x7d")) 0
          (str "\x7b\x7b \x7b% x %\x7d \x7d\x7d") =
        .ok (encode flagHidden 1
          (str "\x7b\x7b " ++ encode flagHidden 0 (str "\x7b% x %\x7d") ++ str " \x7d\x7d")) ∧
      occurs (encode flagHidden 0 (str "\x7b% x %\x7d"))
          (encode flagHidden 1
            (str "\x7b\x7b " ++ encode flagHidden 0 (str "\x7b% x %\x7d") ++ str " \x7d\x7d")) =
        false := by
  decide!

/-- C12, amended. For a pair whose markers are texts (valid UTF-8 without U+FFFD), the
start marker non-empty, the end marker starting with an ASCII character, and a buffer in
which a token of any pair stands between the texts `pre` and `post`: when no span that
the pass of the pair matches overlaps the token (each matched span ends at or before
the first byte of the token or starts at or after its end), the pass keeps the token
verbatim, between what it makes of `pre` and what it makes of `post`. -/
theorem later_pass_keeps_token (ns : Bytes) (i j : Nat) (st et pre m post : Bytes)
    (hst : isText st = true) (hne : st ≠ []) (het : isText et = true)
    (hc : asciiHead et = true)
    (hfree : ∀ se ∈ spanPositions st et (pre ++ encode ns i m ++ post).length 0
        (pre ++ encode ns i m ++ post),
      se.2 ≤ pre.length ∨ pre.length + (encode ns i m).length ≤ se.1) :
    protectPair ns j st et (pre ++ encode ns i m ++ post) =
      .ok (protectRef ns j st et pre ++ encode ns i m ++ protectRef ns j st et post) := by
  have hc2 := asciiHead_cons et hc
  have hne2 : et ≠ [] := by
    obtain ⟨c, e1, rfl, _⟩ := hc2; simp
  rw [protectPair_eq_ref ns j st et _ hst het hne hc2]
  unfold protectRef
  rw [replaceSpans_keep st et _ hne2 _ 0 pre (encode ns i m) post (Nat.le_refl _)
    (by simpa using hfree),
    replaceSpans_fuel st et _ _ pre (by simp only [List.length_append]; omega),
    replaceSpans_fuel st et _ _ post (by simp only [List.length_append]; omega)]

/-- C12, witness: the pass of the pair `{{`, `}}` over `{{ a }}`, the token of `{% x %}`
for pair 0 and `{{ b }}`: its two spans lie before and after the token, which is kept. -/
theorem later_pass_keeps_token_witness :
    isText (str "\x7b\x7b") = true ∧ str "\x7b\x7b" ≠ [] ∧ isText (str "\x7d\x7d") = true ∧
      asciiHead (str "\x7d\x7d") = true ∧
      spanPositions (str "\x7b\x7b") (str "\x7d\x7d") 58 0
          (str "\x7b\x7b a \x7d\x7d" ++ encode flagHidden 0 (str "\x7b% x %\x7d") ++
            str "\x7b\x7b b \x7d\x7d") = [(0, 7), (51, 58)] ∧
      protectPair flagHidden 1 (str "\x7b\x7b") (str "\x7d\x7d")
          (str "\x7b\x7b a \x7d\x7d" ++ encode flagHidden 0 (str "\x7b% x %\x7d") ++
            str "\x7b\x7b b \x7d\x7d") =
        .ok (encode flagHidden 1 (str "\x7b\x7b a \x7d\x7d") ++
          encode flagHidden 0 (str "\x7b% x %\x7d") ++
          encode flagHidden 1 (str "\x7b\x7b b \x7d\x7d")) :=
  ⟨by decide, by decide, by decide, by decide, by decide!,
    (later_pass_keeps_token flagHidden 0 1 (str "\x7b\x7b") (str "\x7d\x7d")
      (str "\x7b\x7b a \x7d\x7d") (str "\x7b% x %\x7d") (str "\x7b\x7b b \x7d\x7d")
      (by decide) (by decide) (by decide) (by decide) (by decide!)).trans (by decide!)⟩

/-! ## C11: a pair added at the end of the tag list -/

theorem splitComma_ne_nil (s : Bytes) : splitComma s ≠ [] := by
  cases s with
  | nil => simp [splitComma]
  | cons b rest =>
    rw [splitComma]
    split_ifs
    · simp
    · cases splitComma rest <;> simp

/-- Splitting at the commas, a comma in the middle. -/
theorem splitComma_append (a b : Bytes) :
    splitComma (a ++ 44 :: b) = splitComma a ++ splitComma b := by
  induction a with
  | nil => simp [splitComma]
  | cons x a ih =>
    rw [List.cons_append, splitComma, splitComma, ih]
    split_ifs with h
    · rfl
    · cases hs : splitComma a with
      | nil => exact absurd hs (splitComma_ne_nil a)
      | cons f fs => rfl

theorem splitComma_plain (s : Bytes) (h : ∀ b ∈ s, b ≠ 44) : splitComma s = [s] := by
  induction s with
  | nil => rfl
  | cons x s ih =>
    rw [splitComma, if_neg (h x (by simp)), ih (fun b hb => h b (by simp [hb]))]

/-- The tag list of a flag with one more pair at its end. -/
theorem splitComma_added (tags st et : Bytes) (hst : ∀ b ∈ st, b ≠ 44)
    (het : ∀ b ∈ et, b ≠ 44) :
    splitComma (tags ++ str "," ++ st ++ str "," ++ et) = splitComma tags ++ [st, et] := by
  have h : str "," = [44] := by decide
  have h2 : tags ++ [44] ++ st ++ [44] ++ et = tags ++ 44 :: (st ++ 44 :: et) := by simp
  rw [h, h2, splitComma_append, splitComma_append, splitComma_plain st hst,
    splitComma_plain et het]
  rfl

/-- The protector on a tag list in two parts, the first of full pairs. -/
theorem protectLoop_append (ns : Bytes) (tags more : List Bytes) (k : Nat) (buf : Bytes)
    (heven : tags.length % 2 = 0) :
    protectLoop ns (tags ++ more) k buf =
      match protectLoop ns tags k buf with
      | .error e => .error e
      | .ok b => protectLoop ns more (k + tags.length / 2) b := by
  induction tags using pairsOf.induct generalizing k buf with
  | case1 t0 t1 rest ih =>
    have he : rest.length % 2 = 0 := by simp only [List.length_cons] at heven; omega
    rw [List.cons_append, List.cons_append, protectLoop, protectLoop]
    split_ifs with h
    · rfl
    · cases hp : protectPair ns k (trimSpace t0) (trimSpace t1) buf with
      | error e => rfl
      | ok buf1 =>
        simp only
        rw [ih (k + 1) buf1 he]
        have : k + 1 + rest.length / 2 = k + (t0 :: t1 :: rest).length / 2 := by
          simp only [List.length_cons]; omega
        rw [this]
  | case2 tags hne =>
    match tags, hne with
    | [], _ => simp [protectLoop]
    | [_], _ => simp at heven
    | t0 :: t1 :: rest, hne => exact absurd rfl (hne t0 t1 rest)

/-- The restorer for one more pair: the restorer for the pairs before it, then the two
passes of the last pair. -/
theorem restoreLoop_succ (ns : Bytes) (n k : Nat) (text : Bytes) :
    restoreLoop ns (n + 1) k text =
      match restoreLoop ns n k text with
      | .error e => .error e
      | .ok t => restoreLoop ns 1 (k + n) t := by
  induction n generalizing k text with
  | zero => rfl
  | succ n ih =>
    rw [restoreLoop, restoreLoop]
    cases rawPass ns k text with
    | error e => rfl
    | ok t1 =>
      simp only
      cases escPass ns k t1 with
      | error e => rfl
      | ok t2 =>
        simp only
        rw [ih (k + 1) t2]
        have : k + 1 + n = k + (n + 1) := by omega
        rw [this]

/-- C11, as stated, fails. The markers `<!--` and `-->` occur nowhere in the input
`a{% x %}b`, but added as a second pair they match the token of pair 0: the protector
emits a token of pair 1, and the output is `a`, the token of pair 0 and `b` instead of
the input, which is the output without the added pair. And the markers `[[` and `]]` occur
nowhere in the input `<!-- ___XXX_HTML_STRIP_1___ QQ== -->`, which the program with the
default pair alone writes unchanged; with the pair added, its restore passes take the
input for a token of pair 1 and the output is `A`. -/
theorem inert_pair_counterexample :
    occurs (str "<!--") (str "a\x7b% x %\x7db") = false ∧
      occurs (str "-->") (str "a\x7b% x %\x7db") = false ∧
      protectLoop flagHidden (splitComma (str "\x7b%,%\x7d,<!--,-->")) 0 (str "a\x7b% x %\x7db") =
        .ok (str "a" ++ encode flagHidden 1 (encode flagHidden 0 (str "\x7b% x %\x7d")) ++
          str "b") ∧
      run flagHidden (str "\x7b%,%\x7d,<!--,-->") some (str "a\x7b% x %\x7db") =
        .ok (str "a<!-- ___XXX_HTML_STRIP_0___ eyUgeCAlfQ== -->b") ∧
      run flagHidden (str "\x7b%,%\x7d") some (str "a\x7b% x %\x7db") =
        .ok (str "a\x7b% x %\x7db") ∧
      occurs (str "[[") (str "<!-- ___XXX_HTML_STRIP_1___ QQ== -->") = false ∧
      occurs (str "]]") (str "<!-- ___XXX_HTML_STRIP_1___ QQ== -->") = false ∧
      run flagHidden (str "\x7b%,%\x7d,[[,]]") some (str "<!-- ___XXX_HTML_STRIP_1___ QQ== -->") =
        .ok (str "A") ∧
      run flagHidden (str "\x7b%,%\x7d") some (str "<!-- ___XXX_HTML_STRIP_1___ QQ== -->") =
        .ok (str "<!-- ___XXX_HTML_STRIP_1___ QQ== -->") := by
  decide!

/-- C11, amended. For a namespace that is a text without pattern metacharacters, a tag
list of full pairs and one more pair added at its end, with markers that are texts, the
start marker non-empty, the end marker starting with an ASCII character: when the start
marker of the added pair does not occur in the buffer that the passes of the other pairs
leave, the pass of the added pair changes nothing in that buffer (no token is emitted for
it) and the protector gives the same result with and without the added pair; and when,
besides, the output without the added pair holds no placeholder prefix of the index of
the added pair, raw or HTML-escaped, the program gives the same result, output or
failure, with and without the added pair, for the same document step. -/
theorem added_pair_inert (ns ignoreTags st et : Bytes) (dom : Bytes → Option Bytes)
    (buf : Bytes) (hns : isText ns = true) (hmeta : noMeta ns = true)
    (heven : (splitComma ignoreTags).length % 2 = 0)
    (hst : ∀ b ∈ st, b ≠ 44) (het : ∀ b ∈ et, b ≠ 44)
    (hgood : goodPair (trimSpace st, trimSpace et) = true)
    (hprot : ∀ pbuf, protectLoop ns (splitComma ignoreTags) 0 buf = .ok pbuf →
      occurs (trimSpace st) pbuf = false)
    (hout : ∀ out, run ns ignoreTags dom buf = .ok out →
      noTokens ns 1 ((splitComma ignoreTags).length / 2) out = true) :
    splitComma (ignoreTags ++ str "," ++ st ++ str "," ++ et) =
        splitComma ignoreTags ++ [st, et] ∧
      (∀ pbuf, protectLoop ns (splitComma ignoreTags) 0 buf = .ok pbuf →
        protectPair ns ((splitComma ignoreTags).length / 2) (trimSpace st) (trimSpace et) pbuf =
          .ok pbuf) ∧
      protectLoop ns (splitComma (ignoreTags ++ str "," ++ st ++ str "," ++ et)) 0 buf =
        protectLoop ns (splitComma ignoreTags) 0 buf ∧
      run ns (ignoreTags ++ str "," ++ st ++ str "," ++ et) dom buf =
        run ns ignoreTags dom buf := by
  have hsplit := splitComma_added ignoreTags st et hst het
  have hg := goodPair_spec _ hgood
  simp only at hg
  have hpair : ∀ pbuf, protectLoop ns (splitComma ignoreTags) 0 buf = .ok pbuf →
      protectPair ns ((splitComma ignoreTags).length / 2) (trimSpace st) (trimSpace et) pbuf =
        .ok pbuf := by
    intro pbuf hp
    rw [protectPair_eq_ref ns _ _ _ pbuf hg.1 hg.2.2.1 hg.2.1 (asciiHead_cons _ hg.2.2.2.1)]
    unfold protectRef
    rw [replaceSpans_none _ _ _ _ (findSpan_not_occurs _ _ _ (hprot pbuf hp))]
  have hloop : protectLoop ns (splitComma ignoreTags ++ [st, et]) 0 buf =
      protectLoop ns (splitComma ignoreTags) 0 buf := by
    rw [protectLoop_append ns _ _ 0 buf heven]
    cases hp : protectLoop ns (splitComma ignoreTags) 0 buf with
    | error e => rfl
    | ok pbuf =>
      simp only [Nat.zero_add]
      rw [protectLoop, if_neg (by simp [hg.2.1, hg.2.2.2.2]), hpair pbuf hp]
      rfl
  refine ⟨hsplit, hpair, by rw [hsplit]; exact hloop, ?_⟩
  have hn : ((splitComma ignoreTags ++ [st, et]).length + 1) / 2 =
      (splitComma ignoreTags).length / 2 + 1 := by
    simp only [List.length_append, List.length_cons, List.length_nil]; omega
  have hn2 : ((splitComma ignoreTags).length + 1) / 2 = (splitComma ignoreTags).length / 2 := by
    omega
  have hrun : ∀ tags : Bytes, run ns tags dom buf =
      if (splitComma tags).length % 2 = 1 then .error .oddTags
      else
        match protectLoop ns (splitComma tags) 0 buf with
        | .error e => .error e
        | .ok protectedBuf =>
          match dom protectedBuf with
          | none => .error .dom
          | some htmlstr => restoreLoop ns (((splitComma tags).length + 1) / 2) 0 htmlstr :=
    fun _ => rfl
  have hout2 := hout
  rw [hrun ignoreTags, if_neg (by omega)] at hout2
  have hodd : ¬ (splitComma ignoreTags ++ [st, et]).length % 2 = 1 := by
    simp only [List.length_append, List.length_cons, List.length_nil]; omega
  have hodd2 : ¬ (splitComma ignoreTags).length % 2 = 1 := by omega
  rw [hrun, hrun ignoreTags, hsplit, if_neg hodd, if_neg hodd2, hloop, hn, hn2]
  rw [hn2] at hout2
  cases hp : protectLoop ns (splitComma ignoreTags) 0 buf with
  | error e => rfl
  | ok pbuf =>
    rw [hp] at hout2
    simp only at hout2
    show (match dom pbuf with
      | none => Except.error Failure.dom
      | some htmlstr => restoreLoop ns ((splitComma ignoreTags).length / 2 + 1) 0 htmlstr) =
      match dom pbuf with
      | none => Except.error Failure.dom
      | some htmlstr => restoreLoop ns ((splitComma ignoreTags).length / 2) 0 htmlstr
    cases hd : dom pbuf with
    | none => rfl
    | some html =>
      rw [hd] at hout2
      simp only at hout2
      show restoreLoop ns ((splitComma ignoreTags).length / 2 + 1) 0 html =
        restoreLoop ns ((splitComma ignoreTags).length / 2) 0 html
      rw [restoreLoop_succ]
      cases hr : restoreLoop ns ((splitComma ignoreTags).length / 2) 0 html with
      | error e => rfl
      | ok out =>
        simp only [Nat.zero_add]
        exact restoreLoop_noTokens ns hns hmeta 1 _ out (hout2 out hr)

/-- C11, witness: the default pair and the added pair `[[`, `]]` on `a{% x %}b`, with a
document step that returns its input. -/
theorem added_pair_inert_witness :
    isText flagHidden = true ∧ noMeta flagHidden = true ∧
      goodPair (trimSpace (str "[["), trimSpace (str "]]")) = true ∧
      flagIgnoreTags ++ str "," ++ str "[[" ++ str "," ++ str "]]" = str "\x7b%,%\x7d,[[,]]" ∧
      run flagHidden (flagIgnoreTags ++ str "," ++ str "[[" ++ str "," ++ str "]]") some
          (str "a\x7b% x %\x7db") =
        .ok (str "a\x7b% x %\x7db") :=
  have hp : protectLoop flagHidden (splitComma flagIgnoreTags) 0 (str "a\x7b% x %\x7db") =
      .ok (str "a<!-- ___XXX_HTML_STRIP_0___ eyUgeCAlfQ== -->b") := by decide!
  have hr : run flagHidden flagIgnoreTags some (str "a\x7b% x %\x7db") =
      .ok (str "a\x7b% x %\x7db") := by decide!
  ⟨by decide, by decide, by decide!, by decide!,
    (added_pair_inert flagHidden flagIgnoreTags (str "[[") (str "]]") some
      (str "a\x7b% x %\x7db") (by decide) (by decide) (by decide) (by decide!) (by decide!)
      (by decide!)
      (fun pbuf h => by
        rw [hp] at h
        cases h
        decide!)
      (fun out h => by
        rw [hr] at h
        cases h
        decide!)).2.2.2.trans hr⟩

end HtmlStrip
